import Mathlib

set_option maxRecDepth 40000
set_option maxHeartbeats 1000000

namespace Flax

/-!
A shallow embedding of the flax procedural map-generation engine
(src/flax/fractor.py together with the entity-type declarations of
src/flax/entity.py).  Python dictionaries are embedded as functions into
`Option` (a missing key is `none`, and writing to a missing key extends the
dictionary), Python sets of points as duplicate-free lists, and the shared
global random source as an explicit stream of integers consumed one draw at a
time.  Components of the repository that are not part of the two source files
(flax.geometry, flax.map) are modelled from the specification and are marked
as such in their doc comments.
-/

/-- A grid point with integer coordinates.  Modelled from the spec:
flax.geometry is not under src/; the spec describes points as integer grid
coordinates with value-based equality. -/
structure Point where
  x : ℤ
  y : ℤ
deriving DecidableEq, Repr

/-- Modelled from the spec: the neighbors of a point as used by the
Valley-Flood Connector and local-minima collection.  The spec states that for
these algorithms only axis (4-connected) neighbors are compared
(section 4.5: only axis neighbors present in the map are compared; glossary:
a local minimum compares in-region axis-neighbors; the testable property for
the connector speaks of 4-neighbor adjacency). -/
def Point.neighbors (p : Point) : List Point :=
  [⟨p.x, p.y - 1⟩, ⟨p.x, p.y + 1⟩, ⟨p.x - 1, p.y⟩, ⟨p.x + 1, p.y⟩]

/-- Modelled from the spec: the up-to-8-neighbor set used by the cellular
automaton cave carver (section 4.7 of the spec counts up to 8 neighbors, as
does the 4-5 rule comment in `generate_caves`). -/
def Point.neighbors8 (p : Point) : List Point :=
  [⟨p.x - 1, p.y - 1⟩, ⟨p.x, p.y - 1⟩, ⟨p.x + 1, p.y - 1⟩,
   ⟨p.x - 1, p.y⟩, ⟨p.x + 1, p.y⟩,
   ⟨p.x - 1, p.y + 1⟩, ⟨p.x, p.y + 1⟩, ⟨p.x + 1, p.y + 1⟩]

/-- A width/height pair (flax.geometry `Size`, modelled from the spec). -/
structure Size where
  width : ℤ
  height : ℤ
deriving DecidableEq, Repr

/-- An axis-aligned rectangle with inclusive integer edges.  Modelled from the
spec: flax.geometry `Rectangle`; `fractor.py` accesses `left`, `top`, `right`,
`bottom`, `width`, `height`, `size`, `center`, `replace`, `iter_points`,
`iter_border` and containment. -/
structure Rect where
  left : ℤ
  top : ℤ
  right : ℤ
  bottom : ℤ
deriving DecidableEq, Repr

def Rect.width (r : Rect) : ℤ := r.right - r.left + 1

def Rect.height (r : Rect) : ℤ := r.bottom - r.top + 1

def Rect.area (r : Rect) : ℤ := r.width * r.height

/-- The rectangle with a given origin (top-left point) and size
(`Rectangle(Point(..), Size(..))` / `size.to_rect(origin)`). -/
def Rect.ofOriginSize (p : Point) (s : Size) : Rect :=
  ⟨p.x, p.y, p.x + s.width - 1, p.y + s.height - 1⟩

def Rect.contains (r : Rect) (p : Point) : Prop :=
  r.left ≤ p.x ∧ p.x ≤ r.right ∧ r.top ≤ p.y ∧ p.y ≤ r.bottom

instance (r : Rect) (p : Point) : Decidable (r.contains p) := by
  unfold Rect.contains; infer_instance

/-- Rectangle containment (Python `room.rect in canvas.rect`). -/
def Rect.containsRect (outer inner : Rect) : Prop :=
  outer.left ≤ inner.left ∧ inner.right ≤ outer.right ∧
    outer.top ≤ inner.top ∧ inner.bottom ≤ outer.bottom

instance (r s : Rect) : Decidable (r.containsRect s) := by
  unfold Rect.containsRect; infer_instance

/-- All points of the rectangle, row by row (modelled from the spec: regions
support iteration over contained points; a fixed deterministic order). -/
def Rect.iterPoints (r : Rect) : List Point :=
  (List.range r.height.toNat).flatMap fun (dy : ℕ) =>
    (List.range r.width.toNat).map fun (dx : ℕ) =>
      ⟨r.left + (dx : ℤ), r.top + (dy : ℤ)⟩

/-- Outward edge directions (flax.geometry `Direction`, orthogonal part;
modelled from the spec). -/
inductive Dir
  | up | down | left | right
deriving DecidableEq, Repr

/-- Border points together with an outward direction (modelled from the spec:
regions support iteration over border points with an associated outward
direction).  Corner points may be listed more than once; `fractor.py` only
uses the point component for drawing room walls. -/
def Rect.iterBorder (r : Rect) : List (Point × Dir) :=
  ((List.range r.width.toNat).map fun (dx : ℕ) =>
      ((⟨r.left + (dx : ℤ), r.top⟩ : Point), Dir.up)) ++
  ((List.range r.width.toNat).map fun (dx : ℕ) =>
      ((⟨r.left + (dx : ℤ), r.bottom⟩ : Point), Dir.down)) ++
  ((List.range r.height.toNat).map fun (dy : ℕ) =>
      ((⟨r.left, r.top + (dy : ℤ)⟩ : Point), Dir.left)) ++
  ((List.range r.height.toNat).map fun (dy : ℕ) =>
      ((⟨r.right, r.top + (dy : ℤ)⟩ : Point), Dir.right))

/-- `region.replace(bottom=v)` and friends, from flax.geometry (modelled from
the spec: the binary partition replaces one inclusive edge). -/
def Rect.replaceBottom (r : Rect) (v : ℤ) : Rect := { r with bottom := v }

def Rect.replaceTop (r : Rect) (v : ℤ) : Rect := { r with top := v }

def Rect.replaceRight (r : Rect) (v : ℤ) : Rect := { r with right := v }

def Rect.replaceLeft (r : Rect) (v : ℤ) : Rect := { r with left := v }

/-! ## Entity types (src/flax/entity.py) -/

/-- The entity types of src/flax/entity.py that the generation engine places.
`caveFloor` does not appear in the part of entity.py under src/ and is
modelled from the spec (a walkable cave floor tile). -/
inductive EType
  | caveWall
  | wall
  | floor
  | caveFloor
  | tree
  | grass
  | cutGrass
  | dirt
  | stairsUp
  | stairsDown
  | salamango
  | armor
  | potion
  | gem
  | crate
deriving DecidableEq, Repr

/-- Whether `entity_type.components.get(IPhysics) is Empty`: architecture
types declared with the `Empty` component in entity.py.  Creature and item
types have no IPhysics component, so the lookup yields `None` for them. -/
def EType.isEmptyPhysics : EType → Bool
  | .floor | .caveFloor | .grass | .cutGrass | .dirt
  | .stairsUp | .stairsDown => true
  | _ => false

/-- A configured entity instance (class `Entity` of entity.py): an entity type
plus the instance parameters the generation engine configures (here, a
portal destination). -/
structure Entity where
  type : EType
  destination : Option ℤ := none
deriving DecidableEq, Repr

/-- A value placeable on the canvas: either a bare entity type or a configured
`Entity` instance (the grids of `MapCanvas` store both uniformly). -/
inductive Tile
  | typ (t : EType)
  | ent (e : Entity)
deriving DecidableEq, Repr

/-- The underlying entity type of a placeable value; for an instance this is
the `isinstance(entity_type, Entity)` unwrapping in `set_architecture`. -/
def Tile.etype : Tile → EType
  | .typ t => t
  | .ent e => e.type

def Tile.isEmptyPhysics (tl : Tile) : Bool := tl.etype.isEmptyPhysics

/-- `MapCanvas.maybe_create`: a bare type is called to produce a configured
instance with default parameters, an instance is passed through. -/
def maybe_create : Tile → Entity
  | .typ t => { type := t }
  | .ent e => e

/-! ## The random source

The shared global random source is embedded as an explicit stream of integer
draws together with a cursor.  Every primitive consumes one draw (`sample`
consumes one per selected element).  Quantifying over all streams quantifies
over all outcomes of the random source; the `gauss` primitive is modelled as
returning an arbitrary integer-valued outcome, which reaches every result
value of the clamped integer functions built on top of it. -/

abbrev Rand := ℕ → ℤ

/-- The failure conditions of the engine (section 7 of the spec): Python
exception kinds are distinct constructors.  `sampleTooLarge` is the
`ValueError` raised by `random.sample`, the two `noOpenSpaces` constructors
are the `AssertionError`s of `place_stuff` and `place_portal`,
`assertionError` covers the remaining plain asserts, `keyError` a read of a
missing dictionary key, `indexError` `random.choice` on an empty list,
`valueError` `random.randint` on an empty range, and `outOfFuel` is the
modelling artifact for loops the source does not bound. -/
inductive Err
  | assertionError
  | noOpenSpacesPlayer
  | noOpenSpacesPortal
  | sampleTooLarge
  | keyError
  | indexError
  | valueError
  | notImplemented
  | outOfFuel
deriving DecidableEq, Repr

/-- A computation consuming random draws and possibly failing. -/
abbrev GenE (α : Type) := Rand → ℕ → Except Err α × ℕ

def GenE.pure (a : α) : GenE α := fun _ n => (.ok a, n)

def GenE.bind (m : GenE α) (f : α → GenE β) : GenE β := fun r n =>
  match m r n with
  | (.ok a, n1) => f a r n1
  | (.error e, n1) => (.error e, n1)

def GenE.fail (e : Err) : GenE α := fun _ n => (.error e, n)

/-- Truncation toward zero, Python `int(...)`. -/
def pyInt (q : ℚ) : ℤ := if 0 ≤ q then ⌊q⌋ else ⌈q⌉

/-- `random_normal_range(lb, ub)` of fractor.py as a pure function of the
outcome `g` of the underlying `random.gauss(mu, sigma)` draw:
`ret = int(g + 0.5)` clamped to `[lb, ub]`. -/
def random_normal_range (g : ℚ) (lb ub : ℤ) : ℤ :=
  if pyInt (g + 1 / 2) < lb then lb
  else if pyInt (g + 1 / 2) > ub then ub
  else pyInt (g + 1 / 2)

/-- Drawing `random_normal_range` from the stream: one gauss draw. -/
def rnrG (lb ub : ℤ) : GenE ℤ := fun r n =>
  (.ok (random_normal_range ((r n : ℤ) : ℚ) lb ub), n + 1)

/-- `random.randint(a, b)`: inclusive on both ends, `ValueError` when the
range is empty.  The draw is mapped into the range by a modulus so that every
value of `[a, b]` is an outcome. -/
def randint (a b : ℤ) : GenE ℤ := fun r n =>
  if b < a then (.error .valueError, n)
  else (.ok (a + ((r n).toNat : ℤ) % (b - a + 1)), n + 1)

/-- `random.choice(l)`: `IndexError` on an empty list, otherwise an arbitrary
element selected by the draw. -/
def choice (l : List α) : GenE α := fun r n =>
  if h : l.length = 0 then (.error .indexError, n)
  else (.ok (l.get ⟨(r n).toNat % l.length, Nat.mod_lt _ (Nat.pos_of_ne_zero h)⟩), n + 1)

/-- One selection step of `random.sample`: pick an element by the draw and
remove it from the population. -/
def sampleList [DecidableEq α] (r : Rand) : ℕ → List α → ℕ → List α
  | _, _, 0 => []
  | n, pop, k + 1 =>
    if h : pop.length = 0 then []
    else
      let a := pop.get ⟨(r n).toNat % pop.length, Nat.mod_lt _ (Nat.pos_of_ne_zero h)⟩
      a :: sampleList r (n + 1) (pop.erase a) k

/-- `random.sample(pop, k)`: raises `ValueError` when the sample size exceeds
the population size, otherwise returns `k` distinct elements. -/
def sample [DecidableEq α] (pop : List α) (k : ℕ) : GenE (List α) := fun r n =>
  if pop.length < k then (.error .sampleTooLarge, n)
  else (.ok (sampleList r n pop k), n + k)

/-! ## MapCanvas (src/flax/fractor.py lines 57-117) -/

/-- The layered generation workspace.  The three grids are Python
dictionaries initialised over the bounding rectangle; an absent key is
`none`.  `floor_spaces` is the Python set of walkable points, embedded as a
duplicate-free list in an arbitrary but deterministic order. -/
structure MapCanvas where
  rect : Rect
  arch : Point → Option Tile
  items : Point → Option (List Tile)
  creature : Point → Option (Option Tile)
  floor_spaces : List Point

/-- Python `set.add`: the representing list is extended only when the point
is new. -/
def setAdd (p : Point) (l : List Point) : List Point :=
  if p ∈ l then l else p :: l

/-- `MapCanvas.__init__(size)`: every in-bounds architecture cell is
`CaveWall`, item lists are empty, creature cells empty, no floor spaces. -/
def MapCanvas.init (size : Size) : MapCanvas :=
  let rect := Rect.ofOriginSize ⟨0, 0⟩ size
  { rect := rect
    arch := fun p => if rect.contains p then some (.typ .caveWall) else none
    items := fun p => if rect.contains p then some [] else none
    creature := fun p => if rect.contains p then some none else none
    floor_spaces := [] }

/-- `MapCanvas.clear(entity_type)`: writes the type to every in-bounds
architecture cell and resets the floor set to all in-bounds points or to
empty depending on the physics of the type. -/
def MapCanvas.clear (c : MapCanvas) (t : EType) : MapCanvas :=
  { c with
    arch := fun q => if c.rect.contains q then some (.typ t) else c.arch q
    floor_spaces := if t.isEmptyPhysics then c.rect.iterPoints else [] }

/-- `MapCanvas.set_architecture(point, entity_type)`: a plain dictionary
write (which extends the dictionary when the key is absent), then membership
of the point in the floor set is updated from the physics of the written
value. -/
def MapCanvas.set_architecture (c : MapCanvas) (p : Point) (tl : Tile) : MapCanvas :=
  { c with
    arch := fun q => if q = p then some tl else c.arch q
    floor_spaces :=
      if tl.isEmptyPhysics then setAdd p c.floor_spaces
      else c.floor_spaces.erase p }

/-- `MapCanvas.add_item(point, entity_type)`: appends to the item list of the
cell; reading a missing key raises `KeyError`. -/
def MapCanvas.add_item (c : MapCanvas) (p : Point) (tl : Tile) : Except Err MapCanvas :=
  match c.items p with
  | none => .error .keyError
  | some l =>
      .ok { c with items := fun q => if q = p then some (l ++ [tl]) else c.items q }

/-- `MapCanvas.set_creature(point, entity_type)`: a plain dictionary write
(occupying the cell, or extending the dictionary when the key is absent). -/
def MapCanvas.set_creature (c : MapCanvas) (p : Point) (tl : Tile) : MapCanvas :=
  { c with creature := fun q => if q = p then some (some tl) else c.creature q }

/-- The finalized output grid (flax.map `Map`, modelled from the spec: a grid
object exposing, per point, the architecture instance, the ordered item
instances and the optional creature instance). -/
structure MapG where
  rect : Rect
  arch : Point → Option Entity
  items : Point → List Entity
  creature : Point → Option Entity

/-- `MapCanvas.to_map()`: walks every in-bounds point once, instantiating
bare types through `maybe_create` and emitting architecture, items and
creature per cell.  A missing grid key would raise `KeyError`. -/
def MapCanvas.to_map (c : MapCanvas) : Except Err MapG :=
  if c.rect.iterPoints.all fun p =>
      (c.arch p).isSome && (c.items p).isSome && (c.creature p).isSome then
    .ok
      { rect := c.rect
        arch := fun p =>
          if c.rect.contains p then (c.arch p).map maybe_create else none
        items := fun p =>
          if c.rect.contains p then ((c.items p).getD []).map maybe_create else []
        creature := fun p =>
          if c.rect.contains p then ((c.creature p).getD none).map maybe_create
          else none }
  else .error .keyError

/-- Stable insertion of an element into a sorted list: the element goes
after every existing element that compares `le` to it, so earlier equal
elements keep their places. -/
def insSorted (le : α → α → Bool) (a : α) : List α → List α
  | [] => [a]
  | b :: l => if le b a then b :: insSorted le a l else a :: b :: l

/-- A stable sort (for a total preorder it yields the same list as Python's
stable `sorted`/`list.sort`). -/
def stableSort (le : α → α → Bool) (l : List α) : List α :=
  l.foldl (fun acc a => insSorted le a acc) []

/-! ## Fractor (src/flax/fractor.py lines 151-217) -/

/-- A canvas-mutating generation step.  On failure the error carries the
canvas exactly as it was when the Python exception was raised, so partial
mutation is observable. -/
abbrev COp := MapCanvas → Rand → ℕ → Except (Err × MapCanvas) MapCanvas × ℕ

/-- Sequencing of canvas steps; a raised exception propagates with the
canvas state at the raise site. -/
def COp.comp (m1 m2 : COp) : COp := fun c r n =>
  match m1 c r n with
  | (.ok c1, n1) => m2 c1 r n1
  | (.error e, n1) => (.error e, n1)

/-- `Fractor.place_stuff`: asserts at least one floor space, samples 10
distinct floor points, then places one creature and five items on the first
six of them. -/
def Fractor.place_stuff : COp := fun c r n =>
  if c.floor_spaces = [] then (.error (.noOpenSpacesPlayer, c), n)
  else
    match sample c.floor_spaces 10 r n with
    | (.error e, n1) => (.error (e, c), n1)
    | (.ok pts, n1) =>
      match pts with
      | p0 :: p1 :: p2 :: p3 :: p4 :: p5 :: _ =>
        let c1 := c.set_creature p0 (.typ .salamango)
        match c1.add_item p1 (.typ .armor) with
        | .error e => (.error (e, c1), n1)
        | .ok c2 =>
          match c2.add_item p2 (.typ .potion) with
          | .error e => (.error (e, c2), n1)
          | .ok c3 =>
            match c3.add_item p3 (.typ .potion) with
            | .error e => (.error (e, c3), n1)
            | .ok c4 =>
              match c4.add_item p4 (.typ .gem) with
              | .error e => (.error (e, c4), n1)
              | .ok c5 =>
                match c5.add_item p5 (.typ .crate) with
                | .error e => (.error (e, c5), n1)
                | .ok c6 => (.ok c6, n1)
      | _ => (.error (.indexError, c), n1)

/-- `Fractor.place_portal(portal_type, destination)`: configures a portal
instance bound to the destination, asserts at least one floor space, picks a
uniformly random floor point and overwrites its architecture. -/
def Fractor.place_portal (portal_type : EType) (destination : ℤ) : COp := fun c r n =>
  if c.floor_spaces = [] then (.error (.noOpenSpacesPortal, c), n)
  else
    match choice c.floor_spaces r n with
    | (.error e, n1) => (.error (e, c), n1)
    | (.ok point, n1) =>
      (.ok (c.set_architecture point
        (.ent { type := portal_type, destination := some destination })), n1)

/-- The optional portal placements of `generate_map`. -/
def Fractor.optionalPortal (portal_type : EType) : Option ℤ → COp
  | none => fun c _ n => (.ok c, n)
  | some destination => Fractor.place_portal portal_type destination

/-- `Fractor.generate_map(up, down)`: generate, place stuff, place the
requested portals, then finalize the canvas into a map. -/
def Fractor.generate_map (generate : COp) (up down : Option ℤ) (c : MapCanvas)
    (r : Rand) (n : ℕ) : Except (Err × MapCanvas) MapG × ℕ :=
  match (COp.comp generate
      (COp.comp Fractor.place_stuff
        (COp.comp (Fractor.optionalPortal .stairsUp up)
          (Fractor.optionalPortal .stairsDown down)))) c r n with
  | (.error e, n1) => (.error e, n1)
  | (.ok c4, n1) =>
    match c4.to_map with
    | .error e => (.error (e, c4), n1)
    | .ok m => (.ok m, n1)

/-! ## Room (src/flax/fractor.py lines 120-148) -/

structure Room where
  rect : Rect
deriving DecidableEq, Repr

/-- `Room.randomize(region, minimum_size)`: bounded-normal width and height,
then a uniformly random top-left offset keeping the room inside the
region. -/
def Room.randomize (region : Rect) (minimum_size : Size) : GenE Room :=
  GenE.bind (rnrG minimum_size.width region.width) fun w =>
  GenE.bind (rnrG minimum_size.height region.height) fun h =>
  GenE.bind (randint 0 (region.width - w)) fun dx =>
  GenE.bind (randint 0 (region.height - h)) fun dy =>
  GenE.pure ⟨Rect.ofOriginSize ⟨region.left + dx, region.top + dy⟩ ⟨w, h⟩⟩

/-- `Room.draw_to_canvas(canvas)`: asserts the room lies inside the canvas,
writes `Floor` on every room point, then `Wall` on the border. -/
def Room.draw_to_canvas (room : Room) : COp := fun c _ n =>
  if c.rect.containsRect room.rect then
    let c1 := room.rect.iterPoints.foldl
      (fun acc p => acc.set_architecture p (.typ .floor)) c
    let c2 := room.rect.iterBorder.foldl
      (fun acc pd => acc.set_architecture pd.1 (.typ .wall)) c1
    (.ok c2, n)
  else (.error (.assertionError, c), n)

/-- `Fractor.generate_room(region)`: a randomized room drawn onto the
canvas (the default 5 by 5 minimum size). -/
def Fractor.generate_room (region : Rect) : COp := fun c r n =>
  match Room.randomize region ⟨5, 5⟩ r n with
  | (.error e, n1) => (.error (e, c), n1)
  | (.ok room, n1) => room.draw_to_canvas c r n1

/-! ## BinaryPartitionFractor (src/flax/fractor.py lines 225-298) -/

namespace BinaryPartitionFractor

/-- `partition_horizontal`: asserts the inclusive split range is nonempty and
draws `random.randint(top, bottom + 1)` as the far edge of the top child. -/
def partition_horizontal (minimum_size : Size) (region : Rect) : GenE (List Rect) :=
  let min_height := minimum_size.height
  let top := region.top + min_height - 1
  let bottom := region.bottom - min_height
  if top ≤ bottom then
    GenE.bind (randint top (bottom + 1)) fun midpoint =>
    GenE.pure [region.replaceBottom midpoint, region.replaceTop (midpoint + 1)]
  else GenE.fail .assertionError

/-- `partition_vertical`: exactly the same along the other axis. -/
def partition_vertical (minimum_size : Size) (region : Rect) : GenE (List Rect) :=
  let min_width := minimum_size.width
  let left := region.left + min_width - 1
  let right := region.right - min_width
  if left ≤ right then
    GenE.bind (randint left (right + 1)) fun midpoint =>
    GenE.pure [region.replaceRight midpoint, region.replaceLeft (midpoint + 1)]
  else GenE.fail .assertionError

/-- `partition(region)`: splits along the axis with more relative slack, or
returns the region unsplit when both axes are below twice the minimum. -/
def partition (minimum_size : Size) (region : Rect) : GenE (List Rect) :=
  let rel_height : ℚ := (region.height : ℚ) / (minimum_size.height : ℚ)
  let rel_width : ℚ := (region.width : ℚ) / (minimum_size.width : ℚ)
  if rel_height < 2 ∧ rel_width < 2 then GenE.pure [region]
  else if rel_height > rel_width then partition_horizontal minimum_size region
  else partition_vertical minimum_size region

/-- The `while regions and len(regions) < wanted` loop of
`maximally_partition`: pop the largest region, split it, re-sort by
descending area (stably, as Python does).  The loop has no iteration bound in
the source, so the model carries fuel; exhausting it reports `outOfFuel`. -/
def maximallyPartitionLoop (minimum_size : Size) (wanted : ℕ) :
    ℕ → List Rect → GenE (List Rect)
  | 0, _ => GenE.fail .outOfFuel
  | fuel + 1, regions =>
    if regions ≠ [] ∧ regions.length < wanted then
      match regions with
      | [] => GenE.pure regions
      | region :: rest =>
        GenE.bind (partition minimum_size region) fun new_regions =>
        maximallyPartitionLoop minimum_size wanted fuel
          (stableSort (fun a b => decide (a.area ≥ b.area)) (rest ++ new_regions))
    else GenE.pure regions

/-- `maximally_partition`: starts from the whole generation region and wants
7 regions. -/
def maximally_partition (minimum_size : Size) (region : Rect) : GenE (List Rect) :=
  maximallyPartitionLoop minimum_size 7 64 [region]

/-- Drawing one room per final region, in order. -/
def generateRooms : List Rect → COp
  | [] => fun c _ n => (.ok c, n)
  | region :: rest => COp.comp (Fractor.generate_room region) (generateRooms rest)

/-- `BinaryPartitionFractor.generate`. -/
def generate (minimum_size : Size) (region : Rect) : COp := fun c r n =>
  match maximally_partition minimum_size region r n with
  | (.error e, n1) => (.error (e, c), n1)
  | (.ok regions, n1) => generateRooms regions c r n1

end BinaryPartitionFractor

/-! ## Cellular-automaton caves (src/flax/fractor.py lines 586-617) -/

/-- `random.random() < 0.40` as a function of one integer draw; both outcomes
are reachable. -/
def pyRandomLt40 (z : ℤ) : Bool := decide (z % 5 < 2)

/-- The `base_grid` of `generate_caves`: forced walls written first, forced
floors second (so a point in both sets is forced to floor). -/
def cavesBase (force_walls force_floors : List Point) : Point → Option Bool :=
  let base1 := force_walls.foldl
    (fun g p => fun q => if q = p then some true else g q) (fun _ => none)
  force_floors.foldl (fun g p => fun q => if q = p then some false else g q) base1

/-- The initial random grid over the region: one `random.random()` draw per
region point. -/
def cavesInit (r : Rand) (n : ℕ) (region : List Point) : (Point → Option Bool) × ℕ :=
  region.foldl
    (fun acc p =>
      (fun q => if q = p then some (pyRandomLt40 (r acc.2)) else acc.1 q, acc.2 + 1))
    (fun _ => none, n)

/-- The neighbor-count of the 4-5 rule: the cell itself plus its up-to-8
neighbors, missing grid keys counting as walls. -/
def cavesCount (grid : Point → Option Bool) (p : Point) : ℕ :=
  ((grid p).getD true).toNat +
    (p.neighbors8.map fun q => ((grid q).getD true).toNat).sum

/-- One generation of the automaton: `next_grid = base_grid.copy()`, then
every region point is assigned by the 4-5 rule from the previous grid. -/
def cavesStep (base : Point → Option Bool) (region : List Point)
    (grid : Point → Option Bool) : Point → Option Bool :=
  region.foldl
    (fun acc p => fun q => if q = p then some (decide (cavesCount grid p ≥ 5)) else acc q)
    base

/-- The grid after `k` generations (the source runs 5). -/
def cavesGrid (r : Rand) (n : ℕ) (region force_walls force_floors : List Point)
    (k : ℕ) : Point → Option Bool :=
  let base := cavesBase force_walls force_floors
  let grid0 := (cavesInit r n region).1
  let gridU := fun q => match base q with | some b => some b | none => grid0 q
  (cavesStep base region)^[k] gridU

/-- `generate_caves(map_canvas, region, wall_tile, force_walls, force_floors)`:
five automaton generations, then each region point is written to the canvas
as the wall tile or as `CaveFloor`. -/
def generate_caves (wall_tile : EType) (region force_walls force_floors : List Point) :
    COp := fun c r n =>
  let grid5 := cavesGrid r n region force_walls force_floors 5
  let c2 := region.foldl
    (fun acc p =>
      if (grid5 p).getD true then acc.set_architecture p (.typ wall_tile)
      else acc.set_architecture p (.typ .caveFloor))
    c
  (.ok c2, n + region.length)

/-! ## The Valley-Flood Connector (src/flax/fractor.py lines 495-575)

`PerlinFractor.flood_valleys(region, goals, depthmap)`.  The region is a
finite point set (a Blob in the source) embedded as a list, the depth map as
a rational-valued function (the source reads float noise values), puddle ids
are the enumeration indices of the goals. -/

/-- `puddle_map[i]`: the key is always present on reachable states (ids are
enumeration indices of in-region goals); a missing key defaults to the
identity so the function stays total. -/
def pmLookup (pm : List (ℕ × ℕ)) (i : ℕ) : ℕ :=
  match pm.find? fun e => e.1 == i with
  | some e => e.2
  | none => i

/-- Append a point to its puddle group, preserving first-encounter key order
(Python `defaultdict(list)`). -/
def groupAdd (g : List (ℕ × List Point)) (k : ℕ) (pt : Point) : List (ℕ × List Point) :=
  match g with
  | [] => [(k, [pt])]
  | (k0, l) :: rest =>
    if k0 = k then (k0, l ++ [pt]) :: rest else (k0, l) :: groupAdd rest k pt

/-- Flooded neighbors of a point grouped by the puddle they currently belong
to, after resolving through `puddle_map`. -/
def adjacentPuddles (flooded : Point → Option ℕ) (pm : List (ℕ × ℕ)) (p : Point) :
    List (ℕ × List Point) :=
  p.neighbors.foldl
    (fun g npt =>
      match flooded npt with
      | none => g
      | some i => groupAdd g (pmLookup pm i) npt)
    []

/-- Python `min(points, key=depthmap.__getitem__)`: the first point of
minimal depth. -/
def minByDepthAux (depth : Point → ℚ) (best : Point) : List Point → Point
  | [] => best
  | q :: rest =>
    if depth q < depth best then minByDepthAux depth q rest
    else minByDepthAux depth best rest

/-- The same with a (never reached) default for the empty list: every puddle
group is nonempty by construction. -/
def minByDepthD (depth : Point → ℚ) : List Point → Point
  | [] => ⟨0, 0⟩
  | q :: rest => minByDepthAux depth q rest

/-- Python `min(adjacent_puddles)`: the numerically least adjacent puddle
id. -/
def minKeyAux (best : ℕ) : List (ℕ × List Point) → ℕ
  | [] => best
  | (k, _) :: rest => minKeyAux (if k < best then k else best) rest

/-- The inner candidate selection of the backward walk: among the recorded
puddle-to-point entries of the current point, the lowest-depth point whose
recorded puddle resolves to the walked puddle. -/
def chooseNext (depth : Point → ℚ) (pm : List (ℕ × ℕ)) (target : ℕ)
    (cands : List (ℕ × Point)) : Option Point :=
  cands.foldl
    (fun next e =>
      if pmLookup pm e.1 == target &&
          (match next with
           | none => true
           | some np => decide (depth e.2 < depth np)) then
        some e.2
      else next)
    none

/-- The `while path_point:` backward walk from a junction to a seed, adding
every visited point to the path set.  The source loop is unbounded; the fuel
passed by the flood is larger than the number of flooded points, which the
correctness proof shows is enough. -/
def walkBack (depth : Point → ℚ) (pm : List (ℕ × ℕ)) (pfp : Point → List (ℕ × Point))
    (target : ℕ) : ℕ → Point → List Point → List Point
  | 0, _, paths => paths
  | fuel + 1, pt, paths =>
    let paths2 := setAdd pt paths
    match chooseNext depth pm target (pfp pt) with
    | none => paths2
    | some q => walkBack depth pm pfp target fuel q paths2

/-- The mutable state of the flood: `flooded`, `puddle_map` (an association
list with fixed key order, as a Python dict), `path_from_puddle`, the output
path set, and the flag recording that the single-puddle `break` fired. -/
structure FloodState where
  flooded : Point → Option ℕ
  pm : List (ℕ × ℕ)
  pfp : Point → List (ℕ × Point)
  paths : List Point
  done : Bool

/-- Processing of one point of the flood order: group flooded neighbors by
puddle, skip if none, record the lowest adjacent point per puddle, assign the
point to the least adjacent puddle; on a junction, walk every touched puddle
back to its seed, merge the touched puddles and stop once one puddle
remains. -/
def floodProcess (depth : Point → ℚ) (walkFuel : ℕ) (st : FloodState)
    (point : Point) : FloodState :=
  if st.done then st
  else
    let adj := adjacentPuddles st.flooded st.pm point
    match adj with
    | [] => st
    | (k0, _) :: restAdj =>
      let pfp2 := fun q =>
        if q = point then adj.map fun g => (g.1, minByDepthD depth g.2)
        else st.pfp q
      let this_puddle := minKeyAux k0 restAdj
      let flooded2 := fun q => if q = point then some this_puddle else st.flooded q
      if adj.length > 1 then
        let adjKeys := adj.map Prod.fst
        let paths2 := adj.foldl
          (fun ps g => walkBack depth st.pm pfp2 g.1 walkFuel point ps) st.paths
        let pm2 := st.pm.map fun e =>
          if adjKeys.contains e.1 || adjKeys.contains e.2 then (e.1, this_puddle)
          else e
        let done2 := (pm2.map Prod.snd).dedup.length == 1
        ⟨flooded2, pm2, pfp2, paths2, done2⟩
      else ⟨flooded2, st.pm, pfp2, st.paths, st.done⟩

/-- The initial state: each in-region goal is a singleton puddle named by its
enumeration index; goals outside the region are skipped. -/
def floodInit (region goals : List Point) : FloodState :=
  goals.enum.foldl
    (fun st e =>
      if e.2 ∈ region then
        { st with
          flooded := fun q => if q = e.2 then some e.1 else st.flooded q
          pm := st.pm ++ [(e.1, e.1)] }
      else st)
    ⟨fun _ => none, [], fun _ => [], [], false⟩

/-- The flood order: the region points not flooded initially, sorted by
ascending depth (ties in an arbitrary but deterministic order). -/
def floodOrder (region goals : List Point) (depth : Point → ℚ) : List Point :=
  stableSort (fun a b => decide (depth a ≤ depth b))
    ((region.dedup).filter fun p => ((floodInit region goals).flooded p).isNone)

/-- `PerlinFractor.flood_valleys(region, goals, depthmap)`: the connective
path set. -/
def flood_valleys (region goals : List Point) (depth : Point → ℚ) : List Point :=
  let st0 := floodInit region goals
  let walkFuel := region.length + goals.length + 1
  ((floodOrder region goals depth).foldl (floodProcess depth walkFuel) st0).paths

/-! ## Helper notions used by the claim statements -/

/-- 4-neighbor adjacency between points. -/
def Adjacent (p q : Point) : Prop := q ∈ p.neighbors

instance (p q : Point) : Decidable (Adjacent p q) := by
  unfold Adjacent; infer_instance

/-- `q` is reachable from `p` by 4-neighbor steps that stay inside the point
set `S`. -/
def ReachableThrough (S : List Point) (p q : Point) : Prop :=
  Relation.ReflTransGen (fun a b => b ∈ S ∧ Adjacent a b) p q

/-- Every non-seed region point has a strictly lower region neighbor; that
is, every local minimum of the depth map over the region is a seed ("exactly
one local minimum per disjoint basin", with the basin minima being the
seeds). -/
def SeedsCoverMinima (region goals : List Point) (depth : Point → ℚ) : Prop :=
  ∀ p ∈ region, p ∉ goals → ∃ q ∈ p.neighbors, q ∈ region ∧ depth q < depth p

instance (region goals : List Point) (depth : Point → ℚ) :
    Decidable (SeedsCoverMinima region goals depth) := by
  unfold SeedsCoverMinima; infer_instance

/-- The region is 4-connected. -/
def RegionConnected (region : List Point) : Prop :=
  ∀ p ∈ region, ∀ q ∈ region, ReachableThrough region p q

/-- The number of in-bounds cells of a finalized map whose architecture
instance has the given entity type. -/
def MapG.countArch (m : MapG) (t : EType) : ℕ :=
  (m.rect.iterPoints.filter fun p =>
    match m.arch p with
    | some e => e.type == t
    | none => false).length

/-- A `clear` or `set_architecture` call, for reasoning about arbitrary call
sequences on a canvas. -/
inductive CanvasOp
  | clear (t : EType)
  | set_architecture (p : Point) (tl : Tile)

/-- Application of one call. -/
def CanvasOp.apply (c : MapCanvas) : CanvasOp → MapCanvas
  | .clear t => c.clear t
  | .set_architecture p tl => c.set_architecture p tl

/-- The call touches only in-bounds coordinates (out-of-bounds access is a
programming error by section 4.1 of the spec). -/
def CanvasOp.inBounds (rect : Rect) : CanvasOp → Prop
  | .clear _ => True
  | .set_architecture p _ => rect.contains p

instance (rect : Rect) (op : CanvasOp) : Decidable (op.inBounds rect) := by
  cases op <;> · unfold CanvasOp.inBounds; infer_instance

/-- The walkable-set invariant: `floor_spaces` is duplicate-free and holds
exactly the in-bounds points whose current architecture tile has Empty
physics. -/
def FloorInv (c : MapCanvas) : Prop :=
  c.floor_spaces.Nodup ∧
    ∀ p, p ∈ c.floor_spaces ↔
      (c.rect.contains p ∧ ∃ tl, c.arch p = some tl ∧ tl.isEmptyPhysics)

/-- No stairs tile anywhere in the architecture grid (holds before portal
placement: the generation strategies write only walls and floors). -/
def NoStairs (c : MapCanvas) : Prop :=
  ∀ p tl, c.arch p = some tl → tl.etype ≠ .stairsUp ∧ tl.etype ≠ .stairsDown

/-- Every walkable point is in bounds. -/
def FloorInRect (c : MapCanvas) : Prop :=
  ∀ p ∈ c.floor_spaces, c.rect.contains p

/-- The end-to-end Binary-Partition scenario of claim C3: a 20 by 20 map,
minimum room size 5 by 5, both stairs requested. -/
def runScenarioA (r : Rand) : Except (Err × MapCanvas) MapG × ℕ :=
  let size : Size := ⟨20, 20⟩
  let c0 := MapCanvas.init size
  Fractor.generate_map (BinaryPartitionFractor.generate ⟨5, 5⟩ c0.rect)
    (some 0) (some 1) c0 r 0

/-! ## Notions for the valley-flood correctness proof -/

/-- The in-region seed points (the seeding loop skips seeds outside the
region). -/
def goalsIn (region goals : List Point) : List Point :=
  goals.filter fun p => decide (p ∈ region)

/-- The puddle ids created by the seeding loop: the enumeration indices of
the in-region seeds. -/
def initIds (region goals : List Point) : List ℕ :=
  (goals.enum.filter fun e => decide (e.2 ∈ region)).map Prod.fst

/-- Position of the first occurrence of a point in a list (the length if it
is absent). -/
def idxIn : List Point → Point → ℕ
  | [], _ => 0
  | a :: l, p => if a = p then 0 else idxIn l p + 1

/-- Flood rank of a point: seeds get rank 0, the k-th point of the flood
order rank k+1.  Every `path_from_puddle` entry points to a strictly lower
rank, which bounds the backward walk. -/
def rankIn (order : List Point) (p : Point) : ℕ :=
  if p ∈ order then idxIn order p + 1 else 0

/-- The inductive invariant of the flood loop, after the points of `past`
(a prefix of the flood order) have been processed. -/
structure FloodInv (region goals : List Point) (depth : Point → ℚ)
    (past : List Point) (st : FloodState) : Prop where
  pmKeys : st.pm.map Prod.fst = initIds region goals
  pmVals : ∀ e ∈ st.pm, e.2 ∈ initIds region goals ∧ pmLookup st.pm e.2 = e.2
  fldReg : ∀ p, (st.flooded p).isSome → p ∈ region
  fldGoal : ∀ g ∈ goalsIn region goals,
    st.flooded g = (floodInit region goals).flooded g
  fldIds : ∀ p i, st.flooded p = some i → i ∈ initIds region goals
  fldPast : ∀ p, (st.flooded p).isSome → p ∈ goalsIn region goals ∨ p ∈ past
  pfpGood : ∀ p e, e ∈ st.pfp p →
    e.2 ∈ p.neighbors ∧ e.1 ∈ initIds region goals ∧
    (∃ iq, st.flooded e.2 = some iq ∧
      pmLookup st.pm iq = pmLookup st.pm e.1) ∧
    rankIn (floodOrder region goals depth) e.2 <
      rankIn (floodOrder region goals depth) p
  pfpOwn : ∀ p i, st.flooded p = some i → p ∉ goalsIn region goals →
    ∃ e ∈ st.pfp p, pmLookup st.pm e.1 = pmLookup st.pm i
  pfpSeed : ∀ g ∈ goalsIn region goals, st.pfp g = []
  idRep : ∀ i ∈ initIds region goals,
    ∃ g ∈ goalsIn region goals, st.flooded g = some i
  conn : ∀ g1 ∈ goalsIn region goals, ∀ g2 ∈ goalsIn region goals,
    ∀ i1 i2, st.flooded g1 = some i1 → st.flooded g2 = some i2 →
    pmLookup st.pm i1 = pmLookup st.pm i2 →
    ReachableThrough (st.paths ++ goals) g1 g2
  adjCls : ∀ p q ip iq, st.flooded p = some ip → st.flooded q = some iq →
    Adjacent p q → (p ∈ goalsIn region goals ∧ q ∈ goalsIn region goals) ∨
    pmLookup st.pm ip = pmLookup st.pm iq
  pathsReg : ∀ x ∈ st.paths, x ∈ region
  doneCls : st.done = true → ∀ i ∈ initIds region goals,
    ∀ j ∈ initIds region goals, pmLookup st.pm i = pmLookup st.pm j

/-- The accumulator step of the backward-walk candidate selection (the body
of the fold in `chooseNext`, named so the fold can be reasoned about). -/
def cnStep (depth : Point → ℚ) (pm : List (ℕ × ℕ)) (target : ℕ)
    (next : Option Point) (e : ℕ × Point) : Option Point :=
  if pmLookup pm e.1 == target &&
      (match next with
       | none => true
       | some np => decide (depth e.2 < depth np)) then some e.2
  else next

/-- The seeding step of `flood_valleys` (the body of the fold in
`floodInit`, named so the fold can be reasoned about). -/
def floodSeed (region : List Point) (st : FloodState) (e : ℕ × Point) : FloodState :=
  if e.2 ∈ region then
    { st with
      flooded := fun q => if q = e.2 then some e.1 else st.flooded q
      pm := st.pm ++ [(e.1, e.1)] }
  else st

/-- The non-junction update of `floodProcess` (the `else` branch: the point
joins its unique adjacent puddle). -/
def floodSingle (depth : Point → ℚ) (st : FloodState) (point : Point)
    (k0 : ℕ) (g0 : List Point) (restAdj : List (ℕ × List Point)) : FloodState :=
  let adj := (k0, g0) :: restAdj
  let pfp2 := fun q =>
    if q = point then adj.map fun g => (g.1, minByDepthD depth g.2)
    else st.pfp q
  let this_puddle := minKeyAux k0 restAdj
  ⟨fun q => if q = point then some this_puddle else st.flooded q,
   st.pm, pfp2, st.paths, st.done⟩

/-- The junction update of `floodProcess` (two or more adjacent puddles:
walk each puddle back to its seed and merge), with the adjacent-puddle
grouping and the merged puddle id as parameters. -/
def floodJunction (depth : Point → ℚ) (wf : ℕ) (st : FloodState) (point : Point)
    (adj : List (ℕ × List Point)) (this_puddle : ℕ) : FloodState :=
  let pfp2 := fun q =>
    if q = point then adj.map fun g => (g.1, minByDepthD depth g.2)
    else st.pfp q
  let flooded2 := fun q => if q = point then some this_puddle else st.flooded q
  let adjKeys := adj.map Prod.fst
  let paths2 := adj.foldl
    (fun ps g => walkBack depth st.pm pfp2 g.1 wf point ps) st.paths
  let pm2 := st.pm.map fun e =>
    if adjKeys.contains e.1 || adjKeys.contains e.2 then (e.1, this_puddle)
    else e
  let done2 := (pm2.map Prod.snd).dedup.length == 1
  ⟨flooded2, pm2, pfp2, paths2, done2⟩

/-! # Theorems -/

/-! ## Shared lemmas about the embedding -/

theorem mem_setAdd {p q : Point} {l : List Point} :
    q ∈ setAdd p l ↔ q = p ∨ q ∈ l := by
  unfold setAdd
  by_cases h : p ∈ l
  · rw [if_pos h]
    constructor
    · exact Or.inr
    · rintro (rfl | hq)
      · exact h
      · exact hq
  · rw [if_neg h, List.mem_cons]

theorem nodup_setAdd {p : Point} {l : List Point} (h : l.Nodup) :
    (setAdd p l).Nodup := by
  unfold setAdd
  by_cases hm : p ∈ l
  · rwa [if_pos hm]
  · rw [if_neg hm]
    exact List.nodup_cons.mpr ⟨hm, h⟩

theorem mem_iterPoints {r : Rect} {p : Point} :
    p ∈ r.iterPoints ↔ r.contains p := by
  obtain ⟨px, py⟩ := p
  unfold Rect.iterPoints Rect.contains Rect.width Rect.height
  simp only [List.mem_flatMap, List.mem_map, List.mem_range]
  constructor
  · rintro ⟨dy, hdy, dx, hdx, hp⟩
    injection hp with hx hy
    omega
  · rintro ⟨h1, h2, h3, h4⟩
    refine ⟨(py - r.top).toNat, by omega, (px - r.left).toNat, by omega, ?_⟩
    congr 1 <;> omega

theorem nodup_iterPoints (r : Rect) : r.iterPoints.Nodup := by
  unfold Rect.iterPoints
  refine List.nodup_flatMap.mpr ⟨?_, ?_⟩
  · intro dy _
    refine List.Nodup.map ?_ (List.nodup_range _)
    intro a b hab
    injection hab with h1 h2
    omega
  · refine (List.nodup_range _).imp ?_
    intro a b hab
    rw [Function.onFun, List.disjoint_left]
    rintro p hpa hpb
    simp only [List.mem_map, List.mem_range] at hpa hpb
    obtain ⟨dx1, _, rfl⟩ := hpa
    obtain ⟨dx2, _, h2⟩ := hpb
    injection h2 with _ hy
    omega

/-! ## C9: bounds of random_normal_range -/

/-- C9: for every pair of integers lb ≤ ub and every outcome of the
underlying gaussian draw, `random_normal_range(lb, ub)` returns a value in
the closed interval [lb, ub]. -/
theorem C9_random_normal_range_bounds (g : ℚ) (lb ub : ℤ) (h : lb ≤ ub) :
    lb ≤ random_normal_range g lb ub ∧ random_normal_range g lb ub ≤ ub := by
  unfold random_normal_range
  split
  · omega
  · split <;> omega

/-- C9 witness: at lb = 0, ub = 3 and gauss outcome 10 the hypothesis holds
and the result lies in the interval. -/
theorem C9_random_normal_range_bounds_witness :
    (0 : ℤ) ≤ 3 ∧
      (0 ≤ random_normal_range 10 0 3 ∧ random_normal_range 10 0 3 ≤ 3) :=
  ⟨by decide, C9_random_normal_range_bounds 10 0 3 (by decide)⟩

/-! ## C10: clear touches only architecture and walkable set -/

/-- C10: for every canvas and tile type, `clear` modifies only the
architecture grid and the walkable set: every cell's item list and every
cell's creature are exactly what they were before the call. -/
theorem C10_clear_preserves_items_creatures (c : MapCanvas) (t : EType) (p : Point) :
    (c.clear t).items p = c.items p ∧ (c.clear t).creature p = c.creature p :=
  ⟨rfl, rfl⟩

/-! ## C4: out-of-bounds canvas access

The claim states that `set_architecture`, `add_item` and `set_creature` all
fail fast on out-of-bounds points and never extend the grids.  In the source
the three grids are plain dictionaries: `add_item` reads the missing key and
raises `KeyError`, but `set_architecture` and `set_creature` are dictionary
assignments, which silently succeed and extend the grid with the new key. -/

/-- C4 counterexample: on a 2 by 2 canvas the out-of-bounds point (5, 5) is
absent from the grids, yet `set_architecture` succeeds and extends the
architecture grid (and updates the walkable set), and `set_creature` succeeds
and extends the creature grid; neither fails. -/
theorem C4_counterexample :
    ¬ (MapCanvas.init ⟨2, 2⟩).rect.contains ⟨5, 5⟩ ∧
    (MapCanvas.init ⟨2, 2⟩).arch ⟨5, 5⟩ = none ∧
    (MapCanvas.init ⟨2, 2⟩).creature ⟨5, 5⟩ = none ∧
    ((MapCanvas.init ⟨2, 2⟩).set_architecture ⟨5, 5⟩ (.typ .floor)).arch ⟨5, 5⟩ =
      some (.typ .floor) ∧
    ((MapCanvas.init ⟨2, 2⟩).set_architecture ⟨5, 5⟩ (.typ .floor)).floor_spaces =
      [⟨5, 5⟩] ∧
    ((MapCanvas.init ⟨2, 2⟩).set_creature ⟨5, 5⟩ (.typ .salamango)).creature ⟨5, 5⟩ =
      some (some (.typ .salamango)) := by
  refine ⟨by decide, rfl, rfl, rfl, rfl, rfl⟩

/-- C4 as amended: on an out-of-bounds point (one outside the item grid, as
for every canvas the engine builds) only `add_item` fails fast with
`KeyError`; `set_architecture` and `set_creature` silently succeed and extend
their grids with the new key. -/
theorem C4_amended_out_of_bounds (c : MapCanvas) (p : Point) (tl : Tile)
    (_hp : ¬ c.rect.contains p) (hitems : c.items p = none) :
    c.add_item p tl = .error .keyError ∧
    (c.set_architecture p tl).arch p = some tl ∧
    (c.set_creature p tl).creature p = some (some tl) := by
  refine ⟨?_, by simp [MapCanvas.set_architecture], by simp [MapCanvas.set_creature]⟩
  unfold MapCanvas.add_item
  rw [hitems]

/-- C4 witness: the amended statement at the 2 by 2 canvas and point (5, 5). -/
theorem C4_amended_out_of_bounds_witness :
    (¬ (MapCanvas.init ⟨2, 2⟩).rect.contains ⟨5, 5⟩ ∧
        (MapCanvas.init ⟨2, 2⟩).items ⟨5, 5⟩ = none) ∧
      ((MapCanvas.init ⟨2, 2⟩).add_item ⟨5, 5⟩ (.typ .gem) = .error .keyError ∧
        ((MapCanvas.init ⟨2, 2⟩).set_architecture ⟨5, 5⟩ (.typ .gem)).arch ⟨5, 5⟩ =
          some (.typ .gem) ∧
        ((MapCanvas.init ⟨2, 2⟩).set_creature ⟨5, 5⟩ (.typ .gem)).creature ⟨5, 5⟩ =
          some (some (.typ .gem))) :=
  ⟨⟨by decide, by rfl⟩,
    C4_amended_out_of_bounds _ _ _ (by decide) (by rfl)⟩

/-! ## C2: the walkable-set invariant -/

theorem floorInv_init (sz : Size) : FloorInv (MapCanvas.init sz) := by
  constructor
  · exact List.nodup_nil
  · intro p
    simp only [MapCanvas.init, List.not_mem_nil, false_iff, not_and]
    intro hc
    rw [if_pos hc]
    rintro ⟨tl, htl, hemp⟩
    cases htl
    simp [Tile.isEmptyPhysics, Tile.etype, EType.isEmptyPhysics] at hemp

theorem floorInv_clear {c : MapCanvas} (t : EType) (h : FloorInv c) :
    FloorInv (c.clear t) := by
  obtain ⟨hnd, hiff⟩ := h
  constructor
  · unfold MapCanvas.clear
    dsimp only
    split
    · exact nodup_iterPoints _
    · exact List.nodup_nil
  · intro p
    unfold MapCanvas.clear
    dsimp only
    by_cases hemp : t.isEmptyPhysics
    · rw [if_pos hemp, mem_iterPoints]
      constructor
      · intro hc
        refine ⟨hc, .typ t, if_pos hc, by simpa [Tile.isEmptyPhysics, Tile.etype]⟩
      · rintro ⟨hc, _⟩
        exact hc
    · rw [if_neg hemp]
      simp only [List.not_mem_nil, false_iff, not_and]
      intro hc
      rw [if_pos hc]
      rintro ⟨tl, htl, htl2⟩
      cases htl
      simp only [Tile.isEmptyPhysics, Tile.etype] at htl2
      exact hemp htl2

theorem floorInv_set_architecture {c : MapCanvas} {p : Point} (tl : Tile)
    (hin : c.rect.contains p) (h : FloorInv c) :
    FloorInv (c.set_architecture p tl) := by
  obtain ⟨hnd, hiff⟩ := h
  constructor
  · unfold MapCanvas.set_architecture
    dsimp only
    split
    · exact nodup_setAdd hnd
    · exact hnd.erase p
  · intro q
    unfold MapCanvas.set_architecture
    dsimp only
    by_cases hemp : tl.isEmptyPhysics
    · rw [if_pos hemp, mem_setAdd]
      by_cases hqp : q = p
      · subst hqp
        rw [if_pos rfl]
        constructor
        · intro _
          exact ⟨hin, tl, rfl, hemp⟩
        · intro _
          exact Or.inl rfl
      · rw [if_neg hqp]
        constructor
        · rintro (rfl | hq)
          · exact absurd rfl hqp
          · exact (hiff q).mp hq
        · intro hr
          exact Or.inr ((hiff q).mpr hr)
    · rw [if_neg hemp, hnd.mem_erase_iff]
      by_cases hqp : q = p
      · subst hqp
        simp only [if_pos rfl, ne_eq, not_true_eq_false, false_and, false_iff, not_and]
        rintro _ ⟨tl2, htl2, htl3⟩
        cases htl2
        exact hemp htl3
      · rw [if_neg hqp]
        constructor
        · rintro ⟨_, hq⟩
          exact (hiff q).mp hq
        · intro hr
          exact ⟨hqp, (hiff q).mpr hr⟩

theorem canvasOp_rect (c : MapCanvas) (op : CanvasOp) :
    (op.apply c).rect = c.rect := by
  cases op <;> rfl

theorem floorInv_apply {c : MapCanvas} {op : CanvasOp}
    (hin : op.inBounds c.rect) (h : FloorInv c) : FloorInv (op.apply c) := by
  cases op with
  | clear t => exact floorInv_clear t h
  | set_architecture p tl => exact floorInv_set_architecture tl hin h

theorem foldl_canvasOps_rect (ops : List CanvasOp) (c : MapCanvas) :
    (ops.foldl CanvasOp.apply c).rect = c.rect := by
  induction ops generalizing c with
  | nil => rfl
  | cons op rest ih => rw [List.foldl_cons, ih, canvasOp_rect]

/-- C2: for every call sequence of `clear` and `set_architecture` on a fresh
canvas whose coordinates are in bounds, after every call the walkable set
equals exactly the in-bounds points whose current architecture tile has
Empty physics (and in particular this holds after the whole sequence, which
quantifies over all its prefixes). -/
theorem C2_walkable_set_invariant (sz : Size) (ops : List CanvasOp)
    (hops : ∀ op ∈ ops, op.inBounds (MapCanvas.init sz).rect) :
    FloorInv (ops.foldl CanvasOp.apply (MapCanvas.init sz)) := by
  suffices h : ∀ (ops : List CanvasOp) (c : MapCanvas),
      (∀ op ∈ ops, op.inBounds c.rect) → FloorInv c →
      FloorInv (ops.foldl CanvasOp.apply c) by
    exact h ops _ hops (floorInv_init sz)
  intro ops
  induction ops with
  | nil => exact fun c _ hc => hc
  | cons op rest ih =>
    intro c hin hc
    rw [List.foldl_cons]
    refine ih _ ?_ (floorInv_apply (hin op (List.mem_cons_self op rest)) hc)
    intro op2 hop2
    rw [canvasOp_rect]
    exact hin op2 (List.mem_cons_of_mem _ hop2)

/-- C2 witness: a concrete in-bounds sequence on a 3 by 3 canvas satisfies
the hypothesis and hence the invariant. -/
theorem C2_walkable_set_invariant_witness :
    (∀ op ∈ [CanvasOp.clear .floor,
        CanvasOp.set_architecture ⟨1, 1⟩ (.typ .wall)],
      op.inBounds (MapCanvas.init ⟨3, 3⟩).rect) ∧
    FloorInv
      ([CanvasOp.clear .floor,
        CanvasOp.set_architecture ⟨1, 1⟩ (.typ .wall)].foldl CanvasOp.apply
        (MapCanvas.init ⟨3, 3⟩)) :=
  ⟨by decide, C2_walkable_set_invariant ⟨3, 3⟩ _ (by decide)⟩

/-! ## C5: forced walls and floors of generate_caves -/

theorem floodWrite_not_mem (F : Point → Option Bool) :
    ∀ (l : List Point) (g : Point → Option Bool) {p : Point}, p ∉ l →
      (l.foldl (fun acc q0 => fun q => if q = q0 then F q0 else acc q) g) p = g p := by
  intro l
  induction l with
  | nil => intro g p _; rfl
  | cons a l ih =>
    intro g p hp
    have hne : p ≠ a := fun h => hp (by rw [h]; exact List.mem_cons_self a l)
    rw [List.foldl_cons, ih _ fun h => hp (List.mem_cons_of_mem _ h)]
    exact if_neg hne

theorem floodWrite_mem (F : Point → Option Bool) :
    ∀ (l : List Point) (g : Point → Option Bool) {p : Point}, p ∈ l →
      (l.foldl (fun acc q0 => fun q => if q = q0 then F q0 else acc q) g) p = F p := by
  intro l
  induction l with
  | nil => intro g p hp; cases hp
  | cons a l ih =>
    intro g p hp
    rw [List.foldl_cons]
    by_cases hl : p ∈ l
    · exact ih _ hl
    · have hpa : p = a := by
        rcases List.mem_cons.mp hp with h | h
        · exact h
        · exact absurd h hl
      subst hpa
      rw [floodWrite_not_mem F l _ hl]
      exact if_pos rfl

theorem cavesBase_floor {fw ff : List Point} {p : Point} (hff : p ∈ ff) :
    cavesBase fw ff p = some false :=
  floodWrite_mem (fun _ => some false) ff _ hff

theorem cavesBase_wall {fw ff : List Point} {p : Point} (hfw : p ∈ fw) (hff : p ∉ ff) :
    cavesBase fw ff p = some true := by
  unfold cavesBase
  rw [floodWrite_not_mem (fun _ => some false) ff _ hff]
  exact floodWrite_mem (fun _ => some true) fw _ hfw

theorem cavesInit_not_mem (r : Rand) (region : List Point) {p : Point}
    (hp : p ∉ region) : ∀ n, (cavesInit r n region).1 p = none := by
  suffices h : ∀ (l : List Point) (acc : (Point → Option Bool) × ℕ), p ∉ l →
      (l.foldl
        (fun (acc : (Point → Option Bool) × ℕ) (p0 : Point) =>
          (fun q => if q = p0 then some (pyRandomLt40 (r acc.2)) else acc.1 q,
            acc.2 + 1)) acc).1 p = acc.1 p by
    intro n
    exact h region _ hp
  intro l
  induction l with
  | nil => intro acc _; rfl
  | cons a l ih =>
    intro acc hp2
    have hne : p ≠ a := fun h => hp2 (by rw [h]; exact List.mem_cons_self a l)
    rw [List.foldl_cons, ih _ fun h => hp2 (List.mem_cons_of_mem _ h)]
    exact if_neg hne

theorem cavesGrid_outside (r : Rand) (n : ℕ) (region fw ff : List Point)
    {p : Point} (hp : p ∉ region) (k : ℕ) :
    cavesGrid r n region fw ff k p = cavesBase fw ff p := by
  induction k with
  | zero =>
    unfold cavesGrid
    rw [Function.iterate_zero_apply]
    match hb : cavesBase fw ff p with
    | some b => simp only [hb]
    | none => simp only [hb]; exact cavesInit_not_mem r region hp n
  | succ k ih =>
    unfold cavesGrid at ih ⊢
    rw [Function.iterate_succ_apply']
    unfold cavesStep
    exact floodWrite_not_mem _ region _ hp

theorem foldl_arch_preserve {p : Point} (f : MapCanvas → Point → MapCanvas)
    (hf : ∀ c q, q ≠ p → (f c q).arch p = c.arch p) :
    ∀ (l : List Point) (c : MapCanvas), p ∉ l → ((l.foldl f c).arch p = c.arch p) := by
  intro l
  induction l with
  | nil => intro c _; rfl
  | cons a l ih =>
    intro c hp
    have hne : a ≠ p := fun h => hp (by rw [← h]; exact List.mem_cons_self a l)
    rw [List.foldl_cons, ih _ fun h => hp (List.mem_cons_of_mem _ h)]
    exact hf c a hne

theorem set_architecture_arch_other {c : MapCanvas} {p q : Point} (tl : Tile)
    (h : q ≠ p) : (c.set_architecture q tl).arch p = c.arch p := by
  unfold MapCanvas.set_architecture
  exact if_neg fun h2 => h h2.symm

/-- C5 counterexample: two concrete runs refute the claim as stated.  First,
on a 3 by 3 region with forced floor at the centre and all random draws
producing walls, the centre is a wall already after generation step 1 (the
generation loop overwrites every in-region point, forced or not), and the
tile finally written to the canvas at the centre is the wall tile, not the
floor tile.  Second, a point in both forced sets (here outside the region)
holds floor, never the forced wall value, because forced floors are baked in
after forced walls. -/
theorem C5_counterexample :
    ((⟨1, 1⟩ : Point) ∈ [(⟨1, 1⟩ : Point)] ∧
      cavesGrid (fun _ => 0) 0 (Rect.ofOriginSize ⟨0, 0⟩ ⟨3, 3⟩).iterPoints []
        [⟨1, 1⟩] 1 ⟨1, 1⟩ = some true ∧
      (match (generate_caves .caveWall (Rect.ofOriginSize ⟨0, 0⟩ ⟨3, 3⟩).iterPoints
          [] [⟨1, 1⟩] (MapCanvas.init ⟨3, 3⟩) (fun _ => 0) 0).1 with
        | .ok c2 => c2.arch ⟨1, 1⟩ == some (.typ .caveWall)
        | .error _ => false) = true) ∧
    ((⟨0, 0⟩ : Point) ∈ [(⟨0, 0⟩ : Point)] ∧
      cavesGrid (fun _ => 0) 0 [] [⟨0, 0⟩] [⟨0, 0⟩] 1 ⟨0, 0⟩ = some false) :=
  ⟨⟨by decide, by decide, by decide⟩, ⟨by decide, by decide⟩⟩

/-- C5 as amended: forced points outside the region keep their forced value
(floors winning over walls where the two sets overlap) in the grid after
every generation step, but only region points are ever written to the
canvas, so forced points outside the region leave the canvas unchanged;
in-region forced points are only baked into the initial grid and are
re-assigned by the automaton rule at each step. -/
theorem C5_amended_forced_outside_region (region fw ff : List Point) (p : Point)
    (hp : p ∉ region) :
    (∀ (k : ℕ) (r : Rand) (n : ℕ), p ∈ ff →
      cavesGrid r n region fw ff k p = some false) ∧
    (∀ (k : ℕ) (r : Rand) (n : ℕ), p ∈ fw → p ∉ ff →
      cavesGrid r n region fw ff k p = some true) ∧
    (∀ (wt : EType) (c : MapCanvas) (r : Rand) (n : ℕ),
      ∃ c2, generate_caves wt region fw ff c r n = (.ok c2, n + region.length) ∧
        c2.arch p = c.arch p) := by
  refine ⟨?_, ?_, ?_⟩
  · intro k r n hff
    rw [cavesGrid_outside r n region fw ff hp k]
    exact cavesBase_floor hff
  · intro k r n hfw hff
    rw [cavesGrid_outside r n region fw ff hp k]
    exact cavesBase_wall hfw hff
  · intro wt c r n
    refine ⟨_, rfl, ?_⟩
    refine foldl_arch_preserve _ ?_ region c hp
    intro c2 q hq
    dsimp only
    split <;> exact set_architecture_arch_other _ hq

/-- C5 witness: the amended statement at a singleton forced floor outside an
empty region. -/
theorem C5_amended_forced_outside_region_witness :
    ((⟨0, 0⟩ : Point) ∉ ([] : List Point)) ∧
      ((⟨0, 0⟩ : Point) ∈ [(⟨0, 0⟩ : Point)] ∧
        cavesGrid (fun _ => 0) 0 [] [] [⟨0, 0⟩] 5 ⟨0, 0⟩ = some false) :=
  ⟨by decide,
    ⟨by decide,
      (C5_amended_forced_outside_region [] [] [⟨0, 0⟩] ⟨0, 0⟩ (by decide)).1 5
        (fun _ => 0) 0 (by decide)⟩⟩

/-! ## C7: place_portal with no walkable points -/

/-- C7: on a canvas whose walkable set is empty, the base `place_portal`
fails with the no-open-spaces condition, and the canvas carried by the error
is exactly the canvas before the call (the assertion is raised before any
mutation), so all grids and the walkable set are unmodified. -/
theorem C7_place_portal_no_open_spaces (pt : EType) (d : ℤ) (c : MapCanvas)
    (r : Rand) (n : ℕ) (h : c.floor_spaces = []) :
    Fractor.place_portal pt d c r n = (.error (.noOpenSpacesPortal, c), n) := by
  unfold Fractor.place_portal
  rw [if_pos h]

/-- C7 witness: the freshly initialised 2 by 2 canvas has no walkable points
and the call fails with the canvas unchanged. -/
theorem C7_place_portal_no_open_spaces_witness :
    (MapCanvas.init ⟨2, 2⟩).floor_spaces = [] ∧
      Fractor.place_portal .stairsUp 0 (MapCanvas.init ⟨2, 2⟩) (fun _ => 0) 0 =
        (.error (.noOpenSpacesPortal, MapCanvas.init ⟨2, 2⟩), 0) :=
  ⟨rfl, C7_place_portal_no_open_spaces .stairsUp 0 _ (fun _ => 0) 0 rfl⟩

/-! ## C8: place_stuff sampling and failures -/

theorem sampleList_subset [DecidableEq α] (r : Rand) :
    ∀ (k n : ℕ) (pop : List α) (p : α), p ∈ sampleList r n pop k → p ∈ pop := by
  intro k
  induction k with
  | zero => intro n pop p hp; cases hp
  | succ k ih =>
    intro n pop p hp
    rw [sampleList] at hp
    by_cases h0 : pop.length = 0
    · rw [dif_pos h0] at hp
      cases hp
    · rw [dif_neg h0] at hp
      rcases List.mem_cons.mp hp with h | h
      · rw [h]
        exact pop.get_mem _ _
      · exact List.mem_of_mem_erase (ih _ _ _ h)

theorem sampleList_nodup [DecidableEq α] (r : Rand) :
    ∀ (k n : ℕ) (pop : List α), pop.Nodup → (sampleList r n pop k).Nodup := by
  intro k
  induction k with
  | zero => intro n pop _; exact List.nodup_nil
  | succ k ih =>
    intro n pop hnd
    rw [sampleList]
    by_cases h0 : pop.length = 0
    · rw [dif_pos h0]
      exact List.nodup_nil
    · rw [dif_neg h0]
      refine List.nodup_cons.mpr ⟨?_, ih _ _ (hnd.erase _)⟩
      intro hmem
      have h2 := sampleList_subset r k (n + 1) _ _ hmem
      rw [hnd.mem_erase_iff] at h2
      exact h2.1 rfl

theorem sampleList_length [DecidableEq α] (r : Rand) :
    ∀ (k n : ℕ) (pop : List α), k ≤ pop.length →
      (sampleList r n pop k).length = k := by
  intro k
  induction k with
  | zero => intro n pop _; rfl
  | succ k ih =>
    intro n pop hk
    rw [sampleList]
    have h0 : pop.length ≠ 0 := by omega
    rw [dif_neg h0, List.length_cons]
    have ha : pop.get ⟨(r n).toNat % pop.length, Nat.mod_lt _ (Nat.pos_of_ne_zero h0)⟩ ∈ pop :=
      pop.get_mem _ _
    have herase := List.length_erase_of_mem ha
    rw [ih (n + 1) _ (by omega)]

theorem exists_six_cons {α : Type} {l : List α} (h : 6 ≤ l.length) :
    ∃ a b c d e f t, l = a :: b :: c :: d :: e :: f :: t := by
  match l with
  | a :: b :: c :: d :: e :: f :: t => exact ⟨a, b, c, d, e, f, t, rfl⟩
  | [] | [_] | [_, _] | [_, _, _] | [_, _, _, _] | [_, _, _, _, _] => simp at h

theorem add_item_ok {c : MapCanvas} {p : Point} {l : List Tile} (tl : Tile)
    (h : c.items p = some l) :
    c.add_item p tl =
      .ok { c with items := fun q => if q = p then some (l ++ [tl]) else c.items q } := by
  unfold MapCanvas.add_item
  rw [h]

/-- C8: with an empty walkable set `place_stuff` fails with the
no-open-spaces precondition; with at least one but fewer than ten walkable
points it fails with the distinct sample-size resource-exhaustion condition,
the error carrying the untouched canvas (nothing is placed before the
failure); with ten or more walkable points it draws ten distinct walkable
points and places one creature on the first and five items on the next
five. -/
theorem C8_place_stuff_behaviour (c : MapCanvas) (r : Rand) (n : ℕ) :
    (c.floor_spaces = [] →
      Fractor.place_stuff c r n = (.error (.noOpenSpacesPlayer, c), n)) ∧
    (c.floor_spaces ≠ [] → c.floor_spaces.length < 10 →
      Fractor.place_stuff c r n = (.error (.sampleTooLarge, c), n) ∧
        Err.sampleTooLarge ≠ Err.noOpenSpacesPlayer) ∧
    (10 ≤ c.floor_spaces.length → c.floor_spaces.Nodup →
      (∀ p ∈ c.floor_spaces, (c.items p).isSome) →
      ∃ (pts : List Point) (c6 : MapCanvas),
        Fractor.place_stuff c r n = (.ok c6, n + 10) ∧
        pts.length = 10 ∧ pts.Nodup ∧ (∀ p ∈ pts, p ∈ c.floor_spaces) ∧
        c6.creature (pts.getD 0 ⟨0, 0⟩) = some (some (.typ .salamango)) ∧
        (∃ l1, c.items (pts.getD 1 ⟨0, 0⟩) = some l1 ∧
          c6.items (pts.getD 1 ⟨0, 0⟩) = some (l1 ++ [.typ .armor])) ∧
        (∃ l2, c.items (pts.getD 2 ⟨0, 0⟩) = some l2 ∧
          c6.items (pts.getD 2 ⟨0, 0⟩) = some (l2 ++ [.typ .potion])) ∧
        (∃ l3, c.items (pts.getD 3 ⟨0, 0⟩) = some l3 ∧
          c6.items (pts.getD 3 ⟨0, 0⟩) = some (l3 ++ [.typ .potion])) ∧
        (∃ l4, c.items (pts.getD 4 ⟨0, 0⟩) = some l4 ∧
          c6.items (pts.getD 4 ⟨0, 0⟩) = some (l4 ++ [.typ .gem])) ∧
        (∃ l5, c.items (pts.getD 5 ⟨0, 0⟩) = some l5 ∧
          c6.items (pts.getD 5 ⟨0, 0⟩) = some (l5 ++ [.typ .crate]))) := by
  refine ⟨?_, ?_, ?_⟩
  · intro h
    unfold Fractor.place_stuff
    rw [if_pos h]
  · intro hne hlt
    constructor
    · unfold Fractor.place_stuff
      rw [if_neg hne]
      unfold sample
      rw [if_pos hlt]
    · decide
  · intro hge hnd hitems
    have hne : c.floor_spaces ≠ [] := by
      intro h
      rw [h] at hge
      simp at hge
    have hsub : ∀ p ∈ sampleList r n c.floor_spaces 10, p ∈ c.floor_spaces :=
      fun p hp => sampleList_subset r 10 n _ p hp
    have hlen : (sampleList r n c.floor_spaces 10).length = 10 :=
      sampleList_length r 10 n _ hge
    have hptsnd : (sampleList r n c.floor_spaces 10).Nodup :=
      sampleList_nodup r 10 n _ hnd
    obtain ⟨p0, p1, p2, p3, p4, p5, t, hshape⟩ :=
      @exists_six_cons Point (sampleList r n c.floor_spaces 10) (by omega)
    have hmem1 : p1 ∈ c.floor_spaces := hsub p1 (by rw [hshape]; simp)
    have hmem2 : p2 ∈ c.floor_spaces := hsub p2 (by rw [hshape]; simp)
    have hmem3 : p3 ∈ c.floor_spaces := hsub p3 (by rw [hshape]; simp)
    have hmem4 : p4 ∈ c.floor_spaces := hsub p4 (by rw [hshape]; simp)
    have hmem5 : p5 ∈ c.floor_spaces := hsub p5 (by rw [hshape]; simp)
    have hdist : p1 ≠ p2 ∧ p1 ≠ p3 ∧ p1 ≠ p4 ∧ p1 ≠ p5 ∧ p2 ≠ p3 ∧ p2 ≠ p4 ∧
        p2 ≠ p5 ∧ p3 ≠ p4 ∧ p3 ≠ p5 ∧ p4 ≠ p5 := by
      have h2 := hptsnd
      rw [hshape] at h2
      simp only [List.nodup_cons, List.mem_cons] at h2
      refine ⟨?_, ?_, ?_, ?_, ?_, ?_, ?_, ?_, ?_, ?_⟩ <;> tauto
    obtain ⟨h12, h13, h14, h15, h23, h24, h25, h34, h35, h45⟩ := hdist
    obtain ⟨l1, hl1⟩ := Option.isSome_iff_exists.mp (hitems p1 hmem1)
    obtain ⟨l2, hl2⟩ := Option.isSome_iff_exists.mp (hitems p2 hmem2)
    obtain ⟨l3, hl3⟩ := Option.isSome_iff_exists.mp (hitems p3 hmem3)
    obtain ⟨l4, hl4⟩ := Option.isSome_iff_exists.mp (hitems p4 hmem4)
    obtain ⟨l5, hl5⟩ := Option.isSome_iff_exists.mp (hitems p5 hmem5)
    have hrun : Fractor.place_stuff c r n =
        (.ok
          { rect := c.rect
            arch := c.arch
            items := fun q =>
              if q = p5 then some (l5 ++ [.typ .crate])
              else if q = p4 then some (l4 ++ [.typ .gem])
              else if q = p3 then some (l3 ++ [.typ .potion])
              else if q = p2 then some (l2 ++ [.typ .potion])
              else if q = p1 then some (l1 ++ [.typ .armor])
              else c.items q
            creature := fun q =>
              if q = p0 then some (some (.typ .salamango)) else c.creature q
            floor_spaces := c.floor_spaces }, n + 10) := by
      unfold Fractor.place_stuff
      rw [if_neg hne]
      unfold sample
      rw [if_neg (by omega : ¬ c.floor_spaces.length < 10), hshape]
      unfold MapCanvas.set_creature MapCanvas.add_item
      simp only [hl1, if_neg (Ne.symm h12), hl2, if_neg (Ne.symm h13),
        if_neg (Ne.symm h23), hl3, if_neg (Ne.symm h14), if_neg (Ne.symm h24),
        if_neg (Ne.symm h34), hl4, if_neg (Ne.symm h15), if_neg (Ne.symm h25),
        if_neg (Ne.symm h35), if_neg (Ne.symm h45), hl5]
    refine ⟨sampleList r n c.floor_spaces 10, _, hrun, hlen, hptsnd, hsub,
      ?_, ⟨l1, ?_, ?_⟩, ⟨l2, ?_, ?_⟩, ⟨l3, ?_, ?_⟩, ⟨l4, ?_, ?_⟩, ⟨l5, ?_, ?_⟩⟩
    · rw [hshape]
      simp [List.getD_cons_zero]
    · rw [hshape]
      simp only [List.getD_cons_succ, List.getD_cons_zero]
      exact hl1
    · rw [hshape]
      simp only [List.getD_cons_succ, List.getD_cons_zero]
      simp [h12, h13, h14, h15]
    · rw [hshape]
      simp only [List.getD_cons_succ, List.getD_cons_zero]
      exact hl2
    · rw [hshape]
      simp only [List.getD_cons_succ, List.getD_cons_zero]
      simp [Ne.symm h12, h23, h24, h25]
    · rw [hshape]
      simp only [List.getD_cons_succ, List.getD_cons_zero]
      exact hl3
    · rw [hshape]
      simp only [List.getD_cons_succ, List.getD_cons_zero]
      simp [Ne.symm h13, Ne.symm h23, h34, h35]
    · rw [hshape]
      simp only [List.getD_cons_succ, List.getD_cons_zero]
      exact hl4
    · rw [hshape]
      simp only [List.getD_cons_succ, List.getD_cons_zero]
      simp [Ne.symm h14, Ne.symm h24, Ne.symm h34, h45]
    · rw [hshape]
      simp only [List.getD_cons_succ, List.getD_cons_zero]
      exact hl5
    · rw [hshape]
      simp only [List.getD_cons_succ, List.getD_cons_zero]
      simp [Ne.symm h15, Ne.symm h25, Ne.symm h35, Ne.symm h45]

/-- C8 witness: the three branches at concrete canvases: a fresh canvas (no
walkable points), a cleared 2 by 2 canvas (4 walkable points, fewer than 10),
and a cleared 4 by 4 canvas (16 walkable points). -/
theorem C8_place_stuff_behaviour_witness :
    ((MapCanvas.init ⟨2, 2⟩).floor_spaces = [] ∧
      Fractor.place_stuff (MapCanvas.init ⟨2, 2⟩) (fun _ => 0) 0 =
        (.error (.noOpenSpacesPlayer, MapCanvas.init ⟨2, 2⟩), 0)) ∧
    (((MapCanvas.init ⟨2, 2⟩).clear .floor).floor_spaces ≠ [] ∧
      ((MapCanvas.init ⟨2, 2⟩).clear .floor).floor_spaces.length < 10 ∧
      Fractor.place_stuff ((MapCanvas.init ⟨2, 2⟩).clear .floor) (fun _ => 0) 0 =
        (.error (.sampleTooLarge, (MapCanvas.init ⟨2, 2⟩).clear .floor), 0)) ∧
    (10 ≤ ((MapCanvas.init ⟨4, 4⟩).clear .floor).floor_spaces.length ∧
      ((MapCanvas.init ⟨4, 4⟩).clear .floor).floor_spaces.Nodup ∧
      (∀ p ∈ ((MapCanvas.init ⟨4, 4⟩).clear .floor).floor_spaces,
        (((MapCanvas.init ⟨4, 4⟩).clear .floor).items p).isSome) ∧
      ∃ (pts : List Point) (c6 : MapCanvas),
        Fractor.place_stuff ((MapCanvas.init ⟨4, 4⟩).clear .floor) (fun _ => 0) 0 =
          (.ok c6, 0 + 10) ∧
        pts.length = 10 ∧ pts.Nodup ∧
        (∀ p ∈ pts, p ∈ ((MapCanvas.init ⟨4, 4⟩).clear .floor).floor_spaces) ∧
        c6.creature (pts.getD 0 ⟨0, 0⟩) = some (some (.typ .salamango)) ∧
        (∃ l1, ((MapCanvas.init ⟨4, 4⟩).clear .floor).items (pts.getD 1 ⟨0, 0⟩) = some l1 ∧
          c6.items (pts.getD 1 ⟨0, 0⟩) = some (l1 ++ [.typ .armor])) ∧
        (∃ l2, ((MapCanvas.init ⟨4, 4⟩).clear .floor).items (pts.getD 2 ⟨0, 0⟩) = some l2 ∧
          c6.items (pts.getD 2 ⟨0, 0⟩) = some (l2 ++ [.typ .potion])) ∧
        (∃ l3, ((MapCanvas.init ⟨4, 4⟩).clear .floor).items (pts.getD 3 ⟨0, 0⟩) = some l3 ∧
          c6.items (pts.getD 3 ⟨0, 0⟩) = some (l3 ++ [.typ .potion])) ∧
        (∃ l4, ((MapCanvas.init ⟨4, 4⟩).clear .floor).items (pts.getD 4 ⟨0, 0⟩) = some l4 ∧
          c6.items (pts.getD 4 ⟨0, 0⟩) = some (l4 ++ [.typ .gem])) ∧
        (∃ l5, ((MapCanvas.init ⟨4, 4⟩).clear .floor).items (pts.getD 5 ⟨0, 0⟩) = some l5 ∧
          c6.items (pts.getD 5 ⟨0, 0⟩) = some (l5 ++ [.typ .crate]))) :=
  ⟨⟨rfl, (C8_place_stuff_behaviour (MapCanvas.init ⟨2, 2⟩) (fun _ => 0) 0).1 rfl⟩,
    ⟨by decide, by decide,
      ((C8_place_stuff_behaviour ((MapCanvas.init ⟨2, 2⟩).clear .floor)
        (fun _ => 0) 0).2.1 (by decide) (by decide)).1⟩,
    ⟨by decide, by decide, by decide,
      (C8_place_stuff_behaviour ((MapCanvas.init ⟨4, 4⟩).clear .floor)
        (fun _ => 0) 0).2.2 (by decide) (by decide) (by decide)⟩⟩

/-! ## C3: lemmas for the end-to-end Binary-Partition scenario -/

theorem COp.comp_ok {m1 m2 : COp} {c c2 : MapCanvas} {r : Rand} {n n2 : ℕ}
    (h : COp.comp m1 m2 c r n = (.ok c2, n2)) :
    ∃ c1 n1, m1 c r n = (.ok c1, n1) ∧ m2 c1 r n1 = (.ok c2, n2) := by
  unfold COp.comp at h
  split at h
  · next c1 n1 heq => exact ⟨c1, n1, heq, h⟩
  · next heq => simp at h

theorem randint_ok {a b : ℤ} {r : Rand} {n : ℕ} {z : ℤ} {n2 : ℕ}
    (h : randint a b r n = (.ok z, n2)) : a ≤ z ∧ z ≤ b ∧ n2 = n + 1 := by
  unfold randint at h
  split at h
  · simp at h
  · next hba =>
    obtain ⟨h1, h2⟩ := Prod.mk.injEq _ _ _ _ ▸ h
    cases h1
    refine ⟨?_, ?_, h2.symm⟩ <;>
    · have hmod := Int.emod_nonneg (((r n).toNat : ℤ)) (by omega : b - a + 1 ≠ 0)
      have hlt := Int.emod_lt_of_pos (((r n).toNat : ℤ)) (by omega : (0 : ℤ) < b - a + 1)
      omega

theorem rnr_min (g : ℚ) (lb ub : ℤ) :
    min lb ub ≤ random_normal_range g lb ub := by
  unfold random_normal_range
  split
  · omega
  · split <;> omega

theorem rnrG_ok {lb ub : ℤ} {r : Rand} {n : ℕ} {z : ℤ} {n2 : ℕ}
    (h : rnrG lb ub r n = (.ok z, n2)) :
    z = random_normal_range ((r n : ℤ) : ℚ) lb ub ∧ n2 = n + 1 := by
  unfold rnrG at h
  obtain ⟨h1, h2⟩ := Prod.mk.injEq _ _ _ _ ▸ h
  cases h1
  exact ⟨rfl, h2.symm⟩

theorem GenE.bind_ok {m : GenE α} {f : α → GenE β} {r : Rand} {n n2 : ℕ} {b : β}
    (h : GenE.bind m f r n = (.ok b, n2)) :
    ∃ a n1, m r n = (.ok a, n1) ∧ f a r n1 = (.ok b, n2) := by
  unfold GenE.bind at h
  split at h
  · next a n1 heq => exact ⟨a, n1, heq, h⟩
  · next heq => simp at h

theorem set_architecture_rect (c : MapCanvas) (p : Point) (tl : Tile) :
    (c.set_architecture p tl).rect = c.rect := rfl

theorem noStairs_set_architecture {c : MapCanvas} {p : Point} {tl : Tile}
    (h : NoStairs c) (htl : tl.etype ≠ .stairsUp ∧ tl.etype ≠ .stairsDown) :
    NoStairs (c.set_architecture p tl) := by
  intro q tl2 hq
  unfold MapCanvas.set_architecture at hq
  dsimp only at hq
  by_cases hqp : q = p
  · rw [if_pos hqp] at hq
    cases hq
    exact htl
  · rw [if_neg hqp] at hq
    exact h q tl2 hq

theorem floorInRect_set_architecture {c : MapCanvas} {p : Point} {tl : Tile}
    (h : FloorInRect c) (hp : c.rect.contains p) :
    FloorInRect (c.set_architecture p tl) := by
  intro q hq
  unfold MapCanvas.set_architecture at hq
  dsimp only at hq
  rw [set_architecture_rect]
  split at hq
  · rcases mem_setAdd.mp hq with rfl | hq2
    · exact hp
    · exact h q hq2
  · exact h q (List.mem_of_mem_erase hq)

/-- Preservation of the portal-free invariants along a fold of in-bounds
non-stairs architecture writes. -/
theorem foldl_setArch_inv {tl : Tile}
    (htl : tl.etype ≠ .stairsUp ∧ tl.etype ≠ .stairsDown) :
    ∀ (ps : List Point) (c : MapCanvas), (∀ p ∈ ps, c.rect.contains p) →
      NoStairs c → FloorInRect c →
      NoStairs (ps.foldl (fun acc p => acc.set_architecture p tl) c) ∧
        FloorInRect (ps.foldl (fun acc p => acc.set_architecture p tl) c) ∧
        (ps.foldl (fun acc p => acc.set_architecture p tl) c).rect = c.rect := by
  intro ps
  induction ps with
  | nil => exact fun c _ h1 h2 => ⟨h1, h2, rfl⟩
  | cons p ps ih =>
    intro c hin h1 h2
    rw [List.foldl_cons]
    have hp := hin p (List.mem_cons_self p ps)
    obtain ⟨ih1, ih2, ih3⟩ := ih (c.set_architecture p tl)
      (fun q hq => hin q (List.mem_cons_of_mem _ hq))
      (noStairs_set_architecture h1 htl) (floorInRect_set_architecture h2 hp)
    exact ⟨ih1, ih2, by rw [ih3, set_architecture_rect]⟩

theorem contains_of_containsRect {outer inner : Rect} {p : Point}
    (h : outer.containsRect inner) (hp : inner.contains p) : outer.contains p := by
  obtain ⟨h1, h2, h3, h4⟩ := h
  obtain ⟨k1, k2, k3, k4⟩ := hp
  exact ⟨by omega, by omega, by omega, by omega⟩

theorem mem_iterBorder_contains {r : Rect} {pd : Point × Dir}
    (hw : 1 ≤ r.width) (hh : 1 ≤ r.height) (h : pd ∈ r.iterBorder) :
    r.contains pd.1 := by
  unfold Rect.iterBorder at h
  unfold Rect.contains Rect.width Rect.height at *
  simp only [List.mem_append, List.mem_map, List.mem_range] at h
  rcases h with ((⟨dx, hdx, heq⟩ | ⟨dx, hdx, heq⟩) | ⟨dy, hdy, heq⟩) | ⟨dy, hdy, heq⟩ <;>
  · rw [← heq]
    refine ⟨?_, ?_, ?_, ?_⟩ <;> simp <;> omega

/-- `Room.draw_to_canvas` succeeds only inside the canvas and preserves the
portal-free invariants (for a nondegenerate room). -/
theorem draw_to_canvas_inv {room : Room} {c c2 : MapCanvas} {r : Rand} {n n2 : ℕ}
    (hw : 1 ≤ room.rect.width) (hh : 1 ≤ room.rect.height)
    (h : room.draw_to_canvas c r n = (.ok c2, n2))
    (h1 : NoStairs c) (h2 : FloorInRect c) :
    NoStairs c2 ∧ FloorInRect c2 ∧ c2.rect = c.rect := by
  unfold Room.draw_to_canvas at h
  split at h
  · next hsub =>
    obtain ⟨heq, -⟩ := Prod.mk.injEq _ _ _ _ ▸ h
    cases heq
    obtain ⟨f1, f2, f3⟩ := @foldl_setArch_inv (.typ .floor) (by decide)
      room.rect.iterPoints c
      (fun p hp => contains_of_containsRect hsub (mem_iterPoints.mp hp)) h1 h2
    have hborder : ∀ pd ∈ room.rect.iterBorder,
        (room.rect.iterPoints.foldl
          (fun acc p => acc.set_architecture p (.typ .floor)) c).rect.contains pd.1 := by
      intro pd hpd
      rw [f3]
      exact contains_of_containsRect hsub (mem_iterBorder_contains hw hh hpd)
    have hfold2 := @foldl_setArch_inv (.typ .wall) (by decide)
      (room.rect.iterBorder.map Prod.fst) _
      (fun p hp => by
        obtain ⟨pd, hpd, rfl⟩ := List.mem_map.mp hp
        exact hborder pd hpd) f1 f2
    rw [List.foldl_map] at hfold2
    obtain ⟨g1, g2, g3⟩ := hfold2
    exact ⟨g1, g2, by rw [g3, f3]⟩
  · simp at h

theorem insSorted_perm (le : α → α → Bool) (a : α) :
    ∀ l : List α, (insSorted le a l).Perm (a :: l) := by
  intro l
  induction l with
  | nil => exact List.Perm.refl _
  | cons b l ih =>
    unfold insSorted
    split
    · exact (ih.cons b).trans (List.Perm.swap a b l)
    · exact List.Perm.refl _

theorem stableSort_perm (le : α → α → Bool) (l : List α) :
    (stableSort le l).Perm l := by
  suffices h : ∀ (l acc : List α),
      (l.foldl (fun acc a => insSorted le a acc) acc).Perm (l ++ acc) by
    simpa using h l []
  intro l
  induction l with
  | nil => intro acc; simp
  | cons a l ih =>
    intro acc
    rw [List.foldl_cons]
    refine (ih _).trans ?_
    refine (List.Perm.append_left l (insSorted_perm le a acc)).trans ?_
    exact List.perm_middle

theorem mem_stableSort {le : α → α → Bool} {l : List α} {a : α} :
    a ∈ stableSort le l ↔ a ∈ l :=
  (stableSort_perm le l).mem_iff

theorem GenE.pure_ok {a b : α} {r : Rand} {n n2 : ℕ}
    (h : GenE.pure a r n = (.ok b, n2)) : b = a ∧ n2 = n := by
  unfold GenE.pure at h
  obtain ⟨h1, h2⟩ := Prod.mk.injEq _ _ _ _ ▸ h
  cases h1
  exact ⟨rfl, h2.symm⟩

theorem partition_horizontal_dims {ms : Size} {region : Rect} {r : Rand}
    {n : ℕ} {res : List Rect} {n2 : ℕ}
    (h : BinaryPartitionFractor.partition_horizontal ms region r n = (.ok res, n2)) :
    ∀ reg ∈ res, reg.width = region.width ∧ ms.height - 1 ≤ reg.height := by
  unfold BinaryPartitionFractor.partition_horizontal at h
  split at h
  · next htb =>
    obtain ⟨mid, n1, hmid, hres⟩ := GenE.bind_ok h
    obtain ⟨hm1, hm2, -⟩ := randint_ok hmid
    obtain ⟨hres2, -⟩ := GenE.pure_ok hres
    subst hres2
    intro reg hreg
    simp only [List.mem_cons, List.not_mem_nil, or_false] at hreg
    rcases hreg with rfl | rfl <;>
    · unfold Rect.replaceBottom Rect.replaceTop Rect.width Rect.height at *
      dsimp only
      refine ⟨rfl, by omega⟩
  · exact absurd h (by unfold GenE.fail; simp)

theorem partition_vertical_dims {ms : Size} {region : Rect} {r : Rand}
    {n : ℕ} {res : List Rect} {n2 : ℕ}
    (h : BinaryPartitionFractor.partition_vertical ms region r n = (.ok res, n2)) :
    ∀ reg ∈ res, reg.height = region.height ∧ ms.width - 1 ≤ reg.width := by
  unfold BinaryPartitionFractor.partition_vertical at h
  split at h
  · next htb =>
    obtain ⟨mid, n1, hmid, hres⟩ := GenE.bind_ok h
    obtain ⟨hm1, hm2, -⟩ := randint_ok hmid
    obtain ⟨hres2, -⟩ := GenE.pure_ok hres
    subst hres2
    intro reg hreg
    simp only [List.mem_cons, List.not_mem_nil, or_false] at hreg
    rcases hreg with rfl | rfl <;>
    · unfold Rect.replaceRight Rect.replaceLeft Rect.width Rect.height at *
      dsimp only
      refine ⟨rfl, by omega⟩
  · exact absurd h (by unfold GenE.fail; simp)

theorem partition_dims {region : Rect} {r : Rand} {n : ℕ} {res : List Rect} {n2 : ℕ}
    (h : BinaryPartitionFractor.partition ⟨5, 5⟩ region r n = (.ok res, n2))
    (hreg : 4 ≤ region.width ∧ 4 ≤ region.height) :
    ∀ reg ∈ res, 4 ≤ reg.width ∧ 4 ≤ reg.height := by
  unfold BinaryPartitionFractor.partition at h
  split at h
  · obtain ⟨hres2, -⟩ := GenE.pure_ok h
    subst hres2
    intro reg hreg2
    rw [List.mem_singleton] at hreg2
    exact hreg2 ▸ hreg
  · split at h
    · intro reg hreg2
      obtain ⟨hw, hh⟩ := partition_horizontal_dims h reg hreg2
      have hh2 : (5 : ℤ) - 1 ≤ reg.height := hh
      exact ⟨hw ▸ hreg.1, by omega⟩
    · intro reg hreg2
      obtain ⟨hh, hw⟩ := partition_vertical_dims h reg hreg2
      have hw2 : (5 : ℤ) - 1 ≤ reg.width := hw
      exact ⟨by omega, hh ▸ hreg.2⟩

theorem mpLoop_dims :
    ∀ (fuel : ℕ) (regions : List Rect) {r : Rand} {n : ℕ} {res : List Rect} {n2 : ℕ},
      BinaryPartitionFractor.maximallyPartitionLoop ⟨5, 5⟩ 7 fuel regions r n =
        (.ok res, n2) →
      (∀ reg ∈ regions, 4 ≤ reg.width ∧ 4 ≤ reg.height) →
      ∀ reg ∈ res, 4 ≤ reg.width ∧ 4 ≤ reg.height := by
  intro fuel
  induction fuel with
  | zero =>
    intro regions r n res n2 h _
    exact absurd h (by unfold BinaryPartitionFractor.maximallyPartitionLoop GenE.fail; simp)
  | succ fuel ih =>
    intro regions r n res n2 h hregs
    unfold BinaryPartitionFractor.maximallyPartitionLoop at h
    cases regions with
    | nil =>
      split at h <;>
      · obtain ⟨hres2, -⟩ := GenE.pure_ok h
        subst hres2
        exact hregs
    | cons region rest =>
      split at h
      · obtain ⟨new_regions, n1, hpart, hrec⟩ := GenE.bind_ok h
        refine ih _ hrec ?_
        intro reg hreg
        rcases List.mem_append.mp (mem_stableSort.mp hreg) with h1 | h1
        · exact hregs reg (List.mem_cons_of_mem _ h1)
        · exact partition_dims hpart
            (hregs region (List.mem_cons_self _ _)) reg h1
      · obtain ⟨hres2, -⟩ := GenE.pure_ok h
        subst hres2
        exact hregs

theorem room_randomize_dims {region : Rect} {r : Rand} {n : ℕ} {room : Room} {n2 : ℕ}
    (h : Room.randomize region ⟨5, 5⟩ r n = (.ok room, n2))
    (hreg : 1 ≤ region.width ∧ 1 ≤ region.height) :
    1 ≤ room.rect.width ∧ 1 ≤ room.rect.height := by
  unfold Room.randomize at h
  obtain ⟨w, nw, hw, h⟩ := GenE.bind_ok h
  obtain ⟨hh2, nh, hhh, h⟩ := GenE.bind_ok h
  obtain ⟨dx, ndx, hdx, h⟩ := GenE.bind_ok h
  obtain ⟨dy, ndy, hdy, h⟩ := GenE.bind_ok h
  obtain ⟨hres2, -⟩ := GenE.pure_ok h
  subst hres2
  obtain ⟨hw2, -⟩ := rnrG_ok hw
  obtain ⟨hh3, -⟩ := rnrG_ok hhh
  have hwmin := rnr_min ((r n : ℤ) : ℚ) 5 region.width
  have hhmin := rnr_min ((r nw : ℤ) : ℚ) 5 region.height
  subst hw2 hh3
  unfold Rect.ofOriginSize Rect.width Rect.height at *
  constructor <;> · dsimp only; omega

theorem generate_room_inv {region : Rect} {c c2 : MapCanvas} {r : Rand} {n n2 : ℕ}
    (h : Fractor.generate_room region c r n = (.ok c2, n2))
    (hreg : 1 ≤ region.width ∧ 1 ≤ region.height)
    (h1 : NoStairs c) (h2 : FloorInRect c) :
    NoStairs c2 ∧ FloorInRect c2 ∧ c2.rect = c.rect := by
  unfold Fractor.generate_room at h
  split at h
  · simp at h
  · next room n1 heq =>
    obtain ⟨hw, hh⟩ := room_randomize_dims heq hreg
    exact draw_to_canvas_inv hw hh h h1 h2

theorem generateRooms_inv :
    ∀ (regs : List Rect) {c c2 : MapCanvas} {r : Rand} {n n2 : ℕ},
      BinaryPartitionFractor.generateRooms regs c r n = (.ok c2, n2) →
      (∀ reg ∈ regs, 1 ≤ reg.width ∧ 1 ≤ reg.height) →
      NoStairs c → FloorInRect c →
      NoStairs c2 ∧ FloorInRect c2 ∧ c2.rect = c.rect := by
  intro regs
  induction regs with
  | nil =>
    intro c c2 r n n2 h _ h1 h2
    unfold BinaryPartitionFractor.generateRooms at h
    obtain ⟨heq, -⟩ := Prod.mk.injEq _ _ _ _ ▸ h
    cases heq
    exact ⟨h1, h2, rfl⟩
  | cons region rest ih =>
    intro c c2 r n n2 h hdims h1 h2
    unfold BinaryPartitionFractor.generateRooms at h
    obtain ⟨c1, n1, hroom, hrest⟩ := COp.comp_ok h
    obtain ⟨g1, g2, g3⟩ := generate_room_inv hroom
      (hdims region (List.mem_cons_self _ _)) h1 h2
    obtain ⟨k1, k2, k3⟩ := ih hrest
      (fun reg hreg => hdims reg (List.mem_cons_of_mem _ hreg)) g1 g2
    exact ⟨k1, k2, by rw [k3, g3]⟩

theorem bpf_generate_inv {region : Rect} {c c2 : MapCanvas} {r : Rand} {n n2 : ℕ}
    (h : BinaryPartitionFractor.generate ⟨5, 5⟩ region c r n = (.ok c2, n2))
    (hreg : 4 ≤ region.width ∧ 4 ≤ region.height)
    (h1 : NoStairs c) (h2 : FloorInRect c) :
    NoStairs c2 ∧ FloorInRect c2 ∧ c2.rect = c.rect := by
  unfold BinaryPartitionFractor.generate at h
  split at h
  · simp at h
  · next regions n1 heq =>
    unfold BinaryPartitionFractor.maximally_partition at heq
    have hdims := mpLoop_dims 64 [region] heq ?_
    · exact generateRooms_inv regions h
        (fun reg hreg => ⟨by have := (hdims reg hreg).1; omega,
          by have := (hdims reg hreg).2; omega⟩) h1 h2
    · intro reg hr
      rw [List.mem_singleton] at hr
      exact hr ▸ hreg

theorem add_item_fields {c c2 : MapCanvas} {p : Point} {tl : Tile}
    (h : c.add_item p tl = .ok c2) :
    c2.arch = c.arch ∧ c2.floor_spaces = c.floor_spaces ∧ c2.rect = c.rect := by
  unfold MapCanvas.add_item at h
  split at h
  · simp at h
  · injection h with h2
    subst h2
    exact ⟨rfl, rfl, rfl⟩

theorem place_stuff_preserves {c c2 : MapCanvas} {r : Rand} {n n2 : ℕ}
    (h : Fractor.place_stuff c r n = (.ok c2, n2)) :
    c2.arch = c.arch ∧ c2.floor_spaces = c.floor_spaces ∧ c2.rect = c.rect := by
  unfold Fractor.place_stuff at h
  split at h
  · simp at h
  · split at h
    · simp at h
    · split at h
      · dsimp only at h
        split at h
        · simp at h
        · next cA haddA =>
          split at h
          · simp at h
          · next cB haddB =>
            split at h
            · simp at h
            · next cC haddC =>
              split at h
              · simp at h
              · next cD haddD =>
                split at h
                · simp at h
                · next cE haddE =>
                  obtain ⟨heq, -⟩ := Prod.mk.injEq _ _ _ _ ▸ h
                  injection heq with heq2
                  subst heq2
                  obtain ⟨a1, f1, r1⟩ := add_item_fields haddA
                  obtain ⟨a2, f2, r2⟩ := add_item_fields haddB
                  obtain ⟨a3, f3, r3⟩ := add_item_fields haddC
                  obtain ⟨a4, f4, r4⟩ := add_item_fields haddD
                  obtain ⟨a5, f5, r5⟩ := add_item_fields haddE
                  refine ⟨?_, ?_, ?_⟩
                  · rw [a5, a4, a3, a2, a1]; rfl
                  · rw [f5, f4, f3, f2, f1]; rfl
                  · rw [r5, r4, r3, r2, r1]; rfl
      · simp at h

theorem place_portal_ok {pt : EType} {d : ℤ} {c c2 : MapCanvas} {r : Rand}
    {n n2 : ℕ} (h : Fractor.place_portal pt d c r n = (.ok c2, n2)) :
    ∃ p ∈ c.floor_spaces, c2 = c.set_architecture p (.ent ⟨pt, some d⟩) := by
  unfold Fractor.place_portal at h
  split at h
  · simp at h
  · split at h
    · simp at h
    · next point n1 heq =>
      obtain ⟨h1, -⟩ := Prod.mk.injEq _ _ _ _ ▸ h
      injection h1 with h1
      subst h1
      unfold choice at heq
      split at heq
      · simp at heq
      · obtain ⟨h2, -⟩ := Prod.mk.injEq _ _ _ _ ▸ heq
        injection h2 with h2
        subst h2
        exact ⟨_, c.floor_spaces.get_mem _ _, rfl⟩

theorem to_map_ok {c : MapCanvas} {m : MapG} (h : c.to_map = .ok m) :
    m.rect = c.rect ∧
      ∀ p, m.arch p =
        if c.rect.contains p then (c.arch p).map maybe_create else none := by
  unfold MapCanvas.to_map at h
  split at h
  · injection h with h2
    subst h2
    exact ⟨rfl, fun p => rfl⟩
  · simp at h

theorem setArch_empty_mem_floor {c : MapCanvas} {p : Point} {tl : Tile}
    (he : tl.isEmptyPhysics = true) (hp : p ∈ c.floor_spaces) :
    (c.set_architecture p tl).floor_spaces = c.floor_spaces := by
  unfold MapCanvas.set_architecture
  dsimp only
  rw [if_pos he]
  unfold setAdd
  rw [if_pos hp]

theorem maybe_create_type (tl : Tile) : (maybe_create tl).type = tl.etype := by
  cases tl <;> rfl

theorem stairs_count {c2 : MapCanvas} {pu pd : Point} {du dd : ℤ} {m : MapG}
    (hns : NoStairs c2) (hpu : c2.rect.contains pu) (hpd : c2.rect.contains pd)
    (hm : ((c2.set_architecture pu (.ent ⟨.stairsUp, some du⟩)).set_architecture pd
        (.ent ⟨.stairsDown, some dd⟩)).to_map = .ok m) :
    m.countArch .stairsDown = 1 ∧ m.countArch .stairsUp ≤ 1 := by
  obtain ⟨hrect, harch⟩ := to_map_ok hm
  have hrect2 : m.rect = c2.rect := hrect
  have harch3 : ∀ p, c2.rect.contains p →
      m.arch p =
        if p = pd then some (maybe_create (.ent ⟨.stairsDown, some dd⟩))
        else if p = pu then some (maybe_create (.ent ⟨.stairsUp, some du⟩))
        else (c2.arch p).map maybe_create := by
    intro p hcont
    rw [harch p]
    simp only [set_architecture_rect]
    rw [if_pos hcont]
    show (Option.map maybe_create
      (if p = pd then some (.ent ⟨.stairsDown, some dd⟩)
       else if p = pu then some (.ent ⟨.stairsUp, some du⟩) else c2.arch p)) = _
    by_cases h1 : p = pd
    · rw [if_pos h1, if_pos h1]
      rfl
    · rw [if_neg h1, if_neg h1]
      by_cases h2 : p = pu
      · rw [if_pos h2, if_pos h2]
        rfl
      · rw [if_neg h2, if_neg h2]
  have hmemcont : ∀ p ∈ m.rect.iterPoints, c2.rect.contains p := by
    intro p hp
    rw [← hrect2]
    exact mem_iterPoints.mp hp
  have hpdmem : pd ∈ m.rect.iterPoints :=
    mem_iterPoints.mpr (by rw [hrect2]; exact hpd)
  have hpumem : pu ∈ m.rect.iterPoints :=
    mem_iterPoints.mpr (by rw [hrect2]; exact hpu)
  have hnodup := nodup_iterPoints m.rect
  have hnotl2 : ∀ p tl, c2.arch p = some tl →
      ((maybe_create tl).type == EType.stairsDown) = false ∧
        ((maybe_create tl).type == EType.stairsUp) = false := by
    intro p tl harchp
    rw [maybe_create_type]
    constructor
    · simpa using (hns p tl harchp).2
    · simpa using (hns p tl harchp).1
  constructor
  · have hD : ∀ p ∈ m.rect.iterPoints,
        (match m.arch p with
         | some e => e.type == EType.stairsDown
         | none => false) = decide (p = pd) := by
      intro p hp
      rw [harch3 p (hmemcont p hp)]
      by_cases h1 : p = pd
      · rw [if_pos h1]
        simp [maybe_create, h1]
      · rw [if_neg h1]
        by_cases h2 : p = pu
        · rw [if_pos h2]
          simp [maybe_create, h1]
        · rw [if_neg h2]
          match harchp : c2.arch p with
          | none => simp [h1]
          | some tl =>
            dsimp only [Option.map]
            rw [(hnotl2 p tl harchp).1]
            simp [h1]
    unfold MapG.countArch
    rw [List.filter_congr hD, ← List.countP_eq_length_filter]
    exact List.count_eq_one_of_mem hnodup hpdmem
  · by_cases hpupd : pu = pd
    · have hU : ∀ p ∈ m.rect.iterPoints,
          (match m.arch p with
           | some e => e.type == EType.stairsUp
           | none => false) = false := by
        intro p hp
        rw [harch3 p (hmemcont p hp)]
        by_cases h1 : p = pd
        · rw [if_pos h1]
          simp [maybe_create]
        · rw [if_neg h1, if_neg (hpupd ▸ h1)]
          match harchp : c2.arch p with
          | none => rfl
          | some tl =>
            dsimp only [Option.map]
            rw [(hnotl2 p tl harchp).2]
      unfold MapG.countArch
      rw [List.filter_congr hU]
      simp
    · have hU : ∀ p ∈ m.rect.iterPoints,
          (match m.arch p with
           | some e => e.type == EType.stairsUp
           | none => false) = decide (p = pu) := by
        intro p hp
        rw [harch3 p (hmemcont p hp)]
        by_cases h1 : p = pd
        · rw [if_pos h1]
          subst h1
          simp [maybe_create, Ne.symm hpupd]
        · rw [if_neg h1]
          by_cases h2 : p = pu
          · rw [if_pos h2]
            simp [maybe_create, h2]
          · rw [if_neg h2]
            match harchp : c2.arch p with
            | none => simp [h2]
            | some tl =>
              dsimp only [Option.map]
              rw [(hnotl2 p tl harchp).2]
              simp [h2]
      unfold MapG.countArch
      rw [List.filter_congr hU, ← List.countP_eq_length_filter]
      exact le_of_eq (List.count_eq_one_of_mem hnodup hpumem)

theorem noStairs_init (sz : Size) : NoStairs (MapCanvas.init sz) := by
  intro p tl h
  unfold MapCanvas.init at h
  dsimp only at h
  split at h
  · injection h with h2
    subst h2
    exact ⟨by decide, by decide⟩
  · cases h

theorem floorInRect_init (sz : Size) : FloorInRect (MapCanvas.init sz) := by
  intro p hp
  cases hp

/-- C3 as amended: over all outcomes of the random source, whenever the
20 by 20 Binary-Partition scenario with both stairs requested returns a map,
that map contains exactly one StairsDown tile and at most one StairsUp tile
(the later StairsDown placement may pick the same walkable point and
overwrite the StairsUp portal, since stairs are themselves walkable); both
stairs types are non-solid; and every successful `place_portal` call places
its portal on a point that was in the walkable set immediately before the
call. -/
theorem C3_amended_scenarioA :
    (∀ r : Rand,
      match (runScenarioA r).1 with
      | .error _ => True
      | .ok m =>
          m.countArch .stairsDown = 1 ∧ m.countArch .stairsUp ≤ 1 ∧
            EType.stairsDown.isEmptyPhysics = true ∧
            EType.stairsUp.isEmptyPhysics = true) ∧
    (∀ (pt : EType) (d : ℤ) (c : MapCanvas) (r : Rand) (n : ℕ),
      match Fractor.place_portal pt d c r n with
      | (.ok c2, _) =>
          ∃ p ∈ c.floor_spaces, c2 = c.set_architecture p (.ent ⟨pt, some d⟩)
      | (.error _, _) => True) := by
  constructor
  · intro r
    split
    · trivial
    · next m heq =>
      unfold runScenarioA Fractor.generate_map at heq
      dsimp only at heq
      split at heq
      · simp at heq
      · next c4 n1 hcomp =>
        split at heq
        · simp at heq
        · next mm hmap =>
          dsimp only at heq
          injection heq with heq2
          subst heq2
          obtain ⟨c1, k1, hgen, hrest⟩ := COp.comp_ok hcomp
          obtain ⟨c2, k2, hstuff, hrest2⟩ := COp.comp_ok hrest
          obtain ⟨c3, k3, hup, hdown⟩ := COp.comp_ok hrest2
          unfold Fractor.optionalPortal at hup hdown
          obtain ⟨g1ns, g1fr, g1rect⟩ := bpf_generate_inv hgen
            ⟨by decide, by decide⟩ (noStairs_init _) (floorInRect_init _)
          obtain ⟨a2, f2, r2⟩ := place_stuff_preserves hstuff
          have h2ns : NoStairs c2 := by
            intro p tl h
            rw [a2] at h
            exact g1ns p tl h
          have h2fr : FloorInRect c2 := by
            intro p hp
            rw [f2] at hp
            rw [r2, g1rect]
            have := g1fr p hp
            rwa [g1rect] at this
          obtain ⟨pu, hpuf, hc3⟩ := place_portal_ok hup
          obtain ⟨pdn, hpdf, hc4⟩ := place_portal_ok hdown
          rw [hc3] at hpdf
          rw [setArch_empty_mem_floor (by decide) hpuf] at hpdf
          have hpucont : c2.rect.contains pu := h2fr pu hpuf
          have hpdcont : c2.rect.contains pdn := h2fr pdn hpdf
          rw [hc4, hc3] at hmap
          obtain ⟨hd1, hd2⟩ := stairs_count h2ns hpucont hpdcont hmap
          exact ⟨hd1, hd2, rfl, rfl⟩
  · intro pt d c r n
    split
    · next c2 n2 heq => exact place_portal_ok heq
    · trivial

set_option maxHeartbeats 0 in
/-- C3 counterexample: with the all-zero random stream the scenario
completes successfully, but the map contains no StairsUp tile at all (and
one StairsDown tile): both portal draws pick the same walkable point
(stairs are walkable, so the point stays in the walkable set) and the
StairsDown placement overwrites the StairsUp portal, refuting "exactly one
StairsUp tile". -/
theorem C3_counterexample :
    (match (runScenarioA fun _ => 0).1 with
     | .ok m => m.countArch .stairsUp == 0 && m.countArch .stairsDown == 1
     | .error _ => false) = true := by
  with_unfolding_all rfl

/-! ## C6: the partition minimum-size guarantee -/

/-- C6: the claim (and the spec) promise that `maximally_partition` only
returns regions with both dimensions at least the configured minimum, the
split point being drawn so both children keep the minimum size.  The code
draws `random.randint(top, bottom + 1)`, whose upper bound is inclusive in
Python, so the draw `bottom + 1` leaves the far child one cell short of the
minimum.  At the 20 by 20 region with minimum size 5 by 5 and a first split
draw of `bottom + 1` (stream value 11 at cursor 0), the returned partition
contains a region of width 4 < 5.  The comment above the subtraction in
`partition_horizontal` ("to allow it on the border of the minimum size") and
the spec text show the minimum-size guarantee is the intent, so this is an
off-by-one bug in the code.  This theorem evaluates the code at the failing
input. -/
theorem C6_partition_minimum_size_bug :
    (match (BinaryPartitionFractor.maximally_partition ⟨5, 5⟩
        (Rect.ofOriginSize ⟨0, 0⟩ ⟨20, 20⟩) (fun n => if n = 0 then 11 else 0) 0).1 with
     | .ok regs => regs.any fun reg => decide (reg.width < 5)
     | .error _ => false) = true := by
  with_unfolding_all rfl


/-! ## Lemmas for the valley-flood connector (claim C1) -/

theorem adjacent_symm {p q : Point} (h : Adjacent p q) : Adjacent q p := by
  obtain ⟨px, py⟩ := p
  obtain ⟨qx, qy⟩ := q
  simp only [Adjacent, Point.neighbors, List.mem_cons, List.not_mem_nil, or_false,
    Point.mk.injEq] at h ⊢
  omega

theorem reach_mono {S S' : List Point} (hss : ∀ x ∈ S, x ∈ S') {p q : Point}
    (h : ReachableThrough S p q) : ReachableThrough S' p q := by
  induction h with
  | refl => exact Relation.ReflTransGen.refl
  | tail _ hstep ih => exact ih.tail ⟨hss _ hstep.1, hstep.2⟩

theorem reach_last_mem {S : List Point} {p q : Point}
    (h : ReachableThrough S p q) (hp : p ∈ S) : q ∈ S := by
  induction h with
  | refl => exact hp
  | tail _ hstep _ => exact hstep.1

theorem reach_symm {S : List Point} {p q : Point}
    (h : ReachableThrough S p q) (hp : p ∈ S) : ReachableThrough S q p := by
  induction h with
  | refl => exact Relation.ReflTransGen.refl
  | tail hab hstep ih =>
    exact Relation.ReflTransGen.head ⟨reach_last_mem hab hp, adjacent_symm hstep.2⟩ ih

theorem idxIn_append_cons {past rest : List Point} {p : Point} (hp : p ∉ past) :
    idxIn (past ++ p :: rest) p = past.length := by
  induction past with
  | nil => simp [idxIn]
  | cons a l ih =>
    have ha : a ≠ p := by rintro rfl; exact hp (List.mem_cons_self _ _)
    simp only [List.cons_append, idxIn, if_neg ha, List.length_cons]
    show idxIn (l ++ p :: rest) p + 1 = l.length + 1
    rw [ih fun h => hp (List.mem_cons_of_mem _ h)]

theorem idxIn_lt_of_mem_head {past rest : List Point} {q : Point} (hq : q ∈ past) :
    idxIn (past ++ rest) q < past.length := by
  induction past with
  | nil => cases hq
  | cons a l ih =>
    by_cases haq : a = q
    · simp [idxIn, haq]
    · rcases List.mem_cons.mp hq with h | h
      · exact absurd h.symm haq
      · simp only [List.cons_append, idxIn, if_neg haq, List.length_cons]
        exact Nat.succ_lt_succ (ih h)

theorem idxIn_lt_length {l : List Point} {p : Point} (hp : p ∈ l) :
    idxIn l p < l.length := by
  induction l with
  | nil => cases hp
  | cons a t ih =>
    by_cases hap : a = p
    · simp [idxIn, hap]
    · rcases List.mem_cons.mp hp with h | h
      · exact absurd h.symm hap
      · simp only [idxIn, if_neg hap, List.length_cons]
        exact Nat.succ_lt_succ (ih h)

theorem rankIn_mem {order : List Point} {p : Point} (hp : p ∈ order) :
    rankIn order p = idxIn order p + 1 := if_pos hp

theorem rankIn_absent {order : List Point} {p : Point} (hp : p ∉ order) :
    rankIn order p = 0 := if_neg hp

theorem rankIn_lt {past future : List Point} {p q : Point}
    (hnd : (past ++ p :: future).Nodup)
    (hq : q ∉ (past ++ p :: future) ∨ q ∈ past) :
    rankIn (past ++ p :: future) q < rankIn (past ++ p :: future) p := by
  have hpmem : p ∈ past ++ p :: future :=
    List.mem_append_right _ (List.mem_cons_self _ _)
  have hpnot : p ∉ past := by
    intro h
    exact (List.nodup_append.mp hnd).2.2 h (List.mem_cons_self _ _)
  rw [rankIn_mem hpmem, idxIn_append_cons hpnot]
  rcases hq with h | h
  · rw [rankIn_absent h]; omega
  · have hqmem : q ∈ past ++ p :: future := List.mem_append_left _ h
    rw [rankIn_mem hqmem]
    have := @idxIn_lt_of_mem_head past (p :: future) q h
    omega

theorem rankIn_le_length (order : List Point) (p : Point) :
    rankIn order p ≤ order.length := by
  unfold rankIn
  split
  · next h => exact idxIn_lt_length h
  · exact Nat.zero_le _

theorem insSorted_pairwise {le : α → α → Bool}
    (htot : ∀ a b, le a b = true ∨ le b a = true)
    (htrans : ∀ a b c, le a b = true → le b c = true → le a c = true)
    {l : List α} (hl : l.Pairwise fun a b => le a b = true) (a : α) :
    (insSorted le a l).Pairwise fun x y => le x y = true := by
  induction l with
  | nil => simp [insSorted]
  | cons b t ih =>
    rw [List.pairwise_cons] at hl
    unfold insSorted
    by_cases hba : le b a = true
    · rw [if_pos hba, List.pairwise_cons]
      refine ⟨?_, ih hl.2⟩
      intro x hx
      have hx' := (insSorted_perm le a t).mem_iff.mp hx
      rcases List.mem_cons.mp hx' with rfl | hx''
      · exact hba
      · exact hl.1 x hx''
    · rw [if_neg hba, List.pairwise_cons]
      have hab : le a b = true := (htot a b).resolve_right hba
      refine ⟨?_, List.pairwise_cons.mpr hl⟩
      intro x hx
      rcases List.mem_cons.mp hx with rfl | hx'
      · exact hab
      · exact htrans a b x hab (hl.1 x hx')

theorem stableSort_pairwise {le : α → α → Bool}
    (htot : ∀ a b, le a b = true ∨ le b a = true)
    (htrans : ∀ a b c, le a b = true → le b c = true → le a c = true)
    (l : List α) :
    (stableSort le l).Pairwise fun x y => le x y = true := by
  suffices h : ∀ acc, acc.Pairwise (fun x y => le x y = true) →
      (l.foldl (fun acc a => insSorted le a acc) acc).Pairwise
        fun x y => le x y = true by
    exact h [] List.Pairwise.nil
  induction l with
  | nil => intro acc hacc; exact hacc
  | cons a t ih =>
    intro acc hacc
    exact ih _ (insSorted_pairwise htot htrans hacc a)

theorem find?_eq_none_of_snd_not_mem {l : List (ℕ × Point)} {q : Point}
    (h : q ∉ l.map Prod.snd) : (l.find? fun e => e.2 == q) = none := by
  rw [List.find?_eq_none]
  intro e he
  simp only [beq_iff_eq]
  intro hq
  exact h (List.mem_map.mpr ⟨e, he, hq⟩)

theorem find?_snd_eq_self {l : List (ℕ × Point)} {e : ℕ × Point}
    (hnd : (l.map Prod.snd).Nodup) (he : e ∈ l) :
    (l.find? fun x => x.2 == e.2) = some e := by
  induction l with
  | nil => cases he
  | cons a t ih =>
    have hnd' : a.2 ∉ t.map Prod.snd ∧ (t.map Prod.snd).Nodup := by
      rw [List.map_cons] at hnd
      exact List.nodup_cons.mp hnd
    rcases List.mem_cons.mp he with rfl | he'
    · exact List.find?_cons_of_pos _ (by simp)
    · have ha : (a.2 == e.2) = false := by
        simp only [beq_eq_false_iff_ne, ne_eq]
        intro hq
        exact hnd'.1 (hq ▸ List.mem_map.mpr ⟨e, he', rfl⟩)
      rw [List.find?_cons, ha]
      exact ih hnd'.2 he'

theorem eq_of_dedup_length_one {l : List ℕ} (h : l.dedup.length = 1) :
    ∀ a ∈ l, ∀ b ∈ l, a = b := by
  intro a ha b hb
  obtain ⟨c, hc⟩ : ∃ c, l.dedup = [c] := List.length_eq_one.mp h
  have ha' := List.mem_dedup.mpr ha
  have hb' := List.mem_dedup.mpr hb
  rw [hc] at ha' hb'
  simp only [List.mem_singleton] at ha' hb'
  rw [ha', hb']

theorem pm_key_exists {pm : List (ℕ × ℕ)} {i : ℕ} (h : i ∈ pm.map Prod.fst) :
    ∃ t, (i, t) ∈ pm := by
  rcases List.mem_map.mp h with ⟨e, he, rfl⟩
  exact ⟨e.2, he⟩

theorem pmLookup_of_mem {pm : List (ℕ × ℕ)} (hnd : (pm.map Prod.fst).Nodup)
    {i t : ℕ} (h : (i, t) ∈ pm) : pmLookup pm i = t := by
  induction pm with
  | nil => cases h
  | cons a rest ih =>
    have hnd' : a.1 ∉ rest.map Prod.fst ∧ (rest.map Prod.fst).Nodup := by
      rw [List.map_cons] at hnd
      exact List.nodup_cons.mp hnd
    rcases List.mem_cons.mp h with rfl | h'
    · simp [pmLookup, List.find?_cons]
    · have ha : ((a.1 : ℕ) == i) = false := by
        simp only [beq_eq_false_iff_ne, ne_eq]
        rintro rfl
        exact hnd'.1 (List.mem_map.mpr ⟨(a.1, t), h', rfl⟩)
      have hstep : pmLookup (a :: rest) i = pmLookup rest i := by
        unfold pmLookup
        rw [List.find?_cons, ha]
      rw [hstep]
      exact ih hnd'.2 h'

theorem pmLookup_idem {pm : List (ℕ × ℕ)} (hnd : (pm.map Prod.fst).Nodup)
    (hvals : ∀ e ∈ pm, pmLookup pm e.2 = e.2) {i : ℕ}
    (hi : i ∈ pm.map Prod.fst) :
    pmLookup pm (pmLookup pm i) = pmLookup pm i := by
  rcases pm_key_exists hi with ⟨t, ht⟩
  rw [pmLookup_of_mem hnd ht]
  exact hvals _ ht

theorem pmLookup_mem_keys {pm : List (ℕ × ℕ)} (hnd : (pm.map Prod.fst).Nodup)
    (hvals : ∀ e ∈ pm, e.2 ∈ pm.map Prod.fst) {i : ℕ}
    (hi : i ∈ pm.map Prod.fst) :
    pmLookup pm i ∈ pm.map Prod.fst := by
  rcases pm_key_exists hi with ⟨t, ht⟩
  rw [pmLookup_of_mem hnd ht]
  exact hvals _ ht

theorem groupAdd_good {Q : ℕ → Point → Prop} {g : List (ℕ × List Point)}
    (hg : ∀ e ∈ g, e.2 ≠ [] ∧ ∀ x ∈ e.2, Q e.1 x) {k : ℕ} {q0 : Point}
    (hq : Q k q0) : ∀ e ∈ groupAdd g k q0, e.2 ≠ [] ∧ ∀ x ∈ e.2, Q e.1 x := by
  induction g with
  | nil =>
    intro e he
    simp only [groupAdd, List.mem_singleton] at he
    subst he
    refine ⟨by simp, ?_⟩
    intro x hx
    simp only [List.mem_singleton] at hx
    subst hx
    exact hq
  | cons a rest ih =>
    intro e he
    obtain ⟨k0, l⟩ := a
    unfold groupAdd at he
    by_cases hk : k0 = k
    · rw [if_pos hk] at he
      rcases List.mem_cons.mp he with rfl | he'
      · have ha := hg (k0, l) (List.mem_cons_self _ _)
        refine ⟨by simp, ?_⟩
        intro x hx
        rcases List.mem_append.mp hx with hx' | hx'
        · exact ha.2 x hx'
        · simp only [List.mem_singleton] at hx'
          subst hx'
          exact hk.symm ▸ hq
      · exact hg e (List.mem_cons_of_mem _ he')
    · rw [if_neg hk] at he
      rcases List.mem_cons.mp he with rfl | he'
      · exact hg (k0, l) (List.mem_cons_self _ _)
      · exact ih (fun e' he'' => hg e' (List.mem_cons_of_mem _ he'')) e he'

theorem groupAdd_keys {g : List (ℕ × List Point)} {k k' : ℕ} {q0 : Point} :
    k' ∈ (groupAdd g k q0).map Prod.fst ↔ k' ∈ g.map Prod.fst ∨ k' = k := by
  induction g with
  | nil => simp [groupAdd]
  | cons a rest ih =>
    obtain ⟨k0, l⟩ := a
    unfold groupAdd
    by_cases hk : k0 = k
    · rw [if_pos hk]
      subst hk
      simp only [List.map_cons, List.mem_cons]
      tauto
    · rw [if_neg hk]
      simp only [List.map_cons, List.mem_cons, ih]
      tauto

theorem adjacentPuddles_good {flooded : Point → Option ℕ} {pm : List (ℕ × ℕ)}
    {p : Point} :
    ∀ e ∈ adjacentPuddles flooded pm p, e.2 ≠ [] ∧ ∀ x ∈ e.2,
      x ∈ p.neighbors ∧ ∃ ix, flooded x = some ix ∧ pmLookup pm ix = e.1 := by
  unfold adjacentPuddles
  suffices h : ∀ (ns : List Point) (g : List (ℕ × List Point)),
      (∀ x ∈ ns, x ∈ p.neighbors) →
      (∀ e ∈ g, e.2 ≠ [] ∧ ∀ x ∈ e.2, x ∈ p.neighbors ∧
        ∃ ix, flooded x = some ix ∧ pmLookup pm ix = e.1) →
      ∀ e ∈ ns.foldl (fun g npt => match flooded npt with
          | none => g
          | some i => groupAdd g (pmLookup pm i) npt) g,
        e.2 ≠ [] ∧ ∀ x ∈ e.2, x ∈ p.neighbors ∧
          ∃ ix, flooded x = some ix ∧ pmLookup pm ix = e.1 by
    exact h p.neighbors [] (fun x hx => hx) (by simp)
  intro ns
  induction ns with
  | nil =>
    intro g hns hg
    exact hg
  | cons n rest ih =>
    intro g hns hg
    rcases hfl : flooded n with _ | i
    · rw [List.foldl_cons, hfl]
      exact ih g (fun x hx => hns x (List.mem_cons_of_mem _ hx)) hg
    · rw [List.foldl_cons, hfl]
      refine ih _ (fun x hx => hns x (List.mem_cons_of_mem _ hx)) ?_
      exact @groupAdd_good
        (fun k x => x ∈ p.neighbors ∧ ∃ ix, flooded x = some ix ∧ pmLookup pm ix = k)
        g hg (pmLookup pm i) n ⟨hns n (List.mem_cons_self _ _), i, hfl, rfl⟩

theorem adjacentPuddles_complete {flooded : Point → Option ℕ}
    {pm : List (ℕ × ℕ)} {p q : Point} (hq : q ∈ p.neighbors) {iq : ℕ}
    (hfl : flooded q = some iq) :
    pmLookup pm iq ∈ (adjacentPuddles flooded pm p).map Prod.fst := by
  unfold adjacentPuddles
  suffices h : ∀ (ns : List Point) (g : List (ℕ × List Point)),
      (q ∈ ns ∨ pmLookup pm iq ∈ g.map Prod.fst) →
      pmLookup pm iq ∈ ((ns.foldl (fun g npt => match flooded npt with
          | none => g
          | some i => groupAdd g (pmLookup pm i) npt) g).map Prod.fst) by
    exact h p.neighbors [] (Or.inl hq)
  intro ns
  induction ns with
  | nil =>
    intro g hg
    rcases hg with hg | hg
    · cases hg
    · exact hg
  | cons n rest ih =>
    intro g hg
    rcases hfl2 : flooded n with _ | i
    · rw [List.foldl_cons, hfl2]
      refine ih g ?_
      rcases hg with hg | hg
      · rcases List.mem_cons.mp hg with rfl | hg'
        · rw [hfl] at hfl2; cases hfl2
        · exact Or.inl hg'
      · exact Or.inr hg
    · rw [List.foldl_cons, hfl2]
      refine ih _ ?_
      rcases hg with hg | hg
      · rcases List.mem_cons.mp hg with rfl | hg'
        · rw [hfl] at hfl2
          injection hfl2 with hi
          exact Or.inr (groupAdd_keys.mpr (Or.inr (by rw [hi])))
        · exact Or.inl hg'
      · exact Or.inr (groupAdd_keys.mpr (Or.inl hg))

theorem minByDepthAux_mem (depth : Point → ℚ) (best : Point) (l : List Point) :
    minByDepthAux depth best l ∈ best :: l := by
  induction l generalizing best with
  | nil => simp [minByDepthAux]
  | cons q rest ih =>
    unfold minByDepthAux
    by_cases h : depth q < depth best
    · rw [if_pos h]
      exact List.mem_cons_of_mem _ (ih q)
    · rw [if_neg h]
      rcases List.mem_cons.mp (ih best) with h' | h'
      · rw [h']; exact List.mem_cons_self _ _
      · exact List.mem_cons_of_mem _ (List.mem_cons_of_mem _ h')

theorem minByDepthD_mem (depth : Point → ℚ) {l : List Point} (h : l ≠ []) :
    minByDepthD depth l ∈ l := by
  cases l with
  | nil => exact absurd rfl h
  | cons q rest => exact minByDepthAux_mem depth q rest

theorem minKeyAux_mem (best : ℕ) (l : List (ℕ × List Point)) :
    minKeyAux best l = best ∨ minKeyAux best l ∈ l.map Prod.fst := by
  induction l generalizing best with
  | nil => exact Or.inl rfl
  | cons a rest ih =>
    obtain ⟨k, pts⟩ := a
    unfold minKeyAux
    by_cases h : k < best
    · rw [if_pos h]
      rcases ih k with h' | h'
      · exact Or.inr (by rw [List.map_cons, h']; exact List.mem_cons_self _ _)
      · exact Or.inr (by rw [List.map_cons]; exact List.mem_cons_of_mem _ h')
    · rw [if_neg h]
      rcases ih best with h' | h'
      · exact Or.inl h'
      · exact Or.inr (by rw [List.map_cons]; exact List.mem_cons_of_mem _ h')

theorem chooseNext_eq (depth : Point → ℚ) (pm : List (ℕ × ℕ)) (target : ℕ)
    (cands : List (ℕ × Point)) :
    chooseNext depth pm target cands = cands.foldl (cnStep depth pm target) none :=
  rfl

theorem cnStep_some (depth : Point → ℚ) (pm : List (ℕ × ℕ)) (target : ℕ)
    (x : Point) (e : ℕ × Point) :
    ∃ y, cnStep depth pm target (some x) e = some y := by
  unfold cnStep
  split
  · exact ⟨e.2, rfl⟩
  · exact ⟨x, rfl⟩

theorem cn_foldl_some (depth : Point → ℚ) (pm : List (ℕ × ℕ)) (target : ℕ)
    (cands : List (ℕ × Point)) (x : Point) :
    ∃ y, cands.foldl (cnStep depth pm target) (some x) = some y := by
  induction cands generalizing x with
  | nil => exact ⟨x, rfl⟩
  | cons e rest ih =>
    rw [List.foldl_cons]
    rcases cnStep_some depth pm target x e with ⟨y, hy⟩
    rw [hy]
    exact ih y

theorem chooseNext_none {depth : Point → ℚ} {pm : List (ℕ × ℕ)} {target : ℕ}
    {cands : List (ℕ × Point)} (h : chooseNext depth pm target cands = none) :
    ∀ e ∈ cands, pmLookup pm e.1 ≠ target := by
  rw [chooseNext_eq] at h
  induction cands with
  | nil =>
    intro e he
    cases he
  | cons e rest ih =>
    rw [List.foldl_cons] at h
    by_cases hc : pmLookup pm e.1 = target
    · have hstep : cnStep depth pm target none e = some e.2 := by
        simp [cnStep, hc]
      rw [hstep] at h
      rcases cn_foldl_some depth pm target rest e.2 with ⟨y, hy⟩
      rw [hy] at h
      cases h
    · have hstep : cnStep depth pm target none e = none := by
        simp [cnStep, hc]
      rw [hstep] at h
      intro e' he'
      rcases List.mem_cons.mp he' with rfl | he''
      · exact hc
      · exact ih h e' he''

theorem cn_foldl_acc {depth : Point → ℚ} {pm : List (ℕ × ℕ)} {target : ℕ}
    (cands : List (ℕ × Point)) :
    ∀ acc q, cands.foldl (cnStep depth pm target) acc = some q →
      acc = some q ∨ ∃ e ∈ cands, e.2 = q ∧ pmLookup pm e.1 = target := by
  induction cands with
  | nil =>
    intro acc q h
    exact Or.inl h
  | cons e rest ih =>
    intro acc q h
    rw [List.foldl_cons] at h
    rcases ih _ q h with h' | ⟨e', he', hq, ht⟩
    · unfold cnStep at h'
      split at h'
      · next hcond =>
        injection h' with h''
        have ht : pmLookup pm e.1 = target := by
          have := (Bool.and_eq_true _ _).mp hcond
          simpa using this.1
        exact Or.inr ⟨e, List.mem_cons_self _ _, h'', ht⟩
      · exact Or.inl h'
    · exact Or.inr ⟨e', List.mem_cons_of_mem _ he', hq, ht⟩

theorem chooseNext_some {depth : Point → ℚ} {pm : List (ℕ × ℕ)} {target : ℕ}
    {cands : List (ℕ × Point)} {q : Point}
    (h : chooseNext depth pm target cands = some q) :
    ∃ e ∈ cands, e.2 = q ∧ pmLookup pm e.1 = target := by
  rw [chooseNext_eq] at h
  rcases cn_foldl_acc cands none q h with h' | h'
  · cases h'
  · exact h'

theorem chooseNext_isSome {depth : Point → ℚ} {pm : List (ℕ × ℕ)} {target : ℕ}
    {cands : List (ℕ × Point)} (h : ∃ e ∈ cands, pmLookup pm e.1 = target) :
    chooseNext depth pm target cands ≠ none := by
  intro hn
  rcases h with ⟨e, he, ht⟩
  exact chooseNext_none hn e he ht

theorem floodInit_eq (region goals : List Point) :
    floodInit region goals =
      goals.enum.foldl (floodSeed region) ⟨fun _ => none, [], fun _ => [], [], false⟩ :=
  rfl

theorem floodSeed_frame (region : List Point) (st : FloodState) (e : ℕ × Point) :
    (floodSeed region st e).pfp = st.pfp ∧ (floodSeed region st e).paths = st.paths ∧
    (floodSeed region st e).done = st.done := by
  unfold floodSeed
  split
  · exact ⟨rfl, rfl, rfl⟩
  · exact ⟨rfl, rfl, rfl⟩

theorem floodSeed_foldl_frame (region : List Point) (l : List (ℕ × Point))
    (st : FloodState) :
    (l.foldl (floodSeed region) st).pfp = st.pfp ∧
    (l.foldl (floodSeed region) st).paths = st.paths ∧
    (l.foldl (floodSeed region) st).done = st.done := by
  induction l generalizing st with
  | nil => exact ⟨rfl, rfl, rfl⟩
  | cons e t ih =>
    rw [List.foldl_cons]
    rcases ih (floodSeed region st e) with ⟨h1, h2, h3⟩
    rcases floodSeed_frame region st e with ⟨g1, g2, g3⟩
    exact ⟨h1.trans g1, h2.trans g2, h3.trans g3⟩

theorem floodSeed_foldl_pm (region : List Point) (l : List (ℕ × Point))
    (st : FloodState) :
    (l.foldl (floodSeed region) st).pm =
      st.pm ++ (l.filter fun e => decide (e.2 ∈ region)).map fun e => (e.1, e.1) := by
  induction l generalizing st with
  | nil => simp
  | cons e t ih =>
    rw [List.foldl_cons, ih]
    by_cases h : e.2 ∈ region
    · rw [List.filter_cons_of_pos (by simpa using h)]
      unfold floodSeed
      rw [if_pos h]
      simp
    · rw [List.filter_cons_of_neg (by simpa using h)]
      unfold floodSeed
      rw [if_neg h]

theorem floodSeed_foldl_flooded (region : List Point) (l : List (ℕ × Point))
    (hnd : (l.map Prod.snd).Nodup) (st : FloodState) (q : Point) :
    (l.foldl (floodSeed region) st).flooded q =
      match (l.filter fun e => decide (e.2 ∈ region)).find? (fun e => e.2 == q) with
      | some e => some e.1
      | none => st.flooded q := by
  induction l generalizing st with
  | nil => rfl
  | cons e t ih =>
    have hnd' : e.2 ∉ t.map Prod.snd ∧ (t.map Prod.snd).Nodup := by
      rw [List.map_cons] at hnd
      exact List.nodup_cons.mp hnd
    rw [List.foldl_cons, ih hnd'.2]
    by_cases h : e.2 ∈ region
    · rw [List.filter_cons_of_pos (by simpa using h)]
      by_cases hq : e.2 = q
      · subst hq
        rw [List.find?_cons_of_pos _ (by simp)]
        have hnone :
            ((t.filter fun x => decide (x.2 ∈ region)).find? fun x => x.2 == e.2) =
              none := by
          apply find?_eq_none_of_snd_not_mem
          intro hmem
          apply hnd'.1
          rcases List.mem_map.mp hmem with ⟨x, hx, hx2⟩
          exact List.mem_map.mpr ⟨x, List.mem_of_mem_filter hx, hx2⟩
        rw [hnone]
        unfold floodSeed
        rw [if_pos h]
        simp
      · have ha2 : ((e.2 == q) : Bool) = false := by
          simp only [beq_eq_false_iff_ne, ne_eq]
          exact hq
        rw [List.find?_cons, ha2]
        cases hfind : (t.filter fun x => decide (x.2 ∈ region)).find? fun x => x.2 == q with
        | none =>
          simp only [hfind, cond_false]
          unfold floodSeed
          rw [if_pos h]
          show (if q = e.2 then some e.1 else st.flooded q) = st.flooded q
          rw [if_neg fun hh => hq hh.symm]
        | some e2 =>
          simp only [hfind, cond_false]
    · rw [List.filter_cons_of_neg (by simpa using h)]
      unfold floodSeed
      rw [if_neg h]

theorem mem_goalsIn {region goals : List Point} {p : Point} :
    p ∈ goalsIn region goals ↔ p ∈ goals ∧ p ∈ region := by
  simp [goalsIn, List.mem_filter]

theorem initIds_nodup (region goals : List Point) : (initIds region goals).Nodup := by
  have hsub : ((goals.enum.filter fun e => decide (e.2 ∈ region)).map Prod.fst).Sublist
      (goals.enum.map Prod.fst) := (List.filter_sublist _).map _
  rw [List.enum_map_fst] at hsub
  exact List.Nodup.sublist hsub (List.nodup_range _)

theorem enum_snd_mem {goals : List Point} {e : ℕ × Point} (he : e ∈ goals.enum) :
    e.2 ∈ goals := by
  have h : e.2 ∈ goals.enum.map Prod.snd := List.mem_map.mpr ⟨e, he, rfl⟩
  rwa [List.enum_map_snd] at h

theorem mem_enum_of_mem {goals : List Point} {q : Point} (hq : q ∈ goals) :
    ∃ e ∈ goals.enum, e.2 = q := by
  have h : q ∈ goals.enum.map Prod.snd := by rw [List.enum_map_snd]; exact hq
  exact List.mem_map.mp h

theorem enum_snd_nodup {goals : List Point} (hnd : goals.Nodup) :
    (goals.enum.map Prod.snd).Nodup := by
  rw [List.enum_map_snd]
  exact hnd

theorem enum_filter_snd_nodup {region goals : List Point} (hnd : goals.Nodup) :
    ((goals.enum.filter fun e => decide (e.2 ∈ region)).map Prod.snd).Nodup := by
  have hsub : ((goals.enum.filter fun e => decide (e.2 ∈ region)).map Prod.snd).Sublist
      (goals.enum.map Prod.snd) := (List.filter_sublist _).map _
  rw [List.enum_map_snd] at hsub
  exact List.Nodup.sublist hsub hnd

theorem floodInit_pm (region goals : List Point) :
    (floodInit region goals).pm =
      (goals.enum.filter fun e => decide (e.2 ∈ region)).map fun e => (e.1, e.1) := by
  rw [floodInit_eq, floodSeed_foldl_pm]
  rfl

theorem floodInit_pm_keys (region goals : List Point) :
    (floodInit region goals).pm.map Prod.fst = initIds region goals := by
  rw [floodInit_pm, List.map_map]
  rfl

theorem floodInit_pm_vals (region goals : List Point) {e : ℕ × ℕ}
    (he : e ∈ (floodInit region goals).pm) :
    e.2 = e.1 ∧ e.1 ∈ initIds region goals := by
  rw [floodInit_pm] at he
  rcases List.mem_map.mp he with ⟨x, hx, rfl⟩
  exact ⟨rfl, List.mem_map.mpr ⟨x, hx, rfl⟩⟩

theorem floodInit_flooded (region goals : List Point) (hnd : goals.Nodup) (q : Point) :
    (floodInit region goals).flooded q =
      match (goals.enum.filter fun e => decide (e.2 ∈ region)).find?
          (fun e => e.2 == q) with
      | some e => some e.1
      | none => none := by
  rw [floodInit_eq, floodSeed_foldl_flooded _ _ (enum_snd_nodup hnd)]

theorem floodInit_isSome (region goals : List Point) (hnd : goals.Nodup) (q : Point) :
    ((floodInit region goals).flooded q).isSome = true ↔
      q ∈ goalsIn region goals := by
  rw [floodInit_flooded region goals hnd]
  constructor
  · intro h
    cases hfind : (goals.enum.filter fun e => decide (e.2 ∈ region)).find?
        fun e => e.2 == q with
    | none => simp [hfind] at h
    | some e =>
      have he := List.find?_some hfind
      have hmem := List.mem_of_find?_eq_some hfind
      simp only [beq_iff_eq] at he
      have h1 := List.mem_filter.mp hmem
      rw [mem_goalsIn]
      subst he
      exact ⟨enum_snd_mem h1.1, by simpa using h1.2⟩
  · intro h
    rw [mem_goalsIn] at h
    rcases mem_enum_of_mem h.1 with ⟨e, he, rfl⟩
    have hfind : (goals.enum.filter fun x => decide (x.2 ∈ region)).find?
        (fun x => x.2 == e.2) = some e := by
      apply find?_snd_eq_self (enum_filter_snd_nodup hnd)
      exact List.mem_filter.mpr ⟨he, by simpa using h.2⟩
    rw [hfind]
    rfl

theorem floodInit_some (region goals : List Point) (hnd : goals.Nodup) {q : Point}
    {i : ℕ} (h : (floodInit region goals).flooded q = some i) :
    (i, q) ∈ goals.enum ∧ q ∈ region ∧ i ∈ initIds region goals := by
  rw [floodInit_flooded region goals hnd] at h
  cases hfind : (goals.enum.filter fun e => decide (e.2 ∈ region)).find?
      fun e => e.2 == q with
  | none => simp [hfind] at h
  | some e =>
    simp only [hfind] at h
    injection h with h1
    have he := List.find?_some hfind
    have hmem := List.mem_of_find?_eq_some hfind
    simp only [beq_iff_eq] at he
    have h2 := List.mem_filter.mp hmem
    subst h1
    subst he
    exact ⟨h2.1, by simpa using h2.2, List.mem_map.mpr ⟨e, hmem, rfl⟩⟩

theorem floodInit_goal_id (region goals : List Point) (hnd : goals.Nodup) {i : ℕ}
    (hi : i ∈ initIds region goals) :
    ∃ g ∈ goalsIn region goals, (floodInit region goals).flooded g = some i := by
  rcases List.mem_map.mp hi with ⟨e, he, rfl⟩
  refine ⟨e.2, ?_, ?_⟩
  · have h2 := List.mem_filter.mp he
    exact mem_goalsIn.mpr ⟨enum_snd_mem h2.1, by simpa using h2.2⟩
  · rw [floodInit_flooded region goals hnd,
      find?_snd_eq_self (enum_filter_snd_nodup hnd) he]

theorem floodOrder_nodup (region goals : List Point) (depth : Point → ℚ) :
    (floodOrder region goals depth).Nodup := by
  unfold floodOrder
  exact (stableSort_perm _ _).nodup_iff.mpr ((List.nodup_dedup region).filter _)

theorem mem_floodOrder {region goals : List Point} {depth : Point → ℚ} {p : Point} :
    p ∈ floodOrder region goals depth ↔
      p ∈ region ∧ ((floodInit region goals).flooded p).isNone = true := by
  unfold floodOrder
  rw [mem_stableSort, List.mem_filter, List.mem_dedup]

theorem floodOrder_subset {region goals : List Point} {depth : Point → ℚ} {p : Point}
    (h : p ∈ floodOrder region goals depth) : p ∈ region :=
  (mem_floodOrder.mp h).1

theorem floodOrder_not_goal {region goals : List Point} {depth : Point → ℚ}
    (hnd : goals.Nodup) {p : Point} (h : p ∈ floodOrder region goals depth) :
    p ∉ goalsIn region goals := by
  intro hg
  have h1 := (mem_floodOrder.mp h).2
  have h2 := (floodInit_isSome region goals hnd p).mpr hg
  rw [Option.isNone_iff_eq_none] at h1
  rw [h1] at h2
  cases h2

theorem floodOrder_length_lt (region goals : List Point) (depth : Point → ℚ) :
    (floodOrder region goals depth).length < region.length + goals.length + 1 := by
  have h1 : (floodOrder region goals depth).length =
      ((region.dedup).filter fun p =>
        ((floodInit region goals).flooded p).isNone).length :=
    (stableSort_perm _ _).length_eq
  have h2 := List.length_filter_le
    (fun p => ((floodInit region goals).flooded p).isNone) region.dedup
  have h3 := (List.dedup_sublist region).length_le
  omega

theorem floodOrder_sorted (region goals : List Point) (depth : Point → ℚ) :
    (floodOrder region goals depth).Pairwise
      fun a b => decide (depth a ≤ depth b) = true := by
  unfold floodOrder
  apply stableSort_pairwise
  · intro a b
    rcases le_total (depth a) (depth b) with h | h
    · exact Or.inl (by simpa using h)
    · exact Or.inr (by simpa using h)
  · intro a b c hab hbc
    simp only [decide_eq_true_eq] at hab hbc ⊢
    exact hab.trans hbc

theorem floodOrder_earlier {region goals : List Point} {depth : Point → ℚ}
    {past future : List Point} {p q : Point}
    (hsplit : floodOrder region goals depth = past ++ p :: future)
    (hq : q ∈ floodOrder region goals depth) (hlt : depth q < depth p) :
    q ∈ past := by
  have hsort := floodOrder_sorted region goals depth
  rw [hsplit] at hsort hq
  rcases List.mem_append.mp hq with h | h
  · exact h
  · rcases List.mem_cons.mp h with rfl | h'
    · exact absurd hlt (lt_irrefl _)
    · exfalso
      have hpair := (List.pairwise_append.mp hsort).2
      have hpq := (List.pairwise_cons.mp hpair.1).1 q h'
      simp only [decide_eq_true_eq] at hpq
      exact absurd hlt (not_lt.mpr hpq)

theorem walkBack_spec (depth : Point → ℚ) (pm : List (ℕ × ℕ))
    (pfp : Point → List (ℕ × Point)) (flooded : Point → Option ℕ)
    (gset region : List Point) (μ : Point → ℕ) (target : ℕ)
    (Hpfp : ∀ p e, e ∈ pfp p → e.2 ∈ p.neighbors ∧
      (∃ iq, flooded e.2 = some iq ∧ pmLookup pm iq = pmLookup pm e.1) ∧
      μ e.2 < μ p)
    (Hown : ∀ p i, flooded p = some i → p ∉ gset →
      ∃ e ∈ pfp p, pmLookup pm e.1 = pmLookup pm i)
    (Hreg : ∀ p, (flooded p).isSome → p ∈ region) :
    ∀ fuel pt paths, μ pt < fuel → pt ∈ region →
    ((∃ e ∈ pfp pt, pmLookup pm e.1 = target) ∨
      (pt ∈ gset ∧ ∃ i, flooded pt = some i ∧ pmLookup pm i = target)) →
    (∀ x ∈ paths, x ∈ region) →
    (∀ x ∈ walkBack depth pm pfp target fuel pt paths, x ∈ region) ∧
    (∀ x ∈ paths, x ∈ walkBack depth pm pfp target fuel pt paths) ∧
    pt ∈ walkBack depth pm pfp target fuel pt paths ∧
    ∃ g i, g ∈ gset ∧ flooded g = some i ∧ pmLookup pm i = target ∧
      ReachableThrough (walkBack depth pm pfp target fuel pt paths) pt g := by
  intro fuel
  induction fuel with
  | zero =>
    intro pt paths hμ _ _ _
    exact absurd hμ (Nat.not_lt_zero _)
  | succ fuel ih =>
    intro pt paths hμ hptreg hstart hpaths
    cases hcn : chooseNext depth pm target (pfp pt) with
    | none =>
      have hw : walkBack depth pm pfp target (fuel + 1) pt paths = setAdd pt paths := by
        simp only [walkBack, hcn]
      rw [hw]
      have hpt : pt ∈ gset ∧ ∃ i, flooded pt = some i ∧ pmLookup pm i = target := by
        rcases hstart with ⟨e, he, ht⟩ | h
        · exact absurd ht (chooseNext_none hcn e he)
        · exact h
      obtain ⟨hptg, i, hfl, hcls⟩ := hpt
      refine ⟨?_, ?_, ?_, pt, i, hptg, hfl, hcls, Relation.ReflTransGen.refl⟩
      · intro x hx
        rcases mem_setAdd.mp hx with rfl | hx'
        · exact hptreg
        · exact hpaths x hx'
      · intro x hx
        exact mem_setAdd.mpr (Or.inr hx)
      · exact mem_setAdd.mpr (Or.inl rfl)
    | some q =>
      have hw : walkBack depth pm pfp target (fuel + 1) pt paths =
          walkBack depth pm pfp target fuel q (setAdd pt paths) := by
        simp only [walkBack, hcn]
      rcases chooseNext_some hcn with ⟨e, he, heq, ht⟩
      rcases Hpfp pt e he with ⟨hnb, ⟨iq, hiq, hiqt⟩, hμq⟩
      subst heq
      have hclsq : pmLookup pm iq = target := by rw [hiqt, ht]
      have hqreg : e.2 ∈ region := Hreg _ (by rw [hiq]; rfl)
      have hstart2 : (∃ e2 ∈ pfp e.2, pmLookup pm e2.1 = target) ∨
          (e.2 ∈ gset ∧ ∃ i, flooded e.2 = some i ∧ pmLookup pm i = target) := by
        by_cases hg : e.2 ∈ gset
        · exact Or.inr ⟨hg, iq, hiq, hclsq⟩
        · rcases Hown e.2 iq hiq hg with ⟨e2, he2, ht2⟩
          exact Or.inl ⟨e2, he2, by rw [ht2, hclsq]⟩
      have hpaths2 : ∀ x ∈ setAdd pt paths, x ∈ region := by
        intro x hx
        rcases mem_setAdd.mp hx with rfl | hx'
        · exact hptreg
        · exact hpaths x hx'
      rcases ih e.2 (setAdd pt paths) (by omega) hqreg hstart2 hpaths2 with
        ⟨hreg2, hmono2, hqmem2, g, i, hg1, hg2, hg3, hreach⟩
      rw [hw]
      refine ⟨hreg2, ?_, ?_, g, i, hg1, hg2, hg3, ?_⟩
      · intro x hx
        exact hmono2 x (mem_setAdd.mpr (Or.inr hx))
      · exact hmono2 pt (mem_setAdd.mpr (Or.inl rfl))
      · exact Relation.ReflTransGen.head ⟨hqmem2, hnb⟩ hreach

theorem floodProcess_done {depth : Point → ℚ} {wf : ℕ} {st : FloodState}
    {point : Point} (h : st.done = true) : floodProcess depth wf st point = st := by
  simp [floodProcess, h]

theorem floodProcess_skip {depth : Point → ℚ} {wf : ℕ} {st : FloodState}
    {point : Point} (h1 : st.done = false)
    (h2 : adjacentPuddles st.flooded st.pm point = []) :
    floodProcess depth wf st point = st := by
  simp [floodProcess, h1, h2]

theorem floodProcess_single {depth : Point → ℚ} {wf : ℕ} {st : FloodState}
    {point : Point} {k0 : ℕ} {g0 : List Point} (h1 : st.done = false)
    (hadj : adjacentPuddles st.flooded st.pm point = [(k0, g0)]) :
    floodProcess depth wf st point = floodSingle depth st point k0 g0 [] := by
  simp [floodProcess, h1, hadj, floodSingle]

theorem floodProcess_junction {depth : Point → ℚ} {wf : ℕ} {st : FloodState}
    {point : Point} {k0 : ℕ} {g0 : List Point} {r0 : ℕ × List Point}
    {restAdj2 : List (ℕ × List Point)} (h1 : st.done = false)
    (hadj : adjacentPuddles st.flooded st.pm point = (k0, g0) :: r0 :: restAdj2) :
    floodProcess depth wf st point =
      floodJunction depth wf st point ((k0, g0) :: r0 :: restAdj2)
        (minKeyAux k0 (r0 :: restAdj2)) := by
  have hlen : ((k0, g0) :: r0 :: restAdj2).length > 1 := by
    simp only [List.length_cons]
    omega
  unfold floodProcess
  simp only [hadj]
  simp [h1, hlen, floodJunction]

theorem floodProcess_cases (depth : Point → ℚ) (wf : ℕ) (st : FloodState)
    (point : Point) :
    ((st.done = true ∨ adjacentPuddles st.flooded st.pm point = []) ∧
      floodProcess depth wf st point = st) ∨
    ∃ k0 g0 restAdj,
      adjacentPuddles st.flooded st.pm point = (k0, g0) :: restAdj ∧
      st.done = false ∧
      ((floodProcess depth wf st point = floodSingle depth st point k0 g0 [] ∧
          restAdj = []) ∨
        (floodProcess depth wf st point =
          floodJunction depth wf st point ((k0, g0) :: restAdj)
            (minKeyAux k0 restAdj) ∧ restAdj ≠ [])) := by
  by_cases h1 : st.done = true
  · exact Or.inl ⟨Or.inl h1, floodProcess_done h1⟩
  · have h2 : st.done = false := by
      revert h1
      cases st.done <;> simp
    cases hadj : adjacentPuddles st.flooded st.pm point with
    | nil => exact Or.inl ⟨Or.inr rfl, floodProcess_skip h2 hadj⟩
    | cons a restAdj =>
      obtain ⟨k0, g0⟩ := a
      cases restAdj with
      | nil =>
        exact Or.inr ⟨k0, g0, [], rfl, h2,
          Or.inl ⟨floodProcess_single h2 hadj, rfl⟩⟩
      | cons r0 restAdj2 =>
        exact Or.inr ⟨k0, g0, r0 :: restAdj2, rfl, h2,
          Or.inr ⟨floodProcess_junction h2 hadj, by simp⟩⟩

theorem floodSingle_flooded (depth : Point → ℚ) (st : FloodState) (point : Point)
    (k0 : ℕ) (g0 : List Point) (restAdj : List (ℕ × List Point)) :
    (floodSingle depth st point k0 g0 restAdj).flooded =
      fun q => if q = point then some (minKeyAux k0 restAdj) else st.flooded q := rfl

theorem floodSingle_pm (depth : Point → ℚ) (st : FloodState) (point : Point)
    (k0 : ℕ) (g0 : List Point) (restAdj : List (ℕ × List Point)) :
    (floodSingle depth st point k0 g0 restAdj).pm = st.pm := rfl

theorem floodSingle_pfp (depth : Point → ℚ) (st : FloodState) (point : Point)
    (k0 : ℕ) (g0 : List Point) (restAdj : List (ℕ × List Point)) :
    (floodSingle depth st point k0 g0 restAdj).pfp =
      fun q => if q = point then
        ((k0, g0) :: restAdj).map fun g => (g.1, minByDepthD depth g.2)
      else st.pfp q := rfl

theorem floodSingle_paths (depth : Point → ℚ) (st : FloodState) (point : Point)
    (k0 : ℕ) (g0 : List Point) (restAdj : List (ℕ × List Point)) :
    (floodSingle depth st point k0 g0 restAdj).paths = st.paths := rfl

theorem floodSingle_done (depth : Point → ℚ) (st : FloodState) (point : Point)
    (k0 : ℕ) (g0 : List Point) (restAdj : List (ℕ × List Point)) :
    (floodSingle depth st point k0 g0 restAdj).done = st.done := rfl

theorem floodJunction_flooded (depth : Point → ℚ) (wf : ℕ) (st : FloodState)
    (point : Point) (adj : List (ℕ × List Point)) (tp : ℕ) :
    (floodJunction depth wf st point adj tp).flooded =
      fun q => if q = point then some tp else st.flooded q := rfl

theorem floodJunction_pm (depth : Point → ℚ) (wf : ℕ) (st : FloodState)
    (point : Point) (adj : List (ℕ × List Point)) (tp : ℕ) :
    (floodJunction depth wf st point adj tp).pm =
      st.pm.map fun e =>
        if ((adj.map Prod.fst).contains e.1 ||
            (adj.map Prod.fst).contains e.2) then (e.1, tp)
        else e := rfl

theorem floodJunction_pfp (depth : Point → ℚ) (wf : ℕ) (st : FloodState)
    (point : Point) (adj : List (ℕ × List Point)) (tp : ℕ) :
    (floodJunction depth wf st point adj tp).pfp =
      fun q => if q = point then
        adj.map fun g => (g.1, minByDepthD depth g.2)
      else st.pfp q := rfl

theorem floodJunction_paths (depth : Point → ℚ) (wf : ℕ) (st : FloodState)
    (point : Point) (adj : List (ℕ × List Point)) (tp : ℕ) :
    (floodJunction depth wf st point adj tp).paths =
      adj.foldl
        (fun ps g => walkBack depth st.pm
          (floodJunction depth wf st point adj tp).pfp g.1 wf point ps)
        st.paths := rfl

theorem floodJunction_done (depth : Point → ℚ) (wf : ℕ) (st : FloodState)
    (point : Point) (adj : List (ℕ × List Point)) (tp : ℕ) :
    (floodJunction depth wf st point adj tp).done =
      (((floodJunction depth wf st point adj tp).pm.map Prod.snd).dedup.length
        == 1) := rfl

theorem pm2_keys (pm : List (ℕ × ℕ)) (c : ℕ × ℕ → Bool) (v : ℕ) :
    ((pm.map fun e => if c e then (e.1, v) else e).map Prod.fst) =
      pm.map Prod.fst := by
  rw [List.map_map]
  apply List.map_eq_map_iff.mpr
  intro e he
  by_cases h : c e
  · simp [Function.comp, h]
  · simp [Function.comp, h]

theorem pmLookup_coarsen {pm : List (ℕ × ℕ)} (hnd : (pm.map Prod.fst).Nodup)
    {adjKeys : List ℕ} (hadjk : ∀ k ∈ adjKeys, pmLookup pm k = k)
    (v : ℕ) {i : ℕ} (hi : i ∈ pm.map Prod.fst) :
    pmLookup (pm.map fun e =>
      if adjKeys.contains e.1 || adjKeys.contains e.2 then (e.1, v) else e) i =
    if pmLookup pm i ∈ adjKeys then v else pmLookup pm i := by
  rcases pm_key_exists hi with ⟨t, ht⟩
  have hti : pmLookup pm i = t := pmLookup_of_mem hnd ht
  have hnd2 : ((pm.map fun e =>
      if adjKeys.contains e.1 || adjKeys.contains e.2 then (e.1, v) else e).map
      Prod.fst).Nodup := by
    rw [pm2_keys]
    exact hnd
  by_cases hc : t ∈ adjKeys
  · have hcond : (adjKeys.contains (i, t).1 || adjKeys.contains (i, t).2) = true := by
      simp only [Bool.or_eq_true]
      exact Or.inr (List.elem_iff.mpr hc)
    have hmem2 : (i, v) ∈ pm.map fun e =>
        if adjKeys.contains e.1 || adjKeys.contains e.2 then (e.1, v) else e := by
      refine List.mem_map.mpr ⟨(i, t), ht, ?_⟩
      rw [if_pos hcond]
    rw [pmLookup_of_mem hnd2 hmem2, hti, if_pos hc]
  · have hic : i ∉ adjKeys := by
      intro hik
      have hii : pmLookup pm i = i := hadjk i hik
      rw [hti] at hii
      exact hc (hii ▸ hik)
    have h1 : adjKeys.contains i = false := by
      rw [Bool.eq_false_iff]
      intro hcontra
      exact hic (List.elem_iff.mp hcontra)
    have h2 : adjKeys.contains t = false := by
      rw [Bool.eq_false_iff]
      intro hcontra
      exact hc (List.elem_iff.mp hcontra)
    have hcond : (adjKeys.contains (i, t).1 || adjKeys.contains (i, t).2) = false := by
      show (adjKeys.contains i || adjKeys.contains t) = false
      rw [h1, h2]
      rfl
    have hmem2 : (i, t) ∈ pm.map fun e =>
        if adjKeys.contains e.1 || adjKeys.contains e.2 then (e.1, v) else e := by
      refine List.mem_map.mpr ⟨(i, t), ht, ?_⟩
      rw [if_neg fun hcontra => Bool.false_ne_true (hcond ▸ hcontra)]
    rw [pmLookup_of_mem hnd2 hmem2, hti, if_neg hc]

theorem pm_done_classes {pm2 : List (ℕ × ℕ)} (hnd2 : (pm2.map Prod.fst).Nodup)
    (hdone : (pm2.map Prod.snd).dedup.length = 1) {i j : ℕ}
    (hi : i ∈ pm2.map Prod.fst) (hj : j ∈ pm2.map Prod.fst) :
    pmLookup pm2 i = pmLookup pm2 j := by
  rcases pm_key_exists hi with ⟨ti, hti⟩
  rcases pm_key_exists hj with ⟨tj, htj⟩
  rw [pmLookup_of_mem hnd2 hti, pmLookup_of_mem hnd2 htj]
  exact eq_of_dedup_length_one hdone ti (List.mem_map.mpr ⟨(i, ti), hti, rfl⟩)
    tj (List.mem_map.mpr ⟨(j, tj), htj, rfl⟩)

theorem floodProcess_flooded_mono {depth : Point → ℚ} {wf : ℕ} {st : FloodState}
    {point p : Point} (h : (st.flooded p).isSome = true) :
    ((floodProcess depth wf st point).flooded p).isSome = true := by
  rcases floodProcess_cases depth wf st point with ⟨_, heq⟩ |
    ⟨k0, g0, restAdj, hadj, hdone, hcase⟩
  · rw [heq]; exact h
  · rcases hcase with ⟨heq, _⟩ | ⟨heq, _⟩
    · rw [heq, floodSingle_flooded]
      dsimp only
      split
      · rfl
      · exact h
    · rw [heq, floodJunction_flooded]
      dsimp only
      split
      · rfl
      · exact h

theorem floodProcess_done_mono {depth : Point → ℚ} {wf : ℕ} {st : FloodState}
    {point : Point} (h : st.done = true) :
    (floodProcess depth wf st point).done = true := by
  rw [floodProcess_done h]
  exact h

theorem floodFold_done_mono (depth : Point → ℚ) (wf : ℕ) :
    ∀ (l : List Point) (st : FloodState), st.done = true →
      (l.foldl (floodProcess depth wf) st).done = true := by
  intro l
  induction l with
  | nil =>
    intro st h
    exact h
  | cons p t ih =>
    intro st h
    rw [List.foldl_cons]
    exact ih _ (floodProcess_done_mono h)

theorem floodFold_flooded_mono (depth : Point → ℚ) (wf : ℕ) :
    ∀ (l : List Point) (st : FloodState) (p : Point), (st.flooded p).isSome = true →
      ((l.foldl (floodProcess depth wf) st).flooded p).isSome = true := by
  intro l
  induction l with
  | nil =>
    intro st p h
    exact h
  | cons q t ih =>
    intro st p h
    rw [List.foldl_cons]
    exact ih _ _ (floodProcess_flooded_mono h)

theorem floodProcess_floods {depth : Point → ℚ} {wf : ℕ} {st : FloodState}
    {point : Point} (hdone : st.done = false)
    (hadj : adjacentPuddles st.flooded st.pm point ≠ []) :
    ((floodProcess depth wf st point).flooded point).isSome = true := by
  rcases floodProcess_cases depth wf st point with ⟨hskip, _⟩ |
    ⟨k0, g0, restAdj, hadj2, hdone2, hcase⟩
  · rcases hskip with h | h
    · rw [hdone] at h; cases h
    · exact absurd h hadj
  · rcases hcase with ⟨heq, _⟩ | ⟨heq, _⟩
    · rw [heq, floodSingle_flooded]
      dsimp only
      rw [if_pos rfl]
      rfl
    · rw [heq, floodJunction_flooded]
      dsimp only
      rw [if_pos rfl]
      rfl

theorem floodInit_pfp (region goals : List Point) :
    (floodInit region goals).pfp = fun _ => [] := by
  rw [floodInit_eq]
  exact (floodSeed_foldl_frame region _ _).1

theorem floodInit_paths (region goals : List Point) :
    (floodInit region goals).paths = [] := by
  rw [floodInit_eq]
  exact (floodSeed_foldl_frame region _ _).2.1

theorem floodInit_done (region goals : List Point) :
    (floodInit region goals).done = false := by
  rw [floodInit_eq]
  exact (floodSeed_foldl_frame region _ _).2.2

theorem mem_eq_of_fst_nodup {l : List (ℕ × Point)} (hnd : (l.map Prod.fst).Nodup)
    {e1 e2 : ℕ × Point} (h1 : e1 ∈ l) (h2 : e2 ∈ l) (h : e1.1 = e2.1) : e1 = e2 := by
  induction l with
  | nil => cases h1
  | cons a t ih =>
    have hnd' : a.1 ∉ t.map Prod.fst ∧ (t.map Prod.fst).Nodup := by
      rw [List.map_cons] at hnd
      exact List.nodup_cons.mp hnd
    rcases List.mem_cons.mp h1 with rfl | h1'
    · rcases List.mem_cons.mp h2 with rfl | h2'
      · rfl
      · exact absurd (h.symm ▸ List.mem_map.mpr ⟨e2, h2', rfl⟩) hnd'.1
    · rcases List.mem_cons.mp h2 with rfl | h2'
      · exact absurd (h ▸ List.mem_map.mpr ⟨e1, h1', rfl⟩) hnd'.1
      · exact ih hnd'.2 h1' h2'

theorem floodInv_mono {region goals : List Point} {depth : Point → ℚ}
    {past past2 : List Point} {st : FloodState}
    (h : FloodInv region goals depth past st)
    (hsub : ∀ p ∈ past, p ∈ past2) : FloodInv region goals depth past2 st := by
  refine ⟨h.pmKeys, h.pmVals, h.fldReg, h.fldGoal, h.fldIds, ?_, h.pfpGood, h.pfpOwn,
    h.pfpSeed, h.idRep, h.conn, h.adjCls, h.pathsReg, h.doneCls⟩
  intro p hp
  rcases h.fldPast p hp with h' | h'
  · exact Or.inl h'
  · exact Or.inr (hsub _ h')

theorem floodInv_init (region goals : List Point) (depth : Point → ℚ)
    (hgnd : goals.Nodup) :
    FloodInv region goals depth [] (floodInit region goals) := by
  have hkeys := floodInit_pm_keys region goals
  have hnd : ((floodInit region goals).pm.map Prod.fst).Nodup := by
    rw [hkeys]
    exact initIds_nodup region goals
  have hpfp := floodInit_pfp region goals
  have hpaths := floodInit_paths region goals
  have hdone := floodInit_done region goals
  refine ⟨hkeys, ?_, ?_, ?_, ?_, ?_, ?_, ?_, ?_, ?_, ?_, ?_, ?_, ?_⟩
  · intro e he
    obtain ⟨a, b⟩ := e
    have hv := floodInit_pm_vals region goals he
    dsimp only at hv
    rcases hv with ⟨hba, hain⟩
    subst hba
    exact ⟨hain, pmLookup_of_mem hnd he⟩
  · intro p hp
    rcases Option.isSome_iff_exists.mp hp with ⟨i, hi⟩
    exact (floodInit_some region goals hgnd hi).2.1
  · intro g hg
    rfl
  · intro p i h
    exact (floodInit_some region goals hgnd h).2.2
  · intro p hp
    exact Or.inl ((floodInit_isSome region goals hgnd p).mp hp)
  · intro p e he
    simp only [hpfp] at he
    cases he
  · intro p i h hnotg
    exact absurd ((floodInit_isSome region goals hgnd p).mp (by rw [h]; rfl)) hnotg
  · intro g hg
    rw [hpfp]
  · intro i hi
    exact floodInit_goal_id region goals hgnd hi
  · intro g1 hg1 g2 hg2 i1 i2 hf1 hf2 hpml
    have h1 := floodInit_some region goals hgnd hf1
    have h2 := floodInit_some region goals hgnd hf2
    have hpm1 : (i1, i1) ∈ (floodInit region goals).pm := by
      rw [floodInit_pm]
      rcases List.mem_map.mp h1.2.2 with ⟨e, he, he1⟩
      exact List.mem_map.mpr ⟨e, he, by rw [he1]⟩
    have hpm2 : (i2, i2) ∈ (floodInit region goals).pm := by
      rw [floodInit_pm]
      rcases List.mem_map.mp h2.2.2 with ⟨e, he, he1⟩
      exact List.mem_map.mpr ⟨e, he, by rw [he1]⟩
    have hi12 : i1 = i2 := by
      rw [pmLookup_of_mem hnd hpm1, pmLookup_of_mem hnd hpm2] at hpml
      exact hpml
    subst hi12
    have hfstnd : (goals.enum.map Prod.fst).Nodup := by
      rw [List.enum_map_fst]
      exact List.nodup_range _
    have heq : (i1, g1) = (i1, g2) := mem_eq_of_fst_nodup hfstnd h1.1 h2.1 rfl
    have hg12 : g1 = g2 := by injection heq
    subst hg12
    exact Relation.ReflTransGen.refl
  · intro p q ip iq hip hiq hadj
    exact Or.inl ⟨(floodInit_isSome region goals hgnd p).mp (by rw [hip]; rfl),
      (floodInit_isSome region goals hgnd q).mp (by rw [hiq]; rfl)⟩
  · intro x hx
    rw [hpaths] at hx
    cases hx
  · intro h
    rw [hdone] at h
    cases h

theorem adjKey_facts {region goals : List Point} {depth : Point → ℚ}
    {past : List Point} {st : FloodState}
    (hin : FloodInv region goals depth past st) {point : Point}
    {k : ℕ} {pts : List Point}
    (hmem : (k, pts) ∈ adjacentPuddles st.flooded st.pm point) :
    k ∈ initIds region goals ∧ pmLookup st.pm k = k := by
  have hkeysnd : (st.pm.map Prod.fst).Nodup := by
    rw [hin.pmKeys]
    exact initIds_nodup region goals
  rcases adjacentPuddles_good (k, pts) hmem with ⟨hne, hall⟩
  cases pts with
  | nil => exact absurd rfl hne
  | cons m rest =>
    rcases hall m (List.mem_cons_self _ _) with ⟨_, iq, hiq, hpml0⟩
    have hpml : pmLookup st.pm iq = k := hpml0
    have hiqkeys : iq ∈ st.pm.map Prod.fst := by
      rw [hin.pmKeys]
      exact hin.fldIds _ _ hiq
    have hkin : k ∈ st.pm.map Prod.fst := by
      rw [← hpml]
      refine pmLookup_mem_keys hkeysnd ?_ hiqkeys
      intro e he
      rw [hin.pmKeys]
      exact (hin.pmVals e he).1
    have hidem := pmLookup_idem hkeysnd (fun e he => (hin.pmVals e he).2) hiqkeys
    rw [hpml] at hidem
    constructor
    · rw [← hin.pmKeys]
      exact hkin
    · exact hidem

theorem floodProcess_inv_single {region goals : List Point} {depth : Point → ℚ}
    (hgnd : goals.Nodup) {past future : List Point} {point : Point}
    (hsplit : floodOrder region goals depth = past ++ point :: future)
    {st : FloodState} (hin : FloodInv region goals depth past st)
    {k0 : ℕ} {g0 : List Point}
    (hadj : adjacentPuddles st.flooded st.pm point = [(k0, g0)]) :
    FloodInv region goals depth (past ++ [point])
      (floodSingle depth st point k0 g0 []) := by
  have horder : point ∈ floodOrder region goals depth := by
    rw [hsplit]
    exact List.mem_append_right _ (List.mem_cons_self _ _)
  have hptreg : point ∈ region := floodOrder_subset horder
  have hptng : point ∉ goalsIn region goals := floodOrder_not_goal hgnd horder
  have hordernd := floodOrder_nodup region goals depth
  have hptnotpast : point ∉ past := by
    intro h
    rw [hsplit] at hordernd
    exact (List.nodup_append.mp hordernd).2.2 h (List.mem_cons_self _ _)
  have hptunfl : st.flooded point = none := by
    cases hfl : st.flooded point with
    | none => rfl
    | some i =>
      rcases hin.fldPast point (by rw [hfl]; rfl) with h | h
      · exact absurd h hptng
      · exact absurd h hptnotpast
  have hrank : ∀ q, (st.flooded q).isSome = true →
      rankIn (floodOrder region goals depth) q <
      rankIn (floodOrder region goals depth) point := by
    intro q hq
    have hordernd2 := floodOrder_nodup region goals depth
    rw [hsplit] at hordernd2
    rw [hsplit]
    refine rankIn_lt hordernd2 ?_
    rcases hin.fldPast q hq with h | h
    · left
      intro hmem
      have hqo : q ∈ floodOrder region goals depth := by
        rw [hsplit]
        exact hmem
      exact floodOrder_not_goal hgnd hqo h
    · right
      exact h
  have hmemadj : (k0, g0) ∈ adjacentPuddles st.flooded st.pm point := by
    rw [hadj]
    exact List.mem_cons_self _ _
  have hkey := adjKey_facts hin hmemadj
  rcases adjacentPuddles_good (k0, g0) hmemadj with ⟨hg0ne, hg0all⟩
  have hfl2 : ∀ q, (floodSingle depth st point k0 g0 []).flooded q =
      if q = point then some k0 else st.flooded q := fun q => rfl
  have hpfp2 : ∀ q, (floodSingle depth st point k0 g0 []).pfp q =
      if q = point then [(k0, minByDepthD depth g0)] else st.pfp q := fun q => rfl
  have hpm2 : (floodSingle depth st point k0 g0 []).pm = st.pm := rfl
  have hpaths2 : (floodSingle depth st point k0 g0 []).paths = st.paths := rfl
  have hdone2 : (floodSingle depth st point k0 g0 []).done = st.done := rfl
  refine ⟨?_, ?_, ?_, ?_, ?_, ?_, ?_, ?_, ?_, ?_, ?_, ?_, ?_, ?_⟩
  · rw [hpm2]
    exact hin.pmKeys
  · rw [hpm2]
    exact hin.pmVals
  · intro p hp
    rw [hfl2 p] at hp
    by_cases h : p = point
    · subst h
      exact hptreg
    · rw [if_neg h] at hp
      exact hin.fldReg p hp
  · intro g hg
    rw [hfl2 g, if_neg (fun hh : g = point => hptng (hh ▸ hg))]
    exact hin.fldGoal g hg
  · intro p i h
    rw [hfl2 p] at h
    by_cases hp : p = point
    · rw [if_pos hp] at h
      injection h with h2
      rw [← h2]
      exact hkey.1
    · rw [if_neg hp] at h
      exact hin.fldIds p i h
  · intro p hp
    rw [hfl2 p] at hp
    by_cases h : p = point
    · exact Or.inr (List.mem_append.mpr (Or.inr (by rw [h]; exact List.mem_cons_self _ _)))
    · rw [if_neg h] at hp
      rcases hin.fldPast p hp with h' | h'
      · exact Or.inl h'
      · exact Or.inr (List.mem_append.mpr (Or.inl h'))
  · intro p e he
    rw [hpfp2 p] at he
    by_cases hp : p = point
    · rw [if_pos hp] at he
      simp only [List.mem_singleton] at he
      subst he
      rw [hp]
      have hm : minByDepthD depth g0 ∈ g0 := minByDepthD_mem depth hg0ne
      rcases hg0all _ hm with ⟨hmn, iq, hiq, hpml0⟩
      have hpml : pmLookup st.pm iq = k0 := hpml0
      have hmq : minByDepthD depth g0 ≠ point := by
        intro hh
        rw [hh, hptunfl] at hiq
        cases hiq
      refine ⟨hmn, hkey.1, ⟨iq, ?_, ?_⟩, ?_⟩
      · rw [hfl2 _, if_neg hmq]
        exact hiq
      · rw [hpm2]
        show pmLookup st.pm iq = pmLookup st.pm k0
        rw [hpml, hkey.2]
      · exact hrank _ (by rw [hiq]; rfl)
    · rw [if_neg hp] at he
      rcases hin.pfpGood p e he with ⟨ha, hb, ⟨iq, hiq, hc⟩, hd⟩
      have hne2 : e.2 ≠ point := by
        intro hh
        rw [hh, hptunfl] at hiq
        cases hiq
      refine ⟨ha, hb, ⟨iq, ?_, ?_⟩, hd⟩
      · rw [hfl2 _, if_neg hne2]
        exact hiq
      · rw [hpm2]
        exact hc
  · intro p i h hng
    rw [hfl2 p] at h
    by_cases hp : p = point
    · rw [if_pos hp] at h
      injection h with h2
      refine ⟨(k0, minByDepthD depth g0), ?_, ?_⟩
      · rw [hpfp2 p, if_pos hp]
        exact List.mem_cons_self _ _
      · rw [hpm2]
        show pmLookup st.pm k0 = pmLookup st.pm i
        rw [h2]
    · rw [if_neg hp] at h
      rcases hin.pfpOwn p i h hng with ⟨e, he, hpml⟩
      refine ⟨e, ?_, ?_⟩
      · rw [hpfp2 p, if_neg hp]
        exact he
      · rw [hpm2]
        exact hpml
  · intro g hg
    rw [hpfp2 g, if_neg (fun hh : g = point => hptng (hh ▸ hg))]
    exact hin.pfpSeed g hg
  · intro i hi
    rcases hin.idRep i hi with ⟨g, hgIn, hflg⟩
    refine ⟨g, hgIn, ?_⟩
    rw [hfl2 g, if_neg (fun hh : g = point => hptng (hh ▸ hgIn))]
    exact hflg
  · intro g1 hg1 g2 hg2 i1 i2 hf1 hf2 hpml
    rw [hfl2 g1, if_neg (fun hh : g1 = point => hptng (hh ▸ hg1))] at hf1
    rw [hfl2 g2, if_neg (fun hh : g2 = point => hptng (hh ▸ hg2))] at hf2
    rw [hpm2] at hpml
    rw [hpaths2]
    exact hin.conn g1 hg1 g2 hg2 i1 i2 hf1 hf2 hpml
  · intro p q ip iq hip hiq hadjpq
    rw [hfl2 p] at hip
    rw [hfl2 q] at hiq
    rw [hpm2]
    by_cases hp : p = point
    · by_cases hq : q = point
      · rw [if_pos hp] at hip
        rw [if_pos hq] at hiq
        injection hip with hip2
        injection hiq with hiq2
        rw [← hip2, ← hiq2]
        exact Or.inr rfl
      · rw [if_pos hp] at hip
        rw [if_neg hq] at hiq
        injection hip with hip2
        have hadjpq2 : Adjacent point q := hp ▸ hadjpq
        have hcomp := @adjacentPuddles_complete st.flooded st.pm point q hadjpq2 iq hiq
        rw [hadj] at hcomp
        simp only [List.map_cons, List.map_nil, List.mem_singleton] at hcomp
        refine Or.inr ?_
        rw [← hip2, hkey.2, hcomp]
    · by_cases hq : q = point
      · rw [if_neg hp] at hip
        rw [if_pos hq] at hiq
        injection hiq with hiq2
        have hadjpq2 : Adjacent point p := hq ▸ adjacent_symm hadjpq
        have hcomp := @adjacentPuddles_complete st.flooded st.pm point p hadjpq2 ip hip
        rw [hadj] at hcomp
        simp only [List.map_cons, List.map_nil, List.mem_singleton] at hcomp
        refine Or.inr ?_
        rw [← hiq2, hkey.2, hcomp]
      · rw [if_neg hp] at hip
        rw [if_neg hq] at hiq
        exact hin.adjCls p q ip iq hip hiq hadjpq
  · intro x hx
    rw [hpaths2] at hx
    exact hin.pathsReg x hx
  · rw [hdone2, hpm2]
    exact hin.doneCls

theorem walk_foldl_spec (depth : Point → ℚ) (pm : List (ℕ × ℕ))
    (pfp : Point → List (ℕ × Point)) (flooded : Point → Option ℕ)
    (gset region : List Point) (μ : Point → ℕ) (wf : ℕ) (point : Point)
    (Hpfp : ∀ p e, e ∈ pfp p → e.2 ∈ p.neighbors ∧
      (∃ iq, flooded e.2 = some iq ∧ pmLookup pm iq = pmLookup pm e.1) ∧
      μ e.2 < μ p)
    (Hown : ∀ p i, flooded p = some i → p ∉ gset →
      ∃ e ∈ pfp p, pmLookup pm e.1 = pmLookup pm i)
    (Hreg : ∀ p, (flooded p).isSome → p ∈ region)
    (hμ : μ point < wf) (hptreg : point ∈ region) :
    ∀ (adj : List (ℕ × List Point)) (paths0 : List Point),
    (∀ g ∈ adj, ∃ e ∈ pfp point, pmLookup pm e.1 = g.1) →
    (∀ x ∈ paths0, x ∈ region) →
    (∀ x ∈ paths0,
      x ∈ adj.foldl (fun ps g => walkBack depth pm pfp g.1 wf point ps) paths0) ∧
    (∀ x ∈ adj.foldl (fun ps g => walkBack depth pm pfp g.1 wf point ps) paths0,
      x ∈ region) ∧
    (adj ≠ [] →
      point ∈ adj.foldl (fun ps g => walkBack depth pm pfp g.1 wf point ps) paths0) ∧
    ∀ g ∈ adj, ∃ gg i, gg ∈ gset ∧ flooded gg = some i ∧ pmLookup pm i = g.1 ∧
      gg ∈ adj.foldl (fun ps g => walkBack depth pm pfp g.1 wf point ps) paths0 ∧
      ReachableThrough
        (adj.foldl (fun ps g => walkBack depth pm pfp g.1 wf point ps) paths0)
        point gg := by
  intro adj
  induction adj with
  | nil =>
    intro paths0 hstart hpreg
    refine ⟨fun x hx => hx, hpreg, fun h => absurd rfl h, ?_⟩
    intro g hg
    cases hg
  | cons a rest ih =>
    intro paths0 hstart hpreg
    rw [List.foldl_cons]
    rcases walkBack_spec depth pm pfp flooded gset region μ a.1 Hpfp Hown Hreg
        wf point paths0 hμ hptreg
        (Or.inl (hstart a (List.mem_cons_self _ _))) hpreg with
      ⟨hreg1, hmono1, hpt1, gg, i, hgg1, hgg2, hgg3, hreach1⟩
    have hggmem1 : gg ∈ walkBack depth pm pfp a.1 wf point paths0 :=
      reach_last_mem hreach1 hpt1
    rcases ih (walkBack depth pm pfp a.1 wf point paths0)
        (fun g hg => hstart g (List.mem_cons_of_mem _ hg)) hreg1 with
      ⟨hmono2, hreg2, hpt2, hrest⟩
    refine ⟨?_, hreg2, ?_, ?_⟩
    · intro x hx
      exact hmono2 x (hmono1 x hx)
    · intro _
      exact hmono2 point hpt1
    · intro g hg
      rcases List.mem_cons.mp hg with rfl | hg2
      · exact ⟨gg, i, hgg1, hgg2, hgg3, hmono2 _ hggmem1, reach_mono hmono2 hreach1⟩
      · exact hrest g hg2

theorem floodProcess_inv_junction {region goals : List Point} {depth : Point → ℚ}
    (hgnd : goals.Nodup) {past future : List Point} {point : Point}
    (hsplit : floodOrder region goals depth = past ++ point :: future)
    {st : FloodState} (hin : FloodInv region goals depth past st)
    {adjL : List (ℕ × List Point)} {tp : ℕ} {wf : ℕ}
    (hadj : adjacentPuddles st.flooded st.pm point = adjL)
    (htp : tp ∈ adjL.map Prod.fst)
    (hwf : rankIn (floodOrder region goals depth) point < wf) :
    FloodInv region goals depth (past ++ [point])
      (floodJunction depth wf st point adjL tp) := by
  have horder : point ∈ floodOrder region goals depth := by
    rw [hsplit]
    exact List.mem_append_right _ (List.mem_cons_self _ _)
  have hptreg : point ∈ region := floodOrder_subset horder
  have hptng : point ∉ goalsIn region goals := floodOrder_not_goal hgnd horder
  have hptnotpast : point ∉ past := by
    have hordernd := floodOrder_nodup region goals depth
    rw [hsplit] at hordernd
    intro h
    exact (List.nodup_append.mp hordernd).2.2 h (List.mem_cons_self _ _)
  have hptunfl : st.flooded point = none := by
    cases hfl : st.flooded point with
    | none => rfl
    | some i =>
      rcases hin.fldPast point (by rw [hfl]; rfl) with h | h
      · exact absurd h hptng
      · exact absurd h hptnotpast
  have hkeysnd : (st.pm.map Prod.fst).Nodup := by
    rw [hin.pmKeys]
    exact initIds_nodup region goals
  have hrank : ∀ q, (st.flooded q).isSome = true →
      rankIn (floodOrder region goals depth) q <
      rankIn (floodOrder region goals depth) point := by
    intro q hq
    have hordernd2 := floodOrder_nodup region goals depth
    rw [hsplit] at hordernd2
    rw [hsplit]
    refine rankIn_lt hordernd2 ?_
    rcases hin.fldPast q hq with h | h
    · left
      intro hmem
      have hqo : q ∈ floodOrder region goals depth := by
        rw [hsplit]
        exact hmem
      exact floodOrder_not_goal hgnd hqo h
    · right
      exact h
  have hadjgood : ∀ e ∈ adjL, e.2 ≠ [] ∧ ∀ x ∈ e.2, x ∈ point.neighbors ∧
      ∃ ix, st.flooded x = some ix ∧ pmLookup st.pm ix = e.1 := by
    intro e he
    exact adjacentPuddles_good e (by rw [hadj]; exact he)
  have hadjkeys : ∀ k ∈ adjL.map Prod.fst,
      k ∈ initIds region goals ∧ pmLookup st.pm k = k := by
    intro k hk
    rcases List.mem_map.mp hk with ⟨g, hg, hg1⟩
    refine adjKey_facts hin
      (show (k, g.2) ∈ adjacentPuddles st.flooded st.pm point from ?_)
    rw [hadj]
    rw [show ((k, g.2) : ℕ × List Point) = g by rw [← hg1]]
    exact hg
  have htpkey := hadjkeys tp htp
  have hkeyiff : ∀ i, i ∈ initIds region goals ↔ i ∈ st.pm.map Prod.fst := by
    intro i
    rw [hin.pmKeys]
  have hkeys2 : (floodJunction depth wf st point adjL tp).pm.map Prod.fst =
      st.pm.map Prod.fst := by
    rw [floodJunction_pm]
    exact @pm2_keys st.pm
      (fun e => ((adjL.map Prod.fst).contains e.1 ||
        (adjL.map Prod.fst).contains e.2)) tp
  have hcoarsen : ∀ i, i ∈ st.pm.map Prod.fst →
      pmLookup (floodJunction depth wf st point adjL tp).pm i =
        if pmLookup st.pm i ∈ adjL.map Prod.fst then tp
        else pmLookup st.pm i := by
    intro i hi
    rw [floodJunction_pm]
    exact pmLookup_coarsen hkeysnd (fun k hk => (hadjkeys k hk).2) _ hi
  have hcoarseq : ∀ i j, i ∈ st.pm.map Prod.fst → j ∈ st.pm.map Prod.fst →
      pmLookup st.pm i = pmLookup st.pm j →
      pmLookup (floodJunction depth wf st point adjL tp).pm i =
      pmLookup (floodJunction depth wf st point adjL tp).pm j := by
    intro i j hi hj h
    rw [hcoarsen i hi, hcoarsen j hj, h]
  have hpmltp : pmLookup (floodJunction depth wf st point adjL tp).pm tp = tp := by
    rw [hcoarsen tp ((hkeyiff tp).mp htpkey.1), htpkey.2, if_pos htp]
  have hfl2 : ∀ q, (floodJunction depth wf st point adjL tp).flooded q =
      if q = point then some tp else st.flooded q := fun q => rfl
  have hpfp2 : ∀ q, (floodJunction depth wf st point adjL tp).pfp q =
      if q = point then adjL.map (fun g => (g.1, minByDepthD depth g.2))
      else st.pfp q := fun q => rfl
  have Hpfp : ∀ p e, e ∈ (floodJunction depth wf st point adjL tp).pfp p →
      e.2 ∈ p.neighbors ∧
      (∃ iq, st.flooded e.2 = some iq ∧
        pmLookup st.pm iq = pmLookup st.pm e.1) ∧
      rankIn (floodOrder region goals depth) e.2 <
        rankIn (floodOrder region goals depth) p := by
    intro p e he
    rw [hpfp2 p] at he
    by_cases hp : p = point
    · rw [if_pos hp] at he
      rcases List.mem_map.mp he with ⟨g, hg, hge⟩
      rcases hadjgood g hg with ⟨hne, hall⟩
      have hm : minByDepthD depth g.2 ∈ g.2 := minByDepthD_mem depth hne
      rcases hall _ hm with ⟨hmn, iq, hiq, hpml⟩
      have hkg := hadjkeys g.1 (List.mem_map.mpr ⟨g, hg, rfl⟩)
      subst hge
      rw [hp]
      refine ⟨hmn, ⟨iq, hiq, ?_⟩, ?_⟩
      · show pmLookup st.pm iq = pmLookup st.pm g.1
        rw [hpml, hkg.2]
      · show rankIn (floodOrder region goals depth) (minByDepthD depth g.2) <
          rankIn (floodOrder region goals depth) point
        exact hrank _ (by rw [hiq]; rfl)
    · rw [if_neg hp] at he
      rcases hin.pfpGood p e he with ⟨ha, _, hc, hd⟩
      exact ⟨ha, hc, hd⟩
  have Hown : ∀ p i, st.flooded p = some i → p ∉ goalsIn region goals →
      ∃ e ∈ (floodJunction depth wf st point adjL tp).pfp p,
        pmLookup st.pm e.1 = pmLookup st.pm i := by
    intro p i h hng
    have hpne : p ≠ point := by
      intro hh
      rw [hh, hptunfl] at h
      cases h
    rcases hin.pfpOwn p i h hng with ⟨e, he, hpml⟩
    exact ⟨e, by rw [hpfp2 p, if_neg hpne]; exact he, hpml⟩
  have hstartw : ∀ g ∈ adjL,
      ∃ e ∈ (floodJunction depth wf st point adjL tp).pfp point,
        pmLookup st.pm e.1 = g.1 := by
    intro g hg
    refine ⟨(g.1, minByDepthD depth g.2), ?_, ?_⟩
    · rw [hpfp2 point, if_pos rfl]
      exact List.mem_map.mpr ⟨g, hg, rfl⟩
    · exact (hadjkeys g.1 (List.mem_map.mpr ⟨g, hg, rfl⟩)).2
  rcases walk_foldl_spec depth st.pm (floodJunction depth wf st point adjL tp).pfp
      st.flooded (goalsIn region goals) region
      (rankIn (floodOrder region goals depth)) wf point Hpfp Hown hin.fldReg
      hwf hptreg adjL st.paths hstartw hin.pathsReg with
    ⟨Wmono, Wreg, Wpt, Wwalk⟩
  have hadjne : adjL ≠ [] := by
    intro hh
    rw [hh] at htp
    cases htp
  have hpaths2 : (floodJunction depth wf st point adjL tp).paths =
      adjL.foldl (fun ps g => walkBack depth st.pm
        (floodJunction depth wf st point adjL tp).pfp g.1 wf point ps) st.paths :=
    floodJunction_paths depth wf st point adjL tp
  refine ⟨?_, ?_, ?_, ?_, ?_, ?_, ?_, ?_, ?_, ?_, ?_, ?_, ?_, ?_⟩
  · exact hkeys2.trans hin.pmKeys
  · intro e he
    rw [floodJunction_pm] at he
    rcases List.mem_map.mp he with ⟨x, hx, hxe⟩
    by_cases hcx : (((adjL.map Prod.fst).contains x.1 ||
        (adjL.map Prod.fst).contains x.2) = true)
    · rw [if_pos hcx] at hxe
      subst hxe
      refine ⟨htpkey.1, ?_⟩
      show pmLookup (floodJunction depth wf st point adjL tp).pm tp = tp
      exact hpmltp
    · rw [if_neg hcx] at hxe
      subst hxe
      rcases hin.pmVals x hx with ⟨h1, h2⟩
      have hx2 : x.2 ∉ adjL.map Prod.fst := by
        intro hmem
        apply hcx
        rw [Bool.or_eq_true]
        right
        exact List.elem_iff.mpr hmem
      refine ⟨h1, ?_⟩
      show pmLookup (floodJunction depth wf st point adjL tp).pm x.2 = x.2
      rw [hcoarsen x.2 ((hkeyiff x.2).mp h1), h2, if_neg hx2]
  · intro p hp
    rw [hfl2 p] at hp
    by_cases h : p = point
    · subst h
      exact hptreg
    · rw [if_neg h] at hp
      exact hin.fldReg p hp
  · intro g hg
    rw [hfl2 g, if_neg (fun hh : g = point => hptng (hh ▸ hg))]
    exact hin.fldGoal g hg
  · intro p i h
    rw [hfl2 p] at h
    by_cases hp : p = point
    · rw [if_pos hp] at h
      injection h with h2
      rw [← h2]
      exact htpkey.1
    · rw [if_neg hp] at h
      exact hin.fldIds p i h
  · intro p hp
    rw [hfl2 p] at hp
    by_cases h : p = point
    · exact Or.inr (List.mem_append.mpr
        (Or.inr (by rw [h]; exact List.mem_cons_self _ _)))
    · rw [if_neg h] at hp
      rcases hin.fldPast p hp with h2 | h2
      · exact Or.inl h2
      · exact Or.inr (List.mem_append.mpr (Or.inl h2))
  · intro p e he
    rcases Hpfp p e he with ⟨ha, ⟨iq, hiq, hc⟩, hd⟩
    have he1keys : e.1 ∈ initIds region goals := by
      rw [hpfp2 p] at he
      by_cases hp : p = point
      · rw [if_pos hp] at he
        rcases List.mem_map.mp he with ⟨g, hg, hge⟩
        subst hge
        exact (hadjkeys g.1 (List.mem_map.mpr ⟨g, hg, rfl⟩)).1
      · rw [if_neg hp] at he
        exact (hin.pfpGood p e he).2.1
    have hne2 : e.2 ≠ point := by
      intro hh
      rw [hh, hptunfl] at hiq
      cases hiq
    refine ⟨ha, he1keys, ⟨iq, ?_, ?_⟩, hd⟩
    · rw [hfl2 e.2, if_neg hne2]
      exact hiq
    · exact hcoarseq iq e.1 ((hkeyiff iq).mp (hin.fldIds _ _ hiq))
        ((hkeyiff e.1).mp he1keys) hc
  · intro p i h hng
    rw [hfl2 p] at h
    by_cases hp : p = point
    · rw [if_pos hp] at h
      injection h with h2
      rcases List.mem_map.mp htp with ⟨g, hg, hg1⟩
      refine ⟨(g.1, minByDepthD depth g.2), ?_, ?_⟩
      · rw [hpfp2 p, if_pos hp]
        exact List.mem_map.mpr ⟨g, hg, rfl⟩
      · show pmLookup (floodJunction depth wf st point adjL tp).pm g.1 =
          pmLookup (floodJunction depth wf st point adjL tp).pm i
        rw [hg1, h2]
    · rw [if_neg hp] at h
      rcases hin.pfpOwn p i h hng with ⟨e, he, hpml⟩
      refine ⟨e, ?_, ?_⟩
      · rw [hpfp2 p, if_neg hp]
        exact he
      · exact hcoarseq e.1 i ((hkeyiff e.1).mp (hin.pfpGood p e he).2.1)
          ((hkeyiff i).mp (hin.fldIds p i h)) hpml
  · intro g hg
    rw [hpfp2 g, if_neg (fun hh : g = point => hptng (hh ▸ hg))]
    exact hin.pfpSeed g hg
  · intro i hi
    rcases hin.idRep i hi with ⟨g, hgIn, hflg⟩
    refine ⟨g, hgIn, ?_⟩
    rw [hfl2 g, if_neg (fun hh : g = point => hptng (hh ▸ hgIn))]
    exact hflg
  · intro g1 hg1 g2 hg2 i1 i2 hf1 hf2 hpml12
    rw [hfl2 g1, if_neg (fun hh : g1 = point => hptng (hh ▸ hg1))] at hf1
    rw [hfl2 g2, if_neg (fun hh : g2 = point => hptng (hh ▸ hg2))] at hf2
    have hi1k := (hkeyiff i1).mp (hin.fldIds _ _ hf1)
    have hi2k := (hkeyiff i2).mp (hin.fldIds _ _ hf2)
    rw [hcoarsen i1 hi1k, hcoarsen i2 hi2k] at hpml12
    have hsub : ∀ x ∈ st.paths ++ goals,
        x ∈ (floodJunction depth wf st point adjL tp).paths ++ goals := by
      intro x hx
      rcases List.mem_append.mp hx with hx2 | hx2
      · refine List.mem_append.mpr (Or.inl ?_)
        rw [hpaths2]
        exact Wmono x hx2
      · exact List.mem_append.mpr (Or.inr hx2)
    have hpaen : ∀ x ∈ adjL.foldl (fun ps g => walkBack depth st.pm
        (floodJunction depth wf st point adjL tp).pfp g.1 wf point ps) st.paths,
        x ∈ (floodJunction depth wf st point adjL tp).paths ++ goals := by
      intro x hx
      refine List.mem_append.mpr (Or.inl ?_)
      rw [hpaths2]
      exact hx
    by_cases ha1 : pmLookup st.pm i1 ∈ adjL.map Prod.fst
    · by_cases ha2 : pmLookup st.pm i2 ∈ adjL.map Prod.fst
      · rcases List.mem_map.mp ha1 with ⟨ga, hga, hga1⟩
        rcases List.mem_map.mp ha2 with ⟨gb, hgb, hgb1⟩
        rcases Wwalk ga hga with ⟨gga, ia, hgga, hfa, hpa, hma, hra⟩
        rcases Wwalk gb hgb with ⟨ggb, ib, hggb, hfb, hpb, hmb, hrb⟩
        have h1a : ReachableThrough
            ((floodJunction depth wf st point adjL tp).paths ++ goals) g1 gga := by
          refine reach_mono hsub (hin.conn g1 hg1 gga hgga i1 ia hf1 hfa ?_)
          rw [hpa, hga1]
        have h2a : ReachableThrough
            ((floodJunction depth wf st point adjL tp).paths ++ goals) gga point :=
          reach_mono hpaen (reach_symm hra (Wpt hadjne))
        have h3a : ReachableThrough
            ((floodJunction depth wf st point adjL tp).paths ++ goals) point ggb :=
          reach_mono hpaen hrb
        have h4a : ReachableThrough
            ((floodJunction depth wf st point adjL tp).paths ++ goals) ggb g2 := by
          refine reach_mono hsub (hin.conn ggb hggb g2 hg2 ib i2 hfb hf2 ?_)
          rw [hpb, hgb1]
        exact ((h1a.trans h2a).trans h3a).trans h4a
      · rw [if_pos ha1, if_neg ha2] at hpml12
        exact absurd (hpml12 ▸ htp) ha2
    · by_cases ha2 : pmLookup st.pm i2 ∈ adjL.map Prod.fst
      · rw [if_neg ha1, if_pos ha2] at hpml12
        exact absurd (hpml12.symm ▸ htp) ha1
      · rw [if_neg ha1, if_neg ha2] at hpml12
        exact reach_mono hsub (hin.conn g1 hg1 g2 hg2 i1 i2 hf1 hf2 hpml12)
  · intro p q ip iq hip hiq hadjpq
    rw [hfl2 p] at hip
    rw [hfl2 q] at hiq
    by_cases hp : p = point
    · by_cases hq : q = point
      · rw [if_pos hp] at hip
        rw [if_pos hq] at hiq
        injection hip with hip2
        injection hiq with hiq2
        rw [← hip2, ← hiq2]
        exact Or.inr rfl
      · rw [if_pos hp] at hip
        rw [if_neg hq] at hiq
        injection hip with hip2
        have hadjpq2 : Adjacent point q := hp ▸ hadjpq
        have hcomp := @adjacentPuddles_complete st.flooded st.pm point q hadjpq2 iq hiq
        rw [hadj] at hcomp
        refine Or.inr ?_
        rw [← hip2, hpmltp, hcoarsen iq ((hkeyiff iq).mp (hin.fldIds _ _ hiq)),
          if_pos hcomp]
    · by_cases hq : q = point
      · rw [if_neg hp] at hip
        rw [if_pos hq] at hiq
        injection hiq with hiq2
        have hadjpq2 : Adjacent point p := hq ▸ adjacent_symm hadjpq
        have hcomp := @adjacentPuddles_complete st.flooded st.pm point p hadjpq2 ip hip
        rw [hadj] at hcomp
        refine Or.inr ?_
        rw [← hiq2, hpmltp, hcoarsen ip ((hkeyiff ip).mp (hin.fldIds _ _ hip)),
          if_pos hcomp]
      · rw [if_neg hp] at hip
        rw [if_neg hq] at hiq
        rcases hin.adjCls p q ip iq hip hiq hadjpq with h | h
        · exact Or.inl h
        · exact Or.inr (hcoarseq ip iq ((hkeyiff ip).mp (hin.fldIds _ _ hip))
            ((hkeyiff iq).mp (hin.fldIds _ _ hiq)) h)
  · intro x hx
    rw [hpaths2] at hx
    exact Wreg x hx
  · intro hd i hi j hj
    rw [floodJunction_done] at hd
    have hd2 : ((floodJunction depth wf st point adjL tp).pm.map
        Prod.snd).dedup.length = 1 := by simpa using hd
    have hnd2 : ((floodJunction depth wf st point adjL tp).pm.map Prod.fst).Nodup := by
      rw [hkeys2]
      exact hkeysnd
    exact pm_done_classes hnd2 hd2 (by rw [hkeys2]; exact (hkeyiff i).mp hi)
      (by rw [hkeys2]; exact (hkeyiff j).mp hj)

theorem floodProcess_inv {region goals : List Point} {depth : Point → ℚ}
    (hgnd : goals.Nodup) {past future : List Point} {point : Point}
    (hsplit : floodOrder region goals depth = past ++ point :: future)
    {st : FloodState} (hin : FloodInv region goals depth past st) {wf : ℕ}
    (hwf : (floodOrder region goals depth).length < wf) :
    FloodInv region goals depth (past ++ [point])
      (floodProcess depth wf st point) := by
  have hmono : ∀ p ∈ past, p ∈ past ++ [point] := fun p hp =>
    List.mem_append.mpr (Or.inl hp)
  rcases floodProcess_cases depth wf st point with ⟨_, heq⟩ |
    ⟨k0, g0, restAdj, hadj, hdone, hcase⟩
  · rw [heq]
    exact floodInv_mono hin hmono
  · rcases hcase with ⟨heq, hrest⟩ | ⟨heq, hrest⟩
    · subst hrest
      rw [heq]
      exact floodProcess_inv_single hgnd hsplit hin hadj
    · rw [heq]
      have htpmem : minKeyAux k0 restAdj ∈ ((k0, g0) :: restAdj).map Prod.fst := by
        rcases minKeyAux_mem k0 restAdj with h | h
        · rw [List.map_cons, h]
          exact List.mem_cons_self _ _
        · rw [List.map_cons]
          exact List.mem_cons_of_mem _ h
      refine floodProcess_inv_junction hgnd hsplit hin hadj htpmem ?_
      have h1 : rankIn (floodOrder region goals depth) point ≤
          (floodOrder region goals depth).length := rankIn_le_length _ _
      omega

theorem floodFold_inv {region goals : List Point} {depth : Point → ℚ}
    (hgnd : goals.Nodup) {wf : ℕ}
    (hwf : (floodOrder region goals depth).length < wf) :
    ∀ (future past : List Point) (st : FloodState),
    floodOrder region goals depth = past ++ future →
    FloodInv region goals depth past st →
    FloodInv region goals depth (floodOrder region goals depth)
      (future.foldl (floodProcess depth wf) st) := by
  intro future
  induction future with
  | nil =>
    intro past st hsplit hin
    rw [List.foldl_nil]
    rw [List.append_nil] at hsplit
    rw [hsplit]
    exact hin
  | cons point future2 ih =>
    intro past st hsplit hin
    rw [List.foldl_cons]
    refine ih (past ++ [point]) _ ?_ (floodProcess_inv hgnd hsplit hin hwf)
    rw [hsplit, List.append_assoc]
    rfl

theorem floodFold_all_flooded {region goals : List Point} {depth : Point → ℚ}
    (hgnd : goals.Nodup) (hsm : SeedsCoverMinima region goals depth) {wf : ℕ}
    (hwf : (floodOrder region goals depth).length < wf) :
    ∀ (future past : List Point) (st : FloodState),
    floodOrder region goals depth = past ++ future →
    FloodInv region goals depth past st →
    (∀ q ∈ past, (st.flooded q).isSome = true) →
    (future.foldl (floodProcess depth wf) st).done = false →
    ∀ q ∈ past ++ future,
      ((future.foldl (floodProcess depth wf) st).flooded q).isSome = true := by
  intro future
  induction future with
  | nil =>
    intro past st hsplit hin hpast hdone q hq
    rw [List.foldl_nil]
    rw [List.append_nil] at hq
    exact hpast q hq
  | cons point future2 ih =>
    intro past st hsplit hin hpast hdone q hq
    rw [List.foldl_cons] at hdone ⊢
    have hstdone : st.done = false := by
      cases hd : st.done
      · rfl
      · have hda := floodFold_done_mono depth wf future2 (floodProcess depth wf st point)
          (@floodProcess_done_mono depth wf st point hd)
        rw [hda] at hdone
        cases hdone
    have hptflood : ((floodProcess depth wf st point).flooded point).isSome = true := by
      refine floodProcess_floods hstdone ?_
      have horder : point ∈ floodOrder region goals depth := by
        rw [hsplit]
        exact List.mem_append_right _ (List.mem_cons_self _ _)
      have hptreg : point ∈ region := floodOrder_subset horder
      have hptng : point ∉ goals := by
        intro h
        exact floodOrder_not_goal hgnd horder (mem_goalsIn.mpr ⟨h, hptreg⟩)
      rcases hsm point hptreg hptng with ⟨nb, hnbn, hnbreg, hnblt⟩
      have hnbfl : (st.flooded nb).isSome = true := by
        by_cases hg : nb ∈ goals
        · have hgin : nb ∈ goalsIn region goals := mem_goalsIn.mpr ⟨hg, hnbreg⟩
          rw [hin.fldGoal nb hgin]
          exact (floodInit_isSome region goals hgnd nb).mpr hgin
        · have hnbo : nb ∈ floodOrder region goals depth := by
            rw [mem_floodOrder]
            refine ⟨hnbreg, ?_⟩
            cases hinit : (floodInit region goals).flooded nb
            · rfl
            · exfalso
              apply hg
              exact (mem_goalsIn.mp ((floodInit_isSome region goals hgnd nb).mp
                (by rw [hinit]; rfl))).1
          have hnbpast : nb ∈ past := floodOrder_earlier hsplit hnbo hnblt
          exact hpast nb hnbpast
      rcases Option.isSome_iff_exists.mp hnbfl with ⟨inb, hinb⟩
      intro hempty
      have hcomp := @adjacentPuddles_complete st.flooded st.pm point nb hnbn inb hinb
      rw [hempty] at hcomp
      simp at hcomp
    have hsplit2 : floodOrder region goals depth = (past ++ [point]) ++ future2 := by
      rw [hsplit, List.append_assoc]
      rfl
    have hin2 := floodProcess_inv hgnd hsplit hin hwf
    have hpast2 : ∀ q2 ∈ past ++ [point],
        ((floodProcess depth wf st point).flooded q2).isSome = true := by
      intro q2 hq2
      rcases List.mem_append.mp hq2 with h | h
      · exact floodProcess_flooded_mono (hpast q2 h)
      · rw [List.mem_singleton] at h
        rw [h]
        exact hptflood
    refine ih (past ++ [point]) _ hsplit2 hin2 hpast2 hdone q ?_
    rw [List.append_assoc]
    exact hq

theorem flood_chain {region goals : List Point} {depth : Point → ℚ} {st : FloodState}
    (hinv : FloodInv region goals depth (floodOrder region goals depth) st)
    (hall : ∀ p ∈ region, (st.flooded p).isSome = true)
    {g1 : Point} (hg1 : g1 ∈ goalsIn region goals) :
    ∀ p, ReachableThrough region g1 p →
    ∃ g ig ip, g ∈ goalsIn region goals ∧ st.flooded g = some ig ∧
      st.flooded p = some ip ∧ pmLookup st.pm ig = pmLookup st.pm ip ∧
      ReachableThrough (st.paths ++ goals) g1 g := by
  intro p hreach
  induction hreach with
  | refl =>
    obtain ⟨i1, hi1⟩ := Option.isSome_iff_exists.mp
      (hall g1 (mem_goalsIn.mp hg1).2)
    exact ⟨g1, i1, i1, hg1, hi1, hi1, rfl, Relation.ReflTransGen.refl⟩
  | tail hab hstep ih =>
    rcases ih with ⟨g, ig, ib, hgIn, hfg, hfb, hpml, hreachg⟩
    obtain ⟨ic, hfc⟩ := Option.isSome_iff_exists.mp (hall _ hstep.1)
    rcases hinv.adjCls _ _ _ _ hfb hfc hstep.2 with ⟨hbg, hcg⟩ | heq
    · have hgb := hinv.conn g hgIn _ hbg ig ib hfg hfb hpml
      exact ⟨_, ic, ic, hcg, hfc, hfc, rfl, (hreachg.trans hgb).trans
        (Relation.ReflTransGen.single
          ⟨List.mem_append.mpr (Or.inr (mem_goalsIn.mp hcg).1), hstep.2⟩)⟩
    · exact ⟨g, ig, ic, hgIn, hfg, hfc, hpml.trans heq, hreachg⟩

theorem flood_valleys_eq (region goals : List Point) (depth : Point → ℚ) :
    flood_valleys region goals depth =
      ((floodOrder region goals depth).foldl
        (floodProcess depth (region.length + goals.length + 1))
        (floodInit region goals)).paths := rfl

theorem flood_valleys_correct (region goals : List Point) (depth : Point → ℚ)
    (hconn : RegionConnected region)
    (hsm : SeedsCoverMinima region goals depth)
    (hgnd : goals.Nodup) :
    (∀ x ∈ flood_valleys region goals depth, x ∈ region) ∧
    ∀ g1 ∈ goals, g1 ∈ region → ∀ g2 ∈ goals, g2 ∈ region →
      ReachableThrough (flood_valleys region goals depth ++ goals) g1 g2 := by
  have hwf : (floodOrder region goals depth).length <
      region.length + goals.length + 1 := floodOrder_length_lt region goals depth
  have hfin : FloodInv region goals depth (floodOrder region goals depth)
      ((floodOrder region goals depth).foldl
        (floodProcess depth (region.length + goals.length + 1))
        (floodInit region goals)) :=
    floodFold_inv hgnd hwf (floodOrder region goals depth) [] (floodInit region goals)
      rfl (floodInv_init region goals depth hgnd)
  constructor
  · intro x hx
    rw [flood_valleys_eq] at hx
    exact hfin.pathsReg x hx
  · intro g1 hg1 hg1r g2 hg2 hg2r
    have hgin1 : g1 ∈ goalsIn region goals := mem_goalsIn.mpr ⟨hg1, hg1r⟩
    have hgin2 : g2 ∈ goalsIn region goals := mem_goalsIn.mpr ⟨hg2, hg2r⟩
    rw [flood_valleys_eq]
    cases hdone : ((floodOrder region goals depth).foldl
        (floodProcess depth (region.length + goals.length + 1))
        (floodInit region goals)).done with
    | true =>
      obtain ⟨i1, hi1⟩ := Option.isSome_iff_exists.mp (show
          (((floodOrder region goals depth).foldl
            (floodProcess depth (region.length + goals.length + 1))
            (floodInit region goals)).flooded g1).isSome = true by
        rw [hfin.fldGoal g1 hgin1]
        exact (floodInit_isSome region goals hgnd g1).mpr hgin1)
      obtain ⟨i2, hi2⟩ := Option.isSome_iff_exists.mp (show
          (((floodOrder region goals depth).foldl
            (floodProcess depth (region.length + goals.length + 1))
            (floodInit region goals)).flooded g2).isSome = true by
        rw [hfin.fldGoal g2 hgin2]
        exact (floodInit_isSome region goals hgnd g2).mpr hgin2)
      have hcls := hfin.doneCls hdone i1 (hfin.fldIds _ _ hi1) i2 (hfin.fldIds _ _ hi2)
      exact hfin.conn g1 hgin1 g2 hgin2 i1 i2 hi1 hi2 hcls
    | false =>
      have hall0 := floodFold_all_flooded hgnd hsm hwf
        (floodOrder region goals depth) [] (floodInit region goals) rfl
        (floodInv_init region goals depth hgnd)
        (by intro q hq; cases hq) hdone
      have hall : ∀ p ∈ region, (((floodOrder region goals depth).foldl
          (floodProcess depth (region.length + goals.length + 1))
          (floodInit region goals)).flooded p).isSome = true := by
        intro p hpreg
        by_cases hg : p ∈ goals
        · have hgin : p ∈ goalsIn region goals := mem_goalsIn.mpr ⟨hg, hpreg⟩
          rw [hfin.fldGoal p hgin]
          exact (floodInit_isSome region goals hgnd p).mpr hgin
        · have hpo : p ∈ floodOrder region goals depth := by
            rw [mem_floodOrder]
            refine ⟨hpreg, ?_⟩
            cases hinit : (floodInit region goals).flooded p
            · rfl
            · exfalso
              exact hg (mem_goalsIn.mp ((floodInit_isSome region goals hgnd p).mp
                (by rw [hinit]; rfl))).1
          exact hall0 p hpo
      rcases flood_chain hfin hall hgin1 g2 (hconn g1 hg1r g2 hg2r) with
        ⟨g, ig, i2, hgIn, hfg, hf2, hpml, hreachg⟩
      exact hreachg.trans (hfin.conn g hgIn g2 hgin2 ig i2 hfg hf2 hpml)

/-- C1 counterexample: on the disconnected region `{(0,0), (2,0)}` with both
points as seeds (and a constant depth map, so every seed is its own basin's
unique local minimum and the seed-coverage hypothesis holds), `flood_valleys`
returns the empty path set, and the two in-region seeds are not reachable
from one another through the union of the returned path set and the seeds —
the claim omits the requirement that the region itself be 4-connected. -/
theorem C1_counterexample :
    SeedsCoverMinima [(⟨0, 0⟩ : Point), ⟨2, 0⟩] [⟨0, 0⟩, ⟨2, 0⟩] (fun _ => 0) ∧
    (⟨0, 0⟩ : Point) ∈ [(⟨0, 0⟩ : Point), ⟨2, 0⟩] ∧
    (⟨2, 0⟩ : Point) ∈ [(⟨0, 0⟩ : Point), ⟨2, 0⟩] ∧
    ¬ ReachableThrough
      (flood_valleys [(⟨0, 0⟩ : Point), ⟨2, 0⟩] [⟨0, 0⟩, ⟨2, 0⟩] (fun _ => 0) ++
        [⟨0, 0⟩, ⟨2, 0⟩]) ⟨0, 0⟩ ⟨2, 0⟩ := by
  refine ⟨?_, by simp, by simp, ?_⟩
  · intro p hp hng
    exact absurd hp hng
  · have hfv : flood_valleys [(⟨0, 0⟩ : Point), ⟨2, 0⟩] [⟨0, 0⟩, ⟨2, 0⟩]
        (fun _ => (0 : ℚ)) = [] := by rfl
    intro h
    rw [hfv] at h
    have key : ∀ q, ReachableThrough ([] ++ [(⟨0, 0⟩ : Point), ⟨2, 0⟩]) ⟨0, 0⟩ q →
        q = ⟨0, 0⟩ := by
      intro q hq
      induction hq with
      | refl => rfl
      | tail hab hstep ih =>
        rw [ih] at hstep
        rcases hstep with ⟨hcS, hadj⟩
        exfalso
        simp only [List.nil_append, List.mem_cons, List.not_mem_nil, or_false] at hcS
        rcases hcS with rfl | rfl
        · revert hadj
          decide
        · revert hadj
          decide
    exact absurd (key ⟨2, 0⟩ h) (by decide)

/-- C1 (corrected): for a 4-connected region, a duplicate-free seed list and
a depth map whose only local minima over the region are seeds, the point set
returned by `flood_valleys` is a subset of the region, and every in-region
seed is reachable from every other in-region seed by 4-neighbor steps through
the union of the returned path set and the seed points. -/
theorem C1_flood_connects_corrected (region goals : List Point) (depth : Point → ℚ)
    (hconn : RegionConnected region)
    (hsm : SeedsCoverMinima region goals depth)
    (hgnd : goals.Nodup) :
    (∀ x ∈ flood_valleys region goals depth, x ∈ region) ∧
    ∀ g1 ∈ goals, g1 ∈ region → ∀ g2 ∈ goals, g2 ∈ region →
      ReachableThrough (flood_valleys region goals depth ++ goals) g1 g2 :=
  flood_valleys_correct region goals depth hconn hsm hgnd

/-- Witness for C1 (corrected): the three-point line region
`{(0,0), (1,0), (2,0)}` with seeds at both ends and the middle point one unit
higher satisfies all three hypotheses, and the two seeds are connected
through the returned path set. -/
theorem C1_flood_connects_corrected_witness :
    RegionConnected [(⟨0, 0⟩ : Point), ⟨1, 0⟩, ⟨2, 0⟩] ∧
    SeedsCoverMinima [(⟨0, 0⟩ : Point), ⟨1, 0⟩, ⟨2, 0⟩] [⟨0, 0⟩, ⟨2, 0⟩]
      (fun p => if p = ⟨1, 0⟩ then 1 else 0) ∧
    ([(⟨0, 0⟩ : Point), ⟨2, 0⟩]).Nodup ∧
    ReachableThrough
      (flood_valleys [(⟨0, 0⟩ : Point), ⟨1, 0⟩, ⟨2, 0⟩] [⟨0, 0⟩, ⟨2, 0⟩]
        (fun p => if p = ⟨1, 0⟩ then 1 else 0) ++ [⟨0, 0⟩, ⟨2, 0⟩])
      ⟨0, 0⟩ ⟨2, 0⟩ := by
  have s01 : ReachableThrough [(⟨0, 0⟩ : Point), ⟨1, 0⟩, ⟨2, 0⟩] ⟨0, 0⟩ ⟨1, 0⟩ :=
    Relation.ReflTransGen.single ⟨by decide, by decide⟩
  have s12 : ReachableThrough [(⟨0, 0⟩ : Point), ⟨1, 0⟩, ⟨2, 0⟩] ⟨1, 0⟩ ⟨2, 0⟩ :=
    Relation.ReflTransGen.single ⟨by decide, by decide⟩
  have s10 : ReachableThrough [(⟨0, 0⟩ : Point), ⟨1, 0⟩, ⟨2, 0⟩] ⟨1, 0⟩ ⟨0, 0⟩ :=
    Relation.ReflTransGen.single ⟨by decide, by decide⟩
  have s21 : ReachableThrough [(⟨0, 0⟩ : Point), ⟨1, 0⟩, ⟨2, 0⟩] ⟨2, 0⟩ ⟨1, 0⟩ :=
    Relation.ReflTransGen.single ⟨by decide, by decide⟩
  have hconn : RegionConnected [(⟨0, 0⟩ : Point), ⟨1, 0⟩, ⟨2, 0⟩] := by
    intro p hp q hq
    simp only [List.mem_cons, List.not_mem_nil, or_false] at hp hq
    rcases hp with rfl | rfl | rfl <;> rcases hq with rfl | rfl | rfl
    · exact Relation.ReflTransGen.refl
    · exact s01
    · exact s01.trans s12
    · exact s10
    · exact Relation.ReflTransGen.refl
    · exact s12
    · exact s21.trans s10
    · exact s21
    · exact Relation.ReflTransGen.refl
  have hsm : SeedsCoverMinima [(⟨0, 0⟩ : Point), ⟨1, 0⟩, ⟨2, 0⟩] [⟨0, 0⟩, ⟨2, 0⟩]
      (fun p => if p = ⟨1, 0⟩ then 1 else 0) := by
    intro p hp hng
    simp only [List.mem_cons, List.not_mem_nil, or_false] at hp
    rcases hp with rfl | rfl | rfl
    · exact absurd (by simp) hng
    · exact ⟨⟨0, 0⟩, by decide, by decide, by norm_num⟩
    · exact absurd (by simp) hng
  have hgnd : ([(⟨0, 0⟩ : Point), ⟨2, 0⟩]).Nodup := by decide
  refine ⟨hconn, hsm, hgnd, ?_⟩
  exact (C1_flood_connects_corrected [(⟨0, 0⟩ : Point), ⟨1, 0⟩, ⟨2, 0⟩]
    [⟨0, 0⟩, ⟨2, 0⟩] (fun p => if p = ⟨1, 0⟩ then 1 else 0) hconn hsm hgnd).2
    ⟨0, 0⟩ (by decide) (by decide) ⟨2, 0⟩ (by decide) (by decide)

end Flax
